import Mathlib

/-!
# A shallow embedding of the `scm` interpreter (`Scheme.h`, `Repl.cpp`)

The interpreter reads text into a `value` tree, expands it into `std::any`
nodes and evaluates those against a chain of `Env` frames.

Modelling decisions:

* `Number` is `double` in the source; here it is exact rational arithmetic: no
  rounding and no overflow.  A quotient by zero, which is ±inf or NaN for a
  `double` and no rational number, ends the evaluation with `Err.non_finite`.
* `std::any` is the closed sum `Any`, one constructor per type the program
  ever stores in an `any`; `Any.type` plays the role of `any::type()`.
* `env_ptr` is an index into `Heap.envs`; `nullptr` is `none`.
* The `lst_ptr` held by a `Begin` node is an index into `Heap.lists`, because
  `eval` writes into that vector.  Every other `lst_ptr` is read-only after
  construction and is embedded by value.
* C++ exceptions are `Except.error`; undefined behaviour (unchecked indexing,
  `front()` of an empty vector, an invalid pointer) is `Err.undefined`: the
  program throws nothing there and nothing is known of what it does
  (`Err.thrown` tells the exceptions from the rest).
* The `while (true)` loop and recursion of `eval` are bounded by a fuel
  argument; `Err.fuel` reports exhaustion of the bound.
* The Boost.Spirit real parser, the file system, the stream formatting of a
  `double` and `type_info::name` are collaborators gathered in `Host`.
-/

namespace scm

/-- `typedef double Number`, in exact arithmetic. -/
abbrev Number := ℚ

/-- `struct value : std::variant<Number, String, Symbol, Boolean, std::vector<value>>`,
the untyped tree produced by the grammar. -/
inductive value where
  | num (x : Number)
  | str (s : String)
  | sym (s : String)
  | bool (b : Bool)
  | list (v : List value)

/-- The native procedures that `global_env` stores as `fun_ptr`. -/
inductive Prim where
  | plus | minus | divides | multiplies
  | gt | lt | le | ge | eq
  | car | cdr | list | length
  deriving DecidableEq, Repr

/-- The contents of a `std::any`.  `lst` is a `lst_ptr` (a Sequence), `vec` is a
`List` stored directly in the `any`, `begin_` carries the address of the
`List` behind `Begin::exps`, `function` carries the `env_ptr` of `Function::env`. -/
inductive Any where
  | num (x : Number)
  | str (s : String)
  | sym (s : String)
  | bool (b : Bool)
  | lst (l : List Any)
  | vec (l : List Any)
  | if_ (test conseq alt : Any)
  | quote (exp : Any)
  | define (sym : String) (exp : Any)
  | lambda (parms body : Any)
  | begin_ (exps : Nat)
  | function (parms body : Any) (env : Nat)
  | import_ (code : String)
  | fn (f : Prim)

instance : Inhabited Any := ⟨Any.lst []⟩

/-- The types an `any` can hold, as told apart by `any::type()`. -/
inductive TypeId where
  | Number | String | Symbol | Boolean | lst_ptr | List
  | If | Quote | Define | Lambda | Begin | Function | Import | fun_ptr
  deriving DecidableEq, Repr

/-- `exp.type()`. -/
def Any.type : Any → TypeId
  | .num _ => .Number
  | .str _ => .String
  | .sym _ => .Symbol
  | .bool _ => .Boolean
  | .lst _ => .lst_ptr
  | .vec _ => .List
  | .if_ _ _ _ => .If
  | .quote _ => .Quote
  | .define _ _ => .Define
  | .lambda _ _ => .Lambda
  | .begin_ _ => .Begin
  | .function _ _ _ => .Function
  | .import_ _ => .Import
  | .fn _ => .fun_ptr

mutual
/-- Structural equality test on `Any`. -/
def Any.beq : Any → Any → Bool
  | .num x, b => match b with
    | .num y => decide (x = y)
    | _ => false
  | .str s, b => match b with
    | .str t => decide (s = t)
    | _ => false
  | .sym s, b => match b with
    | .sym t => decide (s = t)
    | _ => false
  | .bool a, b => match b with
    | .bool c => decide (a = c)
    | _ => false
  | .lst l, b => match b with
    | .lst k => Any.beqList l k
    | _ => false
  | .vec l, b => match b with
    | .vec k => Any.beqList l k
    | _ => false
  | .if_ a1 a2 a3, b => match b with
    | .if_ x y z => Any.beq a1 x && Any.beq a2 y && Any.beq a3 z
    | _ => false
  | .quote a1, b => match b with
    | .quote x => Any.beq a1 x
    | _ => false
  | .define s a1, b => match b with
    | .define t x => decide (s = t) && Any.beq a1 x
    | _ => false
  | .lambda a1 a2, b => match b with
    | .lambda x y => Any.beq a1 x && Any.beq a2 y
    | _ => false
  | .begin_ p, b => match b with
    | .begin_ q => decide (p = q)
    | _ => false
  | .function a1 a2 e, b => match b with
    | .function x y f => Any.beq a1 x && Any.beq a2 y && decide (e = f)
    | _ => false
  | .import_ s, b => match b with
    | .import_ t => decide (s = t)
    | _ => false
  | .fn f, b => match b with
    | .fn g => decide (f = g)
    | _ => false
/-- Structural equality test on lists of `Any`. -/
def Any.beqList : List Any → List Any → Bool
  | [], k => match k with
    | [] => true
    | _ :: _ => false
  | a :: l, k => match k with
    | [] => false
    | b :: k => Any.beq a b && Any.beqList l k
end

/-- What can end a computation other than a value: the exceptions the program
throws, undefined behaviour, and exhaustion of the fuel bound. -/
inductive Err where
  | runtime_error (what : String)
  | invalid_argument (what : String)
  | bad_any_cast
  | undefined
  | non_finite
  | fuel
  deriving DecidableEq, Repr

/-- The outcome is an exception that the program throws (`std::runtime_error`,
`std::invalid_argument`, `std::bad_any_cast`) and that the loop of `main` catches and
reports; undefined behaviour, a `double` that is no rational number and the end of the
fuel are not. -/
def Err.thrown : Err → Bool
  | .runtime_error _ => true
  | .invalid_argument _ => true
  | .bad_any_cast => true
  | .undefined => false
  | .non_finite => false
  | .fuel => false

/-- Equality of outcomes is decidable when it is for errors and values. -/
instance instDecidableEqOutcome {ε α : Type} [DecidableEq ε] [DecidableEq α] :
    DecidableEq (Except ε α)
  | .ok a, .ok b => if h : a = b then isTrue (by rw [h]) else isFalse (by intro h1; cases h1; exact h rfl)
  | .error a, .error b =>
    if h : a = b then isTrue (by rw [h]) else isFalse (by intro h1; cases h1; exact h rfl)
  | .ok _, .error _ => isFalse (by intro h; cases h)
  | .error _, .ok _ => isFalse (by intro h; cases h)

/-- `std::unordered_map<std::string, std::any>`: `Env::self`. -/
abbrev Table := List (String × Any)

/-- `self.contains(sym) ? self.at(sym)`. -/
def Table.find : Table → String → Option Any
  | [], _ => none
  | (k, v) :: m, sym => if k = sym then some v else Table.find m sym

/-- `self[sym] = v`: overwrite the entry of `sym`, or insert one. -/
def Table.set : Table → String → Any → Table
  | [], sym, v => [(sym, v)]
  | (k, w) :: m, sym, v => if k = sym then (k, v) :: m else (k, w) :: Table.set m sym v

/-- `class Env`: the local table and the link to the outer frame. -/
structure Env where
  self : Table
  outer : Option Nat

/-- The objects reached through shared pointers: the `Env` frames (an `env_ptr`
is an index into `envs`) and the vectors behind `Begin::exps`. -/
structure Heap where
  envs : List Env
  lists : List (List Any)

/-- The collaborators outside the repository. -/
structure Host where
  /-- `x3::double_` at the start of the input, after skipping: the number and the rest. -/
  double_ : List Char → Option (Number × List Char)
  /-- The contents `std::ifstream` delivers for a file name (empty when it cannot be opened). -/
  ifstream : String → String
  /-- `os << double`. -/
  showNumber : Number → String
  /-- `std::type_info::name()`. -/
  name : TypeId → String

/-- The loop of `Env::get`, bounded by the number of frames still to visit. -/
def Env.getFrom (envs : List Env) (sym : String) : Nat → Nat → Except Err Any
  | 0, _ => .error .undefined
  | n + 1, a =>
    match envs[a]? with
    | none => .error .undefined
    | some e =>
      match e.self.find sym with
      | some v => .ok v
      | none =>
        match e.outer with
        | some o => Env.getFrom envs sym n o
        | none => .error (.runtime_error ("undefined symbol: " ++ sym))

/-- `env->get(sym)` for the frame at address `env`. -/
def Env.get (st : Heap) (env : Nat) (sym : String) : Except Err Any :=
  Env.getFrom st.envs sym st.envs.length env

/-- The loop of the `Env` constructor over a parameter list, from index `i`. -/
def Env.bindAt (args : List Any) : List Any → Nat → Table → Except Err Table
  | [], _, self => .ok self
  | p :: parms, i, self =>
    match p with
    | .sym sym =>
      match args[i]? with
      | none => .error .undefined
      | some a => Env.bindAt args parms (i + 1) (self.set sym a)
    | _ => .error .bad_any_cast

/-- `Env(const std::any& parm, const List& args, env_ptr outer)`. -/
def Env.ctor (parm : Any) (args : List Any) (outer : Nat) : Except Err Env :=
  match parm with
  | .lst parms =>
    match Env.bindAt args parms 0 [] with
    | .ok self => .ok { self := self, outer := some outer }
    | .error e => .error e
  | .sym sym => .ok { self := [(sym, .vec args)], outer := some outer }
  | _ => .error .bad_any_cast

/-- `env->self[sym] = v` on the frame at address `env`. -/
def Heap.define (st : Heap) (env : Nat) (sym : String) (v : Any) : Heap :=
  { st with envs := st.envs.modify (fun e => { e with self := e.self.set sym v }) env }

/-- `std::make_shared<Env>(...)`: the new frame gets the next address. -/
def Heap.alloc (st : Heap) (e : Env) : Heap :=
  { st with envs := st.envs ++ [e] }

/-- Writing `v` to element `i` of the vector at address `p`. -/
def Heap.write (st : Heap) (p i : Nat) (v : Any) : Heap :=
  { st with lists := st.lists.modify (fun l => l.set i v) p }

/-- The `std::transform` with `any_cast<Number>` in `accumulate`. -/
def numbers : List Any → Except Err (List Number)
  | [] => .ok []
  | .num x :: l =>
    match numbers l with
    | .ok xs => .ok (x :: xs)
    | .error e => .error e
  | _ :: _ => .error .bad_any_cast

/-- `accumulate<Op>`: the fold seeded with the first argument.  The source calls
`front()` and `std::next(begin())` without a size check, so the empty list is
undefined behaviour. -/
def accumulate (op : Number → Number → Number) (lst : List Any) : Except Err Any :=
  match numbers lst with
  | .error e => .error e
  | .ok [] => .error .undefined
  | .ok (x :: xs) => .ok (.num (xs.foldl op x))

/-- Some argument after the first is zero: the `double` fold of `std::divides` then
is ±inf or NaN. -/
def zero_divisor (lst : List Any) : Bool :=
  match numbers lst with
  | .ok (_ :: xs) => xs.any (fun y => decide (y = 0))
  | _ => false

/-- The comparison lambdas of `global_env`: `lst[0]` against `lst[1]`. -/
def compare (op : Number → Number → Bool) (lst : List Any) : Except Err Any :=
  match lst with
  | a :: b :: _ =>
    match a, b with
    | .num x, .num y => .ok (.bool (op x y))
    | _, _ => .error .bad_any_cast
  | _ => .error .undefined

/-- Calling a `fun_ptr` of `global_env` on the evaluated arguments.  For `/` a zero
divisor ends in `Err.non_finite`: the `double` quotient is no rational number, and the
model gives it no value. -/
def Prim.call : Prim → List Any → Except Err Any
  | .plus, lst => accumulate (· + ·) lst
  | .minus, lst => accumulate (· - ·) lst
  | .divides, lst =>
    if zero_divisor lst then .error .non_finite else accumulate (· / ·) lst
  | .multiplies, lst => accumulate (· * ·) lst
  | .gt, lst => compare (fun x y => decide (x > y)) lst
  | .lt, lst => compare (fun x y => decide (x < y)) lst
  | .le, lst => compare (fun x y => decide (x ≤ y)) lst
  | .ge, lst => compare (fun x y => decide (x ≥ y)) lst
  | .eq, lst => compare (fun x y => decide (x = y)) lst
  | .car, lst =>
    match lst with
    | [] => .error .undefined
    | .lst l :: _ =>
      match l with
      | [] => .error .undefined
      | x :: _ => .ok x
    | _ :: _ => .error .bad_any_cast
  | .cdr, lst =>
    match lst with
    | [] => .error .undefined
    | .lst l :: _ =>
      match l with
      | [] => .error .undefined
      | _ :: t => .ok (.lst t)
    | _ :: _ => .error .bad_any_cast
  | .list, lst => .ok (.lst lst)
  | .length, lst =>
    match lst with
    | [] => .error .undefined
    | .lst l :: _ => .ok (.num l.length)
    | _ :: _ => .error .bad_any_cast

/-- The value of `std::numbers::pi` as a `double`. -/
def pi : Number := 884279719003555 / 281474976710656

/-- The table of `global_env()`. -/
def global_table : Table :=
  [ ("pi", .num pi),
    ("+", .fn .plus),
    ("-", .fn .minus),
    ("/", .fn .divides),
    ("*", .fn .multiplies),
    (">", .fn .gt),
    ("<", .fn .lt),
    ("<=", .fn .le),
    (">=", .fn .ge),
    ("=", .fn .eq),
    ("car", .fn .car),
    ("cdr", .fn .cdr),
    ("list", .fn .list),
    ("length", .fn .length) ]

/-- `global_env()`: a heap holding only the root frame, at address 0. -/
def global_env : Heap :=
  { envs := [{ self := global_table, outer := none }], lists := [] }

mutual
/-- `operator<<(std::ostream&, const std::any)`, as the text written. -/
def print (h : Host) : Any → String
  | .lst l => "(" ++ printElems h l ++ ")"
  | .num x => h.showNumber x
  | .sym s => s
  | .str s => "\"" ++ s ++ "\""
  | .bool b => if b then "true" else "false"
  | .define sym exp => "(define " ++ sym ++ " " ++ print h exp ++ ")"
  | .quote exp => "(quote " ++ print h exp ++ ")"
  | .vec _ => h.name .List
  | .if_ _ _ _ => h.name .If
  | .lambda _ _ => h.name .Lambda
  | .begin_ _ => h.name .Begin
  | .function _ _ _ => h.name .Function
  | .import_ _ => h.name .Import
  | .fn _ => h.name .fun_ptr
/-- The loop over the elements of a list: a space after each but the last. -/
def printElems (h : Host) : List Any → String
  | [] => ""
  | x :: l =>
    match l with
    | [] => print h x
    | _ :: _ => print h x ++ " " ++ printElems h l
end

/-- The outcome of a Spirit parser on an input: the attribute and the unconsumed
rest, a failed match, or exhaustion of the fuel bound of the model. -/
inductive Parsed (α : Type) where
  | ok (attr : α) (rest : List Char)
  | fail
  | fuel

/-- `x3::space`. -/
def space (c : Char) : Bool :=
  c = ' ' || c = '\t' || c = '\n' || c = '\r' || c = Char.ofNat 11 || c = Char.ofNat 12

/-- The pre-skip of `x3::skip(x3::space)`. -/
def skip : List Char → List Char
  | [] => []
  | c :: cs => if space c then skip cs else c :: cs

/-- The character class of `symbol__def`. -/
def symbol_char (c : Char) : Bool :=
  c.isAlpha || c.isDigit || c = '_' || c = '-' || "+*/%~&|^!=<>?".data.contains c

/-- `*(char_ - '"') >> '"'`: the characters up to the closing quote. -/
def string_body : List Char → Option (List Char × List Char)
  | [] => none
  | c :: cs =>
    if c = '"' then some ([], cs)
    else
      match string_body cs with
      | some (body, rest) => some (c :: body, rest)
      | none => none

/-- `string__def = lexeme['"' >> *(char_ - '"') >> '"']`. -/
def string_ : List Char → Option (String × List Char)
  | [] => none
  | c :: cs =>
    if c = '"' then
      match string_body cs with
      | some (body, rest) => some (String.mk body, rest)
      | none => none
    else none

/-- `*(char_ - "]]") >> "]]"`: the characters up to the closing brackets. -/
def multi_string_body : List Char → Option (List Char × List Char)
  | [] => none
  | [_] => none
  | c :: d :: cs =>
    if c = ']' ∧ d = ']' then some ([], cs)
    else
      match multi_string_body (d :: cs) with
      | some (body, rest) => some (c :: body, rest)
      | none => none

/-- `multi_string__def = lexeme["[[" >> *(char_ - "]]") >> "]]"]`. -/
def multi_string_ : List Char → Option (String × List Char)
  | c :: d :: cs =>
    if c = '[' ∧ d = '[' then
      match multi_string_body cs with
      | some (body, rest) => some (String.mk body, rest)
      | none => none
    else none
  | _ => none

/-- `struct bool_table : x3::symbols<Boolean>`: `true` or `false` as a prefix of the input. -/
def boolean_ (cs : List Char) : Option (Bool × List Char) :=
  if "true".data.isPrefixOf cs then some (true, cs.drop 4)
  else if "false".data.isPrefixOf cs then some (false, cs.drop 5)
  else none

/-- `+(...)` of `symbol__def`: the longest run of symbol characters. -/
def symbol_run : List Char → List Char × List Char
  | [] => ([], [])
  | c :: cs =>
    if symbol_char c then ((c :: (symbol_run cs).1), (symbol_run cs).2)
    else ([], c :: cs)

/-- `symbol__def = lexeme[+(...)]`. -/
def symbol_ (cs : List Char) : Option (String × List Char) :=
  match symbol_run cs with
  | ([], _) => none
  | (c :: run, rest) => some (String.mk (c :: run), rest)

mutual
/-- `value__def = number_ | string_ | boolean_ | multi_string_ | symbol_ | list_`,
with `list__def = '(' >> *value_ >> ')'` as its last alternative. -/
def value_ (h : Host) : Nat → List Char → Parsed value
  | 0, _ => .fuel
  | n + 1, input =>
    match h.double_ (skip input) with
    | some (x, rest) => .ok (.num x) rest
    | none =>
    match string_ (skip input) with
    | some (s, rest) => .ok (.str s) rest
    | none =>
    match boolean_ (skip input) with
    | some (b, rest) => .ok (.bool b) rest
    | none =>
    match multi_string_ (skip input) with
    | some (s, rest) => .ok (.str s) rest
    | none =>
    match symbol_ (skip input) with
    | some (s, rest) => .ok (.sym s) rest
    | none =>
    match skip input with
    | [] => .fail
    | c :: cs =>
      if c = '(' then
        match star_value_ h n cs with
        | .ok v rest =>
          match skip rest with
          | [] => .fail
          | d :: rest1 => if d = ')' then .ok (.list v) rest1 else .fail
        | .fail => .fail
        | .fuel => .fuel
      else .fail
/-- `*value_`. -/
def star_value_ (h : Host) : Nat → List Char → Parsed (List value)
  | 0, _ => .fuel
  | n + 1, input =>
    match value_ h n input with
    | .ok x rest =>
      match star_value_ h n rest with
      | .ok v rest1 => .ok (x :: v) rest1
      | .fail => .fail
      | .fuel => .fuel
    | .fail => .ok [] input
    | .fuel => .fuel
end

/-- The classification of `visitor::operator()(const std::vector<T>&)` once the
elements are expanded: `list` is non-empty, `m` are the vectors allocated so far. -/
def visitor (h : Host) (list : List Any) (m : List (List Any)) :
    Except Err (Any × List (List Any)) :=
  match list with
  | .sym token :: _ =>
    if token = "quote" then
      match list with
      | [_, exp] => .ok (.quote exp, m)
      | _ => .error (.invalid_argument "wrong number of arguments to quote")
    else if (token = "<" ∨ token = ">" ∨ token = "<=" ∨ token = ">=" ∨ token = "==")
        ∧ list.length ≠ 3 then
      .error (.invalid_argument ("wrong number of arguments to " ++ token))
    else if token = "if" then
      match list with
      | [_, test, conseq, alt] => .ok (.if_ test conseq alt, m)
      | _ => .error (.invalid_argument "wrong number of arguments to if")
    else if token = "lambda" then
      match list with
      | [_, parms, body] => .ok (.lambda parms body, m)
      | _ => .error (.invalid_argument "wrong Number of arguments to lambda")
    else if token = "begin" then
      if list.length < 2 then
        .error (.invalid_argument "wrong Number of arguments to begin")
      else .ok (.begin_ m.length, m ++ [list.tail])
    else if token = "define" then
      if list.length < 3 ∨ list.length > 4 then
        .error (.invalid_argument "wrong number of arguments to define")
      else
        match list with
        | [_, .sym sym, exp] => .ok (.define sym exp, m)
        | [_, .sym sym, parms, body] => .ok (.define sym (.lambda parms body), m)
        | _ => .error (.invalid_argument "first argument to define must be a Symbol")
    else if token = "import" then
      match list with
      | [_, arg] =>
        match arg with
        | .str filename => .ok (.import_ (h.ifstream filename), m)
        | _ => .error (.invalid_argument "Argument to import must be a String")
      | _ => .error (.invalid_argument "wrong number of arguments to import")
    else .ok (.lst list, m)
  | _ => .ok (.lst list, m)

mutual
/-- `expand(value const&)`, that is `std::visit(visitor, v)`. -/
def expand (h : Host) : value → List (List Any) → Except Err (Any × List (List Any))
  | .num x, m => .ok (.num x, m)
  | .str s, m => .ok (.str s, m)
  | .sym s, m => .ok (.sym s, m)
  | .bool b, m => .ok (.bool b, m)
  | .list v, m =>
    match v with
    | [] => .ok (.lst [], m)
    | x :: xs =>
      match expand_all h (x :: xs) m with
      | .ok (list, m1) => visitor h list m1
      | .error e => .error e
/-- `std::transform(v.begin(), v.end(), list.begin(), expand)`. -/
def expand_all (h : Host) : List value → List (List Any) → Except Err (List Any × List (List Any))
  | [], m => .ok ([], m)
  | x :: xs, m =>
    match expand h x m with
    | .ok (a, m1) =>
      match expand_all h xs m1 with
      | .ok (list, m2) => .ok (a :: list, m2)
      | .error e => .error e
    | .error e => .error e
end

/-- `read(input)`: `x3::parse` with `entry_point`, then the expansion of the value.
`parse` reports whether the grammar matched; what it leaves unconsumed is not inspected. -/
def read (h : Host) (input : String) (m : List (List Any)) :
    Except Err (Any × List (List Any)) :=
  match value_ h (2 * input.length + 2) input.data with
  | .ok val _ => expand h val m
  | .fail => .error (.runtime_error ("Parse failed, remaining input: " ++ input))
  | .fuel => .error .fuel

/-- `std::transform(list->begin(), list->end(), call.begin(), std::bind(eval, _1, env))`
into a fresh vector, `ev` being `eval` in the current environment. -/
def transform (ev : Heap → Any → Except Err (Any × Heap)) :
    Heap → List Any → Except Err (List Any × Heap)
  | st, [] => .ok ([], st)
  | st, x :: xs =>
    match ev st x with
    | .ok (v, st1) =>
      match transform ev st1 xs with
      | .ok (vs, st2) => .ok (v :: vs, st2)
      | .error e => .error e
    | .error e => .error e

/-- `std::transform(exps->begin(), std::prev(exps->end()), exps->begin(), std::bind(eval, _1, env))`
on the vector at address `p`: `k` elements from index `i` on are read, evaluated and
overwritten with their value. -/
def transform_in_place (ev : Heap → Any → Except Err (Any × Heap)) (p : Nat) :
    Nat → Nat → Heap → Except Err Heap
  | 0, _, st => .ok st
  | k + 1, i, st =>
    match st.lists[p]? with
    | none => .error .undefined
    | some l =>
      match l[i]? with
      | none => .error .undefined
      | some x =>
        match ev st x with
        | .ok (v, st1) => transform_in_place ev p k (i + 1) (st1.write p i v)
        | .error e => .error e

/-- `eval(exp, env)`; every turn of the `while (true)` loop and every nested call
uses one unit of fuel. -/
def eval (h : Host) : Nat → Heap → Any → Nat → Except Err (Any × Heap)
  | 0, _, _, _ => .error .fuel
  | n + 1, st, exp, env =>
    match exp with
    | .num x => .ok (.num x, st)
    | .str s => .ok (.str s, st)
    | .bool b => .ok (.bool b, st)
    | .sym symbol =>
      match Env.get st env symbol with
      | .ok v => .ok (v, st)
      | .error e => .error e
    | .define sym exp1 =>
      match eval h n st exp1 env with
      | .ok (v, st1) => .ok (v, st1.define env sym v)
      | .error e => .error e
    | .lambda parms body => .ok (.function parms body env, st)
    | .quote exp1 => .ok (exp1, st)
    | .import_ code =>
      match read h code st.lists with
      | .ok (exp1, m) => eval h n { st with lists := m } exp1 env
      | .error e => .error e
    | .if_ test conseq alt =>
      match eval h n st test env with
      | .ok (.bool b, st1) => eval h n st1 (if b then conseq else alt) env
      | .ok (_, _) => .error .bad_any_cast
      | .error e => .error e
    | .begin_ p =>
      match st.lists[p]? with
      | none => .error .undefined
      | some [] => .error .undefined
      | some (_ :: xs) =>
        match transform_in_place (fun s a => eval h n s a env) p xs.length 0 st with
        | .ok st1 =>
          match (st1.lists[p]?).bind List.getLast? with
          | some last => eval h n st1 last env
          | none => .error .undefined
        | .error e => .error e
    | .lst list =>
      match transform (fun s a => eval h n s a env) st list with
      | .ok ([], _) => .error .undefined
      | .ok (func :: args, st1) =>
        match func with
        | .function parms body fenv =>
          match Env.ctor parms args fenv with
          | .ok frame => eval h n (st1.alloc frame) body st1.envs.length
          | .error e => .error e
        | .fn function =>
          match function.call args with
          | .ok v => .ok (v, st1)
          | .error e => .error e
        | _ => .error (.runtime_error ("undefined function: " ++ print h func))
      | .error e => .error e
    | .vec _ => .error .bad_any_cast
    | .function _ _ _ => .error .bad_any_cast
    | .fn _ => .error .bad_any_cast

/-! ### A reference host

The collaborators of `Host`, fixed to one choice so that programs can be run:
decimal real literals, no files, `printf("%g")` formatting and the type names
the expected results of `Repl.cpp` show (`struct scm::Function`). -/

/-- The longest run of decimal digits. -/
def digit_run : List Char → List Char × List Char
  | [] => ([], [])
  | c :: cs =>
    if c.isDigit then ((c :: (digit_run cs).1), (digit_run cs).2)
    else ([], c :: cs)

/-- The number written by a run of decimal digits. -/
def digits_value (ds : List Char) : Nat :=
  ds.foldl (fun n c => 10 * n + (c.toNat - 48)) 0

/-- An optional sign: its factor and the rest. -/
def sign_of : List Char → Int × List Char
  | [] => (1, [])
  | c :: cs => if c = '-' then (-1, cs) else if c = '+' then (1, cs) else (1, c :: cs)

/-- An optional exponent part `e[+-]digits`: the power of ten and the rest; an
`e` not followed by digits is not consumed. -/
def exponent_of (cs : List Char) : Int × List Char :=
  match cs with
  | [] => (0, cs)
  | c :: r =>
    if c = 'e' ∨ c = 'E' then
      match digit_run (sign_of r).2 with
      | ([], _) => (0, cs)
      | (d :: ds, rest) => ((sign_of r).1 * digits_value (d :: ds), rest)
    else (0, cs)

/-- The mantissa of a real literal: integer digits, then optionally a dot and
fraction digits; at least one digit in all.  Gives the digits read, the number
of fraction digits and the rest. -/
def mantissa_of (cs : List Char) : Option (List Char × Nat × List Char) :=
  match digit_run cs with
  | (ip, r) =>
    match r with
    | [] => if ip = [] then none else some (ip, 0, [])
    | c :: r1 =>
      if c = '.' then
        match digit_run r1 with
        | (fp, r2) => if ip = [] ∧ fp = [] then none else some (ip ++ fp, fp.length, r2)
      else if ip = [] then none else some (ip, 0, c :: r1)

/-- Modelled from the spec: the `Number` rule of the grammar, "standard floating-point
literal syntax including optional sign, fractional part, and exponent", with the
literal's exact decimal value (the source delegates to `x3::double_`). -/
def decimal_ (cs : List Char) : Option (Number × List Char) :=
  match mantissa_of (sign_of cs).2 with
  | none => none
  | some (ds, k, r) =>
    some (((sign_of cs).1 * digits_value ds : Int) * (10 : ℚ) ^ ((exponent_of r).1 - k),
      (exponent_of r).2)

/-- The decimal exponent `x` with `10 ^ x ≤ a < 10 ^ (x + 1)` for `a > 0`, searched
within `fuel` steps from `x`. -/
def decimal_exponent (a : ℚ) : Nat → Int → Int
  | 0, x => x
  | n + 1, x =>
    if a < (10 : ℚ) ^ x then decimal_exponent a n (x - 1)
    else if (10 : ℚ) ^ (x + 1) ≤ a then decimal_exponent a n (x + 1)
    else x

/-- Dropping the trailing zeros of a digit string. -/
def strip_zeros (ds : List Char) : List Char :=
  (ds.reverse.dropWhile (· = '0')).reverse

/-- The decimal digits of `m`, padded on the left with zeros to `width`. -/
def pad_digits (width m : Nat) : List Char :=
  List.replicate (width - (Nat.repr m).length) '0' ++ (Nat.repr m).data

/-- The digits and decimal exponent of `a > 0` rounded to six significant digits. -/
def six_digits (a : ℚ) : Nat × Int :=
  let x := decimal_exponent a 400 0
  let m := (round (a / (10 : ℚ) ^ (x - 5))).toNat
  if m ≥ 1000000 then (100000, x + 1) else (m, x)

/-- Modelled from the spec: "general-purpose ... floating formatting with scientific
notation for very large/small magnitudes", here `printf("%g")` with the default
precision 6, which is what `os << double` produces. -/
def show_g (q : Number) : String :=
  if q = 0 then "0"
  else
    let sgn := if q < 0 then "-" else ""
    let (m, x) := six_digits |q|
    let ds := pad_digits 6 m
    if x < -4 ∨ x ≥ 6 then
      let frac := strip_zeros (ds.drop 1)
      let mant := if frac = [] then ds.take 1 else ds.take 1 ++ '.' :: frac
      let es := if x < 0 then "-" else "+"
      sgn ++ String.mk mant ++ "e" ++ es ++ String.mk (pad_digits 2 x.natAbs)
    else if x < 0 then
      sgn ++ "0." ++ String.mk (List.replicate (x.natAbs - 1) '0' ++ strip_zeros ds)
    else
      let frac := strip_zeros (ds.drop (x.toNat + 1))
      if frac = [] then sgn ++ String.mk (ds.take (x.toNat + 1))
      else sgn ++ String.mk (ds.take (x.toNat + 1) ++ '.' :: frac)

/-- The type names the expected outputs of `Repl.cpp` are written in. -/
def type_name : TypeId → String
  | .Number => "double"
  | .String => "class std::basic_string<char,struct std::char_traits<char>,class std::allocator<char> >"
  | .Symbol => "struct scm::Symbol"
  | .Boolean => "bool"
  | .lst_ptr => "class std::shared_ptr<class std::vector<class std::any,class std::allocator<class std::any> > >"
  | .List => "class std::vector<class std::any,class std::allocator<class std::any> >"
  | .If => "struct scm::If"
  | .Quote => "struct scm::Quote"
  | .Define => "struct scm::Define"
  | .Lambda => "struct scm::Lambda"
  | .Begin => "struct scm::Begin"
  | .Function => "struct scm::Function"
  | .Import => "struct scm::Import"
  | .fun_ptr => "class std::function<class std::any __cdecl(class std::vector<class std::any,class std::allocator<class std::any> > const &)>"

/-- The reference host: decimal literals, an empty file system, `%g` and the type
names above. -/
def stdHost : Host :=
  { double_ := decimal_, ifstream := fun _ => "", showNumber := show_g, name := type_name }

/-- One line of the driver: `print(eval(read(exp), env))` on the global frame
(address 0), returning the text and the heap left behind. -/
def test (h : Host) (fuel : Nat) (st : Heap) (exp : String) : Except Err (String × Heap) :=
  match read h exp st.lists with
  | .ok (e, m) =>
    match eval h fuel { st with lists := m } e 0 with
    | .ok (v, st1) => .ok (print h v, st1)
    | .error err => .error err
  | .error err => .error err

/-- The lines of a session, one after the other on the same heap: the texts printed. -/
def session (h : Host) (fuel : Nat) : Heap → List String → Except Err (List String)
  | _, [] => .ok []
  | st, exp :: exps =>
    match test h fuel st exp with
    | .ok (out, st1) =>
      match session h fuel st1 exps with
      | .ok outs => .ok (out :: outs)
      | .error err => .error err
    | .error err => .error err

/-! ### Notions used to state the properties -/

/-- The frames `Env::get` visits from address `a`, innermost first, following the
`outer` links for at most `n` frames. -/
def Env.chainFrom (envs : List Env) : Nat → Nat → List Env
  | 0, _ => []
  | n + 1, a =>
    match envs[a]? with
    | none => []
    | some e =>
      match e.outer with
      | some o => e :: Env.chainFrom envs n o
      | none => [e]

/-- The chain of frames of the environment at address `env`. -/
def Env.chain (st : Heap) (env : Nat) : List Env :=
  Env.chainFrom st.envs st.envs.length env

/-- Every `outer` link points to a frame allocated earlier: a child is constructed
from the `env_ptr` of an existing frame and the link is never reassigned. -/
def Heap.linked (st : Heap) : Prop :=
  ∀ (a : Nat) (e : Env), st.envs[a]? = some e → ∀ o, e.outer = some o → o < a

/-- The body of `fact` in `Repl.cpp`, `(if (<= n 1) 1 (* n (fact (- n 1))))`, expanded. -/
def fact_body : Any :=
  .if_ (.lst [.sym "<=", .sym "n", .num 1]) (.num 1)
    (.lst [.sym "*", .sym "n", .lst [.sym "fact", .lst [.sym "-", .sym "n", .num 1]]])

/-- The closure `(lambda (n) ...)` of `fact` created in the global frame. -/
def fact_function : Any :=
  .function (.lst [.sym "n"]) fact_body 0

/-- A heap in which the global frame binds `fact` to its closure and `<=`, `*`, `-`
to the primitives. -/
def Heap.has_fact (st : Heap) : Prop :=
  ∃ g : Env, st.envs[0]? = some g
    ∧ g.self.find "fact" = some fact_function
    ∧ g.self.find "<=" = some (.fn .le)
    ∧ g.self.find "*" = some (.fn .multiplies)
    ∧ g.self.find "-" = some (.fn .minus)

/-- Whether a raw tree is a `Symbol`. -/
def value.is_sym : value → Bool
  | .sym _ => true
  | _ => false

/-- Whether a raw tree is a `String`. -/
def value.is_str : value → Bool
  | .str _ => true
  | _ => false

/-- Whether the first tree of a list is a `Symbol`. -/
def value.head_is_sym : List value → Bool
  | x :: _ => x.is_sym
  | [] => false

/-- Whether the first tree of a list is a `String`. -/
def value.head_is_str : List value → Bool
  | x :: _ => x.is_str
  | [] => false

/-- Whether the first node of a list is a `Symbol`. -/
def Any.head_is_sym : List Any → Bool
  | .sym _ :: _ => true
  | _ => false

/-- Whether the first node of a list is a `String`. -/
def Any.head_is_str : List Any → Bool
  | .str _ :: _ => true
  | _ => false

/-- The arity and shape violations of a list with head symbol `token`, `size` elements
and a second element that is, or is not, a `Symbol` or a `String`. -/
def malformed_form (token : String) (size : Nat) (second_sym second_str : Bool) : Bool :=
  (token = "quote" && size != 2)
    || (token = "if" && size != 4)
    || (token = "lambda" && size != 3)
    || (token = "begin" && size < 2)
    || (token = "define" && ((size != 3 && size != 4) || !second_sym))
    || (token = "import" && (size != 2 || !second_str))
    || ((token = "<" || token = ">" || token = "<=" || token = ">=" || token = "==")
        && size != 3)

/-- Whether the list `v` itself violates the arity or shape its head symbol asks for. -/
def malformed_head (v : List value) : Bool :=
  match v with
  | .sym token :: rest =>
    malformed_form token v.length (value.head_is_sym rest) (value.head_is_str rest)
  | _ => false

mutual
/-- Whether a raw tree contains, at some depth, a list that violates the arity or
shape its head symbol asks for. -/
def value.malformed : value → Bool
  | .list v => malformed_head v || any_malformed v
  | _ => false
/-- Whether some tree of the list is `malformed`. -/
def any_malformed : List value → Bool
  | [] => false
  | x :: xs => x.malformed || any_malformed xs
end

mutual
/-- The canonical text of a raw tree: atoms as `print` writes them, the elements of a
list separated by single spaces. -/
def value.chars (h : Host) : value → List Char
  | .num x => (h.showNumber x).data
  | .str s => '"' :: s.data ++ ['"']
  | .sym s => s.data
  | .bool b => if b then "true".data else "false".data
  | .list v => '(' :: elems h v ++ [')']
/-- The canonical texts of the elements of a list, a space between neighbours. -/
def elems (h : Host) : List value → List Char
  | [] => []
  | x :: xs =>
    match xs with
    | [] => x.chars h
    | _ :: _ => x.chars h ++ ' ' :: elems h xs
end

/-- The canonical text of a raw tree as a string. -/
def value.text (h : Host) (t : value) : String :=
  String.mk (t.chars h)

/-- What may follow a token in a canonical text: the end, a space or a closing parenthesis. -/
def delimited : List Char → Bool
  | [] => true
  | c :: _ => c = ' ' || c = ')'

/-- The text `s` is a token that the grammar reads as the symbol `s`: a non-empty run of
symbol characters at which neither the number rule nor the boolean rule matches. -/
def symbol_token (h : Host) (s : String) : Prop :=
  s.data ≠ [] ∧ (∀ c ∈ s.data, symbol_char c = true)
    ∧ ∀ rest, delimited rest = true →
        h.double_ (s.data ++ rest) = none ∧ boolean_ (s.data ++ rest) = none

/-- The number `x` is self-rendering: its text is not empty, does not start with white
space, and the number rule reads it back as `x`. -/
def number_token (h : Host) (x : Number) : Prop :=
  (∃ c cs, (h.showNumber x).data = c :: cs ∧ space c = false)
    ∧ ∀ rest, delimited rest = true →
        h.double_ ((h.showNumber x).data ++ rest) = some (x, rest)

/-- The number rule does not match at a parenthesis, at a double quote or at the first
letter of `true` and `false`. -/
def Host.number_starts (h : Host) : Prop :=
  ∀ (c : Char) (rest : List Char),
    c = '(' ∨ c = ')' ∨ c = '"' ∨ c = 't' ∨ c = 'f' → h.double_ (c :: rest) = none

/-- A list with head symbol `token`, `n` further elements and a second element that
is, or is not, a `Symbol` is a form that `print` renders back: no `if`, `lambda`,
`begin` or `import`; `quote` with one argument; `define` with a symbol and one
expression; a comparison with two arguments. -/
def renders_form (token : String) (n : Nat) (second_sym : Bool) : Bool :=
  token != "if" && token != "lambda" && token != "begin" && token != "import"
    && (token != "quote" || n == 1)
    && (token != "define" || (n == 2 && second_sym))
    && (!(token = "<" || token = ">" || token = "<=" || token = ">=" || token = "==")
        || n == 2)

/-- The head of the list `v` leaves it a form that `print` renders back. -/
def head_renders (v : List value) : Bool :=
  match v with
  | .sym token :: rest => renders_form token rest.length (value.head_is_sym rest)
  | _ => true

mutual
/-- The trees of the canonical texts that render back: atoms that are tokens of the
grammar, lists whose head `print` renders back, at every depth. -/
def value.canonical (h : Host) : value → Prop
  | .num x => number_token h x
  | .str s => '"' ∉ s.data
  | .sym s => symbol_token h s
  | .bool _ => True
  | .list v => head_renders v = true ∧ all_canonical h v
/-- Every tree of the list is `canonical`. -/
def all_canonical (h : Host) : List value → Prop
  | [] => True
  | x :: xs => x.canonical h ∧ all_canonical h xs
end

mutual
/-- The fuel `value_` needs to read the canonical text of a tree. -/
def value.need : value → Nat
  | .list v => needs v + 1
  | _ => 1
/-- The fuel `star_value_` needs to read the canonical texts of a list of trees. -/
def needs : List value → Nat
  | [] => 2
  | x :: xs => max x.need (needs xs) + 1
end

/-- The number rule consumes at least one character when it matches. -/
def Host.consumes (h : Host) : Prop :=
  ∀ (cs : List Char) (x : Number) (rest : List Char),
    h.double_ cs = some (x, rest) → rest.length < cs.length

/-- A relation between heaps that holds across every single effect of `eval`. -/
structure Heap.Effect (R : Heap → Heap → Prop) : Prop where
  refl : ∀ st, R st st
  trans : ∀ st1 st2 st3, R st1 st2 → R st2 st3 → R st1 st3
  define : ∀ st env sym v, R st (st.define env sym v)
  alloc : ∀ st e, R st (st.alloc e)
  write : ∀ st p i v, R st (st.write p i v)
  lists : ∀ (st : Heap) m, R st { st with lists := m }

/-- The reference host with one file, `quoted.scm`, whose text is `(quote (define a 1))`. -/
def quoteFileHost : Host :=
  { stdHost with
    ifstream := fun name => if name = "quoted.scm" then "(quote (define a 1))" else "" }

/-- The operation `Op` that `accumulate<Op>` folds with, for the four arithmetic primitives. -/
def Prim.op : Prim → Option (Number → Number → Number)
  | .plus => some (· + ·)
  | .minus => some (· - ·)
  | .divides => some (· / ·)
  | .multiplies => some (· * ·)
  | _ => none

/-- The relation a comparison primitive tests. -/
def Prim.rel : Prim → Option (Number → Number → Bool)
  | .gt => some (fun x y => decide (x > y))
  | .lt => some (fun x y => decide (x < y))
  | .le => some (fun x y => decide (x ≤ y))
  | .ge => some (fun x y => decide (x ≥ y))
  | .eq => some (fun x y => decide (x = y))
  | _ => none

/-- What the application branch of `eval` does with the evaluated elements `call`
in the heap `st1` they leave behind: call the closure or the primitive at the front. -/
def apply_front (h : Host) (n : Nat) (call : List Any) (st1 : Heap) : Except Err (Any × Heap) :=
  match call with
  | [] => .error .undefined
  | func :: args =>
    match func with
    | .function parms body fenv =>
      match Env.ctor parms args fenv with
      | .ok frame => eval h n (st1.alloc frame) body st1.envs.length
      | .error e => .error e
    | .fn function =>
      match function.call args with
      | .ok v => .ok (v, st1)
      | .error e => .error e
    | _ => .error (.runtime_error ("undefined function: " ++ print h func))

/-- The frames that exist in `st` other than the one at `env` are the same in `st1`,
and no frame has disappeared. -/
def Heap.keeps (env : Nat) (st st1 : Heap) : Prop :=
  st.envs.length ≤ st1.envs.length
    ∧ ∀ a, a < st.envs.length → a ≠ env → st1.envs[a]? = st.envs[a]?

mutual
/-- The expression performs no define of its own: no `Define`, `Begin` or `Import` node
outside the bodies of its `Lambda` nodes (what a closure it calls defines goes to the
frame of that call). -/
def Any.no_define : Any → Bool
  | .define _ _ => false
  | .begin_ _ => false
  | .import_ _ => false
  | .if_ test conseq alt => Any.no_define test && Any.no_define conseq && Any.no_define alt
  | .lst l => Any.all_no_define l
  | _ => true
/-- Every expression of the list performs no define of its own. -/
def Any.all_no_define : List Any → Bool
  | [] => true
  | x :: l => Any.no_define x && Any.all_no_define l
end

mutual
/-- The node holds no `Quote` and no `Import` node, at any depth. -/
def Any.quote_free : Any → Bool
  | .quote _ => false
  | .import_ _ => false
  | .lst l => Any.all_quote_free l
  | .vec l => Any.all_quote_free l
  | .if_ test conseq alt => Any.quote_free test && Any.quote_free conseq && Any.quote_free alt
  | .define _ exp => Any.quote_free exp
  | .lambda _ body => Any.quote_free body
  | .function _ body _ => Any.quote_free body
  | _ => true
/-- Every node of the list is `quote_free`. -/
def Any.all_quote_free : List Any → Bool
  | [] => true
  | x :: l => Any.quote_free x && Any.all_quote_free l
end

/-- The parameter pattern is a single `Symbol`: the `else` branch of the constructor
of `Env`, which binds the symbol to the argument vector. -/
def Any.variadic : Any → Bool
  | .sym _ => true
  | _ => false

mutual
/-- A plain node: it holds no `Quote` node, no `Import` node, no argument vector and no
`Lambda` or `Function` whose parameter pattern is a single `Symbol`, at any depth (the
vector of a `Begin` node lives in the heap and is covered by `Heap.runtime`). -/
def Any.plain : Any → Bool
  | .quote _ => false
  | .import_ _ => false
  | .vec _ => false
  | .lst l => Any.all_plain l
  | .if_ test conseq alt => Any.plain test && Any.plain conseq && Any.plain alt
  | .define _ exp => Any.plain exp
  | .lambda parms body => !parms.variadic && Any.plain body
  | .function parms body _ => !parms.variadic && Any.plain body
  | _ => true
/-- Every node of the list is `plain`. -/
def Any.all_plain : List Any → Bool
  | [] => true
  | x :: l => Any.plain x && Any.all_plain l
end

mutual
/-- A runtime value: a `Number`, `String` or `Boolean`, a list (`lst_ptr`) of runtime
values, a primitive, or a `Function` that is `plain`.  The argument vector stored
directly in an `any` (`vec`) is none of these. -/
def Any.runtime_value : Any → Bool
  | .num _ => true
  | .str _ => true
  | .bool _ => true
  | .lst l => Any.all_runtime_values l
  | .fn _ => true
  | .function parms body _ => !parms.variadic && Any.plain body
  | _ => false
/-- Every node of the list is a runtime value. -/
def Any.all_runtime_values : List Any → Bool
  | [] => true
  | x :: l => Any.runtime_value x && Any.all_runtime_values l
end

/-- Every value bound in a frame of the heap is a runtime value, and every element of a
vector behind a `Begin` node is `plain`. -/
def Heap.runtime (st : Heap) : Bool :=
  st.envs.all (fun e => e.self.all (fun kv => kv.2.runtime_value))
    && st.lists.all (fun l => l.all Any.plain)

/-- The heap a session of the driver leaves behind. -/
def session_heap (h : Host) (fuel : Nat) : Heap → List String → Except Err Heap
  | st, [] => .ok st
  | st, exp :: exps =>
    match test h fuel st exp with
    | .ok (_, st1) => session_heap h fuel st1 exps
    | .error err => .error err

/-! ### Decidable equality of nodes and heaps -/

mutual
theorem Any.eq_of_beq : ∀ (a b : Any), Any.beq a b = true → a = b
  | .num _, b => by cases b <;> simp [Any.beq]
  | .str _, b => by cases b <;> simp [Any.beq]
  | .sym _, b => by cases b <;> simp [Any.beq]
  | .bool _, b => by cases b <;> simp [Any.beq]
  | .lst l, b => by
      cases b <;> simp [Any.beq]
      exact Any.eq_of_beqList l _
  | .vec l, b => by
      cases b <;> simp [Any.beq]
      exact Any.eq_of_beqList l _
  | .if_ a1 a2 a3, b => by
      cases b <;> simp [Any.beq]
      intro h1 h2 h3
      exact ⟨Any.eq_of_beq a1 _ h1, Any.eq_of_beq a2 _ h2, Any.eq_of_beq a3 _ h3⟩
  | .quote a1, b => by
      cases b <;> simp [Any.beq]
      exact Any.eq_of_beq a1 _
  | .define _ a1, b => by
      cases b <;> simp [Any.beq]
      intro h1 h2
      exact ⟨h1, Any.eq_of_beq a1 _ h2⟩
  | .lambda a1 a2, b => by
      cases b <;> simp [Any.beq]
      intro h1 h2
      exact ⟨Any.eq_of_beq a1 _ h1, Any.eq_of_beq a2 _ h2⟩
  | .begin_ _, b => by cases b <;> simp [Any.beq]
  | .function a1 a2 _, b => by
      cases b <;> simp [Any.beq]
      intro h1 h2 h3
      exact ⟨Any.eq_of_beq a1 _ h1, Any.eq_of_beq a2 _ h2, h3⟩
  | .import_ _, b => by cases b <;> simp [Any.beq]
  | .fn _, b => by cases b <;> simp [Any.beq]
theorem Any.eq_of_beqList : ∀ (l k : List Any), Any.beqList l k = true → l = k
  | [], k => by cases k <;> simp [Any.beqList]
  | a :: l, k => by
      cases k <;> simp [Any.beqList]
      intro h1 h2
      exact ⟨Any.eq_of_beq a _ h1, Any.eq_of_beqList l _ h2⟩
end

mutual
theorem Any.beq_self : ∀ (a : Any), Any.beq a a = true
  | .num _ => by simp [Any.beq]
  | .str _ => by simp [Any.beq]
  | .sym _ => by simp [Any.beq]
  | .bool _ => by simp [Any.beq]
  | .lst l => by simp [Any.beq, Any.beqList_self l]
  | .vec l => by simp [Any.beq, Any.beqList_self l]
  | .if_ a b c => by simp [Any.beq, Any.beq_self a, Any.beq_self b, Any.beq_self c]
  | .quote a => by simp [Any.beq, Any.beq_self a]
  | .define _ a => by simp [Any.beq, Any.beq_self a]
  | .lambda a b => by simp [Any.beq, Any.beq_self a, Any.beq_self b]
  | .begin_ _ => by simp [Any.beq]
  | .function a b _ => by simp [Any.beq, Any.beq_self a, Any.beq_self b]
  | .import_ _ => by simp [Any.beq]
  | .fn _ => by simp [Any.beq]
theorem Any.beqList_self : ∀ (l : List Any), Any.beqList l l = true
  | [] => by simp [Any.beqList]
  | a :: l => by simp [Any.beqList, Any.beq_self a, Any.beqList_self l]
end

instance : DecidableEq Any := fun a b =>
  decidable_of_iff (Any.beq a b = true)
    ⟨Any.eq_of_beq a b, fun h => h ▸ Any.beq_self a⟩

deriving instance DecidableEq for Env

deriving instance DecidableEq for Heap

/-! ### Basic facts -/

theorem Table.find_set_self (m : Table) (sym : String) (v : Any) :
    (m.set sym v).find sym = some v := by
  induction m with
  | nil => simp [Table.set, Table.find]
  | cons kv m ih =>
    obtain ⟨k, w⟩ := kv
    by_cases hk : k = sym
    · simp [Table.set, Table.find, hk]
    · simp [Table.set, Table.find, hk, ih]

theorem Table.find_set_other (m : Table) (sym t : String) (v : Any) (ht : sym ≠ t) :
    (m.set sym v).find t = m.find t := by
  induction m with
  | nil => simp [Table.set, Table.find, ht]
  | cons kv m ih =>
    obtain ⟨k, w⟩ := kv
    by_cases hk : k = sym
    · subst hk
      simp [Table.set, Table.find, ht]
    · by_cases hkt : k = t
      · subst hkt
        simp [Table.set, Table.find, hk]
      · simp [Table.set, Table.find, hk, hkt, ih]

theorem Heap.define_envs_length (st : Heap) (env : Nat) (sym : String) (v : Any) :
    (st.define env sym v).envs.length = st.envs.length := by
  simp [Heap.define]

theorem Heap.define_get (st : Heap) (env : Nat) (sym : String) (v : Any)
    (henv : env < st.envs.length) : Env.get (st.define env sym v) env sym = .ok v := by
  unfold Env.get
  rw [Heap.define_envs_length]
  obtain ⟨n, hn⟩ : ∃ n, st.envs.length = n + 1 := ⟨st.envs.length - 1, by omega⟩
  rw [hn]
  have hget : (st.define env sym v).envs[env]? =
      some { self := (st.envs[env]).self.set sym v, outer := (st.envs[env]).outer } := by
    simp [Heap.define, List.getElem?_modify, henv]
  simp only [Env.getFrom, hget, Table.find_set_self]

theorem transform_effect {R : Heap → Heap → Prop} (hR : Heap.Effect R)
    (ev : Heap → Any → Except Err (Any × Heap))
    (hev : ∀ st x v st1, ev st x = .ok (v, st1) → R st st1) :
    ∀ (xs : List Any) (st : Heap) (vs : List Any) (st1 : Heap),
      transform ev st xs = .ok (vs, st1) → R st st1 := by
  intro xs
  induction xs with
  | nil =>
    intro st vs st1 h
    simp only [transform, Except.ok.injEq, Prod.mk.injEq] at h
    rw [← h.2]
    exact hR.refl st
  | cons x xs ih =>
    intro st vs st1 h
    simp only [transform] at h
    split at h
    next v st2 hx =>
      split at h
      next vs2 st3 hxs =>
        simp only [Except.ok.injEq, Prod.mk.injEq] at h
        rw [← h.2]
        exact hR.trans _ _ _ (hev _ _ _ _ hx) (ih _ _ _ hxs)
      next => cases h
    next => cases h

theorem transform_in_place_effect {R : Heap → Heap → Prop} (hR : Heap.Effect R)
    (ev : Heap → Any → Except Err (Any × Heap))
    (hev : ∀ st x v st1, ev st x = .ok (v, st1) → R st st1) (p : Nat) :
    ∀ (k i : Nat) (st st1 : Heap),
      transform_in_place ev p k i st = .ok st1 → R st st1 := by
  intro k
  induction k with
  | zero =>
    intro i st st1 h
    simp only [transform_in_place, Except.ok.injEq] at h
    rw [← h]
    exact hR.refl st
  | succ k ih =>
    intro i st st1 h
    simp only [transform_in_place] at h
    split at h
    next => cases h
    next l hl =>
      split at h
      next => cases h
      next x hx =>
        split at h
        next v st2 hv =>
          exact hR.trans _ _ _ (hev _ _ _ _ hv) (hR.trans _ _ _ (hR.write _ _ _ _) (ih _ _ _ h))
        next => cases h

theorem eval_effect {R : Heap → Heap → Prop} (hR : Heap.Effect R) (h : Host) :
    ∀ (n : Nat) (st : Heap) (exp : Any) (env : Nat) (v : Any) (st1 : Heap),
      eval h n st exp env = .ok (v, st1) → R st st1 := by
  intro n
  induction n with
  | zero =>
    intro st exp env v st1 he
    simp [eval] at he
  | succ n ih =>
    intro st exp env v st1 he
    cases exp with
    | num x =>
      simp only [eval, Except.ok.injEq, Prod.mk.injEq] at he
      rw [← he.2]; exact hR.refl st
    | str s =>
      simp only [eval, Except.ok.injEq, Prod.mk.injEq] at he
      rw [← he.2]; exact hR.refl st
    | bool b =>
      simp only [eval, Except.ok.injEq, Prod.mk.injEq] at he
      rw [← he.2]; exact hR.refl st
    | sym s =>
      simp only [eval] at he
      split at he
      next =>
        simp only [Except.ok.injEq, Prod.mk.injEq] at he
        rw [← he.2]; exact hR.refl st
      next => cases he
    | define s e =>
      simp only [eval] at he
      split at he
      next v1 st2 h1 =>
        simp only [Except.ok.injEq, Prod.mk.injEq] at he
        rw [← he.2]
        exact hR.trans _ _ _ (ih _ _ _ _ _ h1) (hR.define _ _ _ _)
      next => cases he
    | lambda p b =>
      simp only [eval, Except.ok.injEq, Prod.mk.injEq] at he
      rw [← he.2]; exact hR.refl st
    | quote e =>
      simp only [eval, Except.ok.injEq, Prod.mk.injEq] at he
      rw [← he.2]; exact hR.refl st
    | import_ code =>
      simp only [eval] at he
      split at he
      next e1 m h1 => exact hR.trans _ _ _ (hR.lists st m) (ih _ _ _ _ _ he)
      next => cases he
    | if_ t c a =>
      simp only [eval] at he
      split at he
      next b st2 h1 => exact hR.trans _ _ _ (ih _ _ _ _ _ h1) (ih _ _ _ _ _ he)
      next => cases he
      next => cases he
    | begin_ p =>
      simp only [eval] at he
      split at he
      next => cases he
      next => cases he
      next x xs hl =>
        split at he
        next st2 h1 =>
          split at he
          next last hlast =>
            exact hR.trans _ _ _
              (transform_in_place_effect hR _ (fun s a w s1 hs => ih s a env w s1 hs) p _ _ _ _ h1)
              (ih _ _ _ _ _ he)
          next => cases he
        next => cases he
    | lst l =>
      simp only [eval] at he
      split at he
      next => cases he
      next func args st2 h1 =>
        have h2 := transform_effect hR _ (fun s a w s1 hs => ih s a env w s1 hs) _ _ _ _ h1
        split at he
        next parms body fenv =>
          split at he
          next frame hf =>
            exact hR.trans _ _ _ h2 (hR.trans _ _ _ (hR.alloc _ _) (ih _ _ _ _ _ he))
          next => cases he
        next f =>
          split at he
          next w hw =>
            simp only [Except.ok.injEq, Prod.mk.injEq] at he
            rw [← he.2]; exact h2
          next => cases he
        next => cases he
      next => cases he
    | vec l => simp [eval] at he
    | function p b e => simp [eval] at he
    | fn f => simp [eval] at he

theorem envs_length_effect : Heap.Effect (fun st st1 => st.envs.length ≤ st1.envs.length) where
  refl := fun _ => Nat.le_refl _
  trans := fun _ _ _ h1 h2 => Nat.le_trans h1 h2
  define := fun st env sym v => by simp [Heap.define]
  alloc := fun st e => by simp [Heap.alloc]
  write := fun st p i v => by simp [Heap.write]
  lists := fun st m => by simp

/-! ### C1: `quote` -/

/-- C1, counterexample: expanding `(quote (if 1))` fails with the arity error of the
inner `if`, because the elements of a list are expanded before its head is looked at;
and `(quote (define a 1))` reads as a `Quote` around a `Define` node, which is what its
evaluation returns. -/
theorem quote_expands_its_body :
    expand stdHost (.list [.sym "quote", .list [.sym "if", .num 1]]) []
        = .error (.invalid_argument "wrong number of arguments to if")
      ∧ read stdHost "(quote (define a 1))" [] = .ok (.quote (.define "a" (.num 1)), [])
      ∧ eval stdHost 1 global_env (.quote (.define "a" (.num 1))) 0
        = .ok (.define "a" (.num 1), global_env) := by
  decide!

/-- C1, amended: expanding `(quote t)` succeeds exactly when expanding `t` does, giving
`Quote` around the expansion of `t` (and failing with the error of `t` otherwise);
evaluating a `Quote` node in any environment, with any positive fuel, returns its
body as it is and leaves the heap unchanged. -/
theorem quote_returns_expanded_body (h : Host) (t : value) (m : List (List Any)) :
    expand h (.list [.sym "quote", t]) m
        = (match expand h t m with
          | .ok (e, m1) => .ok (.quote e, m1)
          | .error err => .error err)
      ∧ ∀ (e : Any) (n : Nat) (st : Heap) (env : Nat),
          eval h (n + 1) st (.quote e) env = .ok (e, st) := by
  constructor
  · simp only [expand, expand_all]
    cases ht : expand h t m with
    | error err => rfl
    | ok r =>
      obtain ⟨e, m1⟩ := r
      simp [visitor]
  · intro e n st env
    simp [eval]

/-! ### C2: `define` then lookup -/

/-- C2: if `e` evaluates in `env` to `v`, then `Define{s, e}` evaluates in `env` to the
same `v`, and in the heap it leaves behind the symbol `s` evaluates in `env` to `v`,
whatever was bound to `s` before. -/
theorem define_then_lookup (h : Host) (n : Nat) (st : Heap) (env : Nat) (s : String)
    (e v : Any) (st1 : Heap) (henv : env < st.envs.length)
    (he : eval h n st e env = .ok (v, st1)) :
    eval h (n + 1) st (.define s e) env = .ok (v, st1.define env s v)
      ∧ ∀ k, eval h (k + 1) (st1.define env s v) (.sym s) env
          = .ok (v, st1.define env s v) := by
  have hlen : env < st1.envs.length :=
    Nat.lt_of_lt_of_le henv (eval_effect envs_length_effect h n st e env v st1 he)
  constructor
  · simp [eval, he]
  · intro k
    simp [eval, Heap.define_get st1 env s v hlen]

/-- C2, witness: `(define x 3)` on the global frame, where `3` evaluates to `3`. -/
theorem define_then_lookup_witness :
    eval stdHost 2 global_env (.define "x" (.num 3)) 0
        = .ok (.num 3, global_env.define 0 "x" (.num 3))
      ∧ ∀ k, eval stdHost (k + 1) (global_env.define 0 "x" (.num 3)) (.sym "x") 0
          = .ok (.num 3, global_env.define 0 "x" (.num 3)) :=
  define_then_lookup stdHost 1 global_env 0 "x" (.num 3) (.num 3) global_env
    (by decide) (by decide!)

/-! ### C3: `Env::get` -/

theorem Env.getFrom_chain (envs : List Env) (sym : String)
    (hl : ∀ (a : Nat) (e : Env), envs[a]? = some e → ∀ o, e.outer = some o → o < a) :
    ∀ (n a : Nat), a < n → a < envs.length →
      (∃ root, (Env.chainFrom envs n a).getLast? = some root ∧ root.outer = none)
      ∧ Env.getFrom envs sym n a
          = (match (Env.chainFrom envs n a).findSome? (fun e => e.self.find sym) with
            | some v => .ok v
            | none => .error (.runtime_error ("undefined symbol: " ++ sym))) := by
  intro n
  induction n with
  | zero => intro a ha; omega
  | succ n ih =>
    intro a han hal
    have hsome : envs[a]? = some envs[a] := List.getElem?_eq_getElem hal
    cases ho : (envs[a]).outer with
    | none =>
      constructor
      · exact ⟨envs[a], by simp [Env.chainFrom, hsome, ho], ho⟩
      · simp only [Env.getFrom, Env.chainFrom, hsome, ho, List.findSome?_cons, List.findSome?_nil]
        cases (envs[a]).self.find sym <;> rfl
    | some o =>
      have hoa : o < a := hl a _ hsome o ho
      obtain ⟨⟨root, hroot, hnone⟩, hget⟩ := ih o (by omega) (by omega)
      constructor
      · refine ⟨root, ?_, hnone⟩
        simp only [Env.chainFrom, hsome, ho]
        cases hc : Env.chainFrom envs n o with
        | nil => simp [hc] at hroot
        | cons c cs =>
          rw [hc] at hroot
          simpa [List.getLast?_cons_cons] using hroot
      · simp only [Env.getFrom, Env.chainFrom, hsome, ho, List.findSome?_cons]
        cases (envs[a]).self.find sym with
        | some v => rfl
        | none => exact hget

/-- C3: in a heap whose `outer` links point to earlier frames, the chain of a frame
ends in a root frame (one without `outer`), `Env::get` returns the binding of the
first frame of the chain, from the current one outwards, that binds the symbol, and
it fails with `undefined symbol: ` followed by the symbol if and only if no frame of
the chain binds it. -/
theorem get_innermost_binding (st : Heap) (hl : st.linked) (env : Nat)
    (henv : env < st.envs.length) (sym : String) :
    (∃ root, (Env.chain st env).getLast? = some root ∧ root.outer = none)
      ∧ Env.get st env sym
          = (match (Env.chain st env).findSome? (fun e => e.self.find sym) with
            | some v => .ok v
            | none => .error (.runtime_error ("undefined symbol: " ++ sym)))
      ∧ (Env.get st env sym = .error (.runtime_error ("undefined symbol: " ++ sym))
          ↔ ∀ e ∈ Env.chain st env, e.self.find sym = none) := by
  obtain ⟨hroot, hget⟩ := Env.getFrom_chain st.envs sym hl st.envs.length env henv henv
  refine ⟨hroot, hget, ?_⟩
  unfold Env.get Env.chain
  rw [hget]
  cases hf : (Env.chainFrom st.envs st.envs.length env).findSome? (fun e => e.self.find sym) with
  | none =>
    simp only [true_iff]
    exact List.findSome?_eq_none_iff.mp hf
  | some v =>
    constructor
    · intro hbad
      cases hbad
    · intro hall
      rw [List.findSome?_eq_none_iff.mpr hall] at hf
      cases hf

/-- C3, witness: a call frame binding `x` whose outer frame is the global frame. -/
theorem get_innermost_binding_witness :
    (∃ root, (Env.chain (global_env.alloc ⟨[("x", .num 1)], some 0⟩) 1).getLast? = some root
        ∧ root.outer = none)
      ∧ Env.get (global_env.alloc ⟨[("x", .num 1)], some 0⟩) 1 "car"
          = (match (Env.chain (global_env.alloc ⟨[("x", .num 1)], some 0⟩) 1).findSome?
              (fun e => e.self.find "car") with
            | some v => .ok v
            | none => .error (.runtime_error ("undefined symbol: " ++ "car")))
      ∧ (Env.get (global_env.alloc ⟨[("x", .num 1)], some 0⟩) 1 "car"
            = .error (.runtime_error ("undefined symbol: " ++ "car"))
          ↔ ∀ e ∈ Env.chain (global_env.alloc ⟨[("x", .num 1)], some 0⟩) 1,
              e.self.find "car" = none) :=
  get_innermost_binding (global_env.alloc ⟨[("x", .num 1)], some 0⟩)
    (by
      intro a e ha o ho
      match a, ha with
      | 0, ha =>
        simp [global_env, Heap.alloc] at ha
        subst ha
        cases ho
      | 1, ha =>
        simp [global_env, Heap.alloc] at ha
        subst ha
        simp at ho
        omega
      | a + 2, ha => simp [global_env, Heap.alloc] at ha)
    1 (by decide) "car"

/-! ### C4: positional binding -/

theorem Env.bindAt_symbols (args : List Any) :
    ∀ (names : List String) (i : Nat) (self0 : Table), i + names.length ≤ args.length →
      ∃ self, Env.bindAt args (names.map Any.sym) i self0 = .ok self
        ∧ (∀ s, s ∉ names → self.find s = self0.find s)
        ∧ (∀ k (hk : k < names.length), (∀ j, k < j → names[j]? ≠ some names[k]) →
            self.find names[k] = args[i + k]?) := by
  intro names
  induction names with
  | nil =>
    intro i self0 _
    exact ⟨self0, rfl, fun _ _ => rfl, fun k hk => absurd hk (Nat.not_lt_zero k)⟩
  | cons name names ih =>
    intro i self0 hlen
    simp only [List.length_cons] at hlen
    have hi : i < args.length := by omega
    obtain ⟨self, hself, hout, hin⟩ := ih (i + 1) (self0.set name args[i]) (by omega)
    refine ⟨self, ?_, ?_, ?_⟩
    · simp only [List.map_cons, Env.bindAt, List.getElem?_eq_getElem hi]
      exact hself
    · intro s hs
      simp only [List.mem_cons, not_or] at hs
      rw [hout s hs.2, Table.find_set_other _ _ _ _ (Ne.symm hs.1)]
    · intro k hk hlast
      cases k with
      | zero =>
        have hname : name ∉ names := by
          intro hmem
          obtain ⟨j, hj, hjn⟩ := List.getElem_of_mem hmem
          apply hlast (j + 1) (by omega)
          simp [List.getElem?_eq_getElem hj, hjn]
        simp only [List.getElem_cons_zero, Nat.add_zero]
        rw [hout name hname, Table.find_set_self, List.getElem?_eq_getElem hi]
      | succ k =>
        simp only [List.length_cons, Nat.add_lt_add_iff_right] at hk
        have h1 := hin k hk (by
          intro j hj
          have h2 := hlast (j + 1) (by omega)
          simpa using h2)
        simp only [List.getElem_cons_succ]
        rw [h1]
        congr 1
        omega

/-- C4, counterexample: with one parameter and two arguments the frame is built, the
second argument being dropped: `((lambda (x) x) 1 2)` evaluates to `1`. -/
theorem surplus_arguments_are_dropped :
    Env.ctor (.lst [.sym "x"]) [.num 1, .num 2] 0
        = .ok { self := [("x", .num 1)], outer := some 0 }
      ∧ (test stdHost 10 global_env "((lambda (x) x) 1 2)").map (·.1) = .ok "1" := by
  decide!

/-- C4, amended: for a parameter list of `n` symbols and `m ≥ n` arguments the frame is
built, with the closure's environment as `outer`; it binds no other symbol, and the
`k`-th symbol is bound to the `k`-th argument unless the same symbol occurs again later
in the parameter list.  Arguments beyond the `n`-th are ignored. -/
theorem ctor_binds_positionally (names : List String) (args : List Any) (outer : Nat)
    (hlen : names.length ≤ args.length) :
    ∃ self, Env.ctor (.lst (names.map Any.sym)) args outer
          = .ok { self := self, outer := some outer }
      ∧ (∀ s, s ∉ names → self.find s = none)
      ∧ (∀ k (hk : k < names.length), (∀ j, k < j → names[j]? ≠ some names[k]) →
          self.find names[k] = args[k]?) := by
  obtain ⟨self, hself, hout, hin⟩ := Env.bindAt_symbols args names 0 [] (by omega)
  refine ⟨self, ?_, ?_, ?_⟩
  · simp [Env.ctor, hself]
  · intro s hs
    rw [hout s hs]
    rfl
  · intro k hk hlast
    rw [hin k hk hlast, Nat.zero_add]

/-- C4, witness: two parameters, three arguments. -/
theorem ctor_binds_positionally_witness :
    ∃ self, Env.ctor (.lst (["x", "y"].map Any.sym)) [.num 1, .num 2, .num 3] 0
          = .ok { self := self, outer := some 0 }
      ∧ (∀ s, s ∉ ["x", "y"] → self.find s = none)
      ∧ (∀ k (hk : k < ["x", "y"].length), (∀ j, k < j → ["x", "y"][j]? ≠ some ["x", "y"][k]) →
          self.find ["x", "y"][k] = [Any.num 1, .num 2, .num 3][k]?) :=
  ctor_binds_positionally ["x", "y"] [.num 1, .num 2, .num 3] 0 (by decide)

/-! ### C5: a single symbol as parameter pattern -/

/-- C5, the code at the failing input: `((lambda p p) 1 2)` returns the argument vector
stored directly in the `any` (`vec`), which is not the `lst_ptr` that `(list 1 2)`
returns; it prints as a type name, and `car`, `cdr` and `length` reject it with
`bad_any_cast`. -/
theorem variadic_capture_is_not_a_sequence :
    (eval stdHost 10 global_env
        (.lst [.lambda (.sym "p") (.sym "p"), .num 1, .num 2]) 0).map (·.1)
        = .ok (.vec [.num 1, .num 2])
      ∧ (eval stdHost 10 global_env (.lst [.sym "list", .num 1, .num 2]) 0).map (·.1)
        = .ok (.lst [.num 1, .num 2])
      ∧ (test stdHost 10 global_env "((lambda p p) 1 2)").map (·.1)
        = .ok "class std::vector<class std::any,class std::allocator<class std::any> >"
      ∧ (test stdHost 10 global_env "(list 1 2)").map (·.1) = .ok "(1 2)"
      ∧ (test stdHost 10 global_env "((lambda p (car p)) 1 2)").map (·.1) = .error .bad_any_cast
      ∧ (test stdHost 10 global_env "((lambda p (cdr p)) 1 2)").map (·.1) = .error .bad_any_cast
      ∧ (test stdHost 10 global_env "((lambda p (length p)) 1 2)").map (·.1)
        = .error .bad_any_cast
      ∧ (test stdHost 10 global_env "(car (list 1 2))").map (·.1) = .ok "1" := by
  decide!

/-! ### C9: closure application -/

theorem Env.getFrom_append (envs : List Env) (f : Env) (sym : String)
    (hl : ∀ (a : Nat) (e : Env), envs[a]? = some e → ∀ o, e.outer = some o → o < a) :
    ∀ (n a : Nat), a < envs.length →
      Env.getFrom (envs ++ [f]) sym n a = Env.getFrom envs sym n a := by
  intro n
  induction n with
  | zero => intro a _; rfl
  | succ n ih =>
    intro a ha
    have h1 : (envs ++ [f])[a]? = some envs[a] := by
      rw [List.getElem?_append_left ha, List.getElem?_eq_getElem ha]
    have h2 : envs[a]? = some envs[a] := List.getElem?_eq_getElem ha
    simp only [Env.getFrom, h1, h2]
    cases (envs[a]).self.find sym with
    | some v => rfl
    | none =>
      cases ho : (envs[a]).outer with
      | none => rfl
      | some o =>
        have hoa : o < a := hl a _ h2 o ho
        exact ih o (by omega)

theorem Env.get_alloc (st : Heap) (frame : Env) (cenv : Nat) (sym : String)
    (hl : st.linked) (hc : cenv < st.envs.length) (ho : frame.outer = some cenv) :
    Env.get (st.alloc frame) st.envs.length sym
      = (match frame.self.find sym with
        | some v => .ok v
        | none => Env.get st cenv sym) := by
  have h1 : (st.envs ++ [frame])[st.envs.length]? = some frame := by simp
  simp only [Env.get, Heap.alloc, List.length_append, List.length_singleton, Env.getFrom, h1, ho]
  cases frame.self.find sym with
  | some v => rfl
  | none => exact Env.getFrom_append st.envs frame sym hl _ cenv hc

/-- C9: when the elements of an application evaluate in `env` to a `Function` with
parameters `parms`, body `body` and environment `cenv`, followed by the arguments `args`,
and the frame for `parms` and `args` over `cenv` can be built, then the application
evaluates to exactly what `body` evaluates to in that new frame.  The new frame has
`outer = cenv`, and every symbol is looked up in it first and otherwise through `cenv`;
the calling environment `env` takes no part. -/
theorem apply_closure (h : Host) (n : Nat) (st : Heap) (list : List Any) (env : Nat)
    (parms body : Any) (cenv : Nat) (args : List Any) (st1 : Heap) (frame : Env)
    (hcall : transform (fun s a => eval h n s a env) st list
      = .ok (.function parms body cenv :: args, st1))
    (hframe : Env.ctor parms args cenv = .ok frame)
    (hl : st1.linked) (hc : cenv < st1.envs.length) :
    eval h (n + 1) st (.lst list) env = eval h n (st1.alloc frame) body st1.envs.length
      ∧ (st1.alloc frame).envs[st1.envs.length]? = some frame
      ∧ frame.outer = some cenv
      ∧ ∀ sym, Env.get (st1.alloc frame) st1.envs.length sym
          = (match frame.self.find sym with
            | some v => .ok v
            | none => Env.get st1 cenv sym) := by
  have ho : frame.outer = some cenv := by
    unfold Env.ctor at hframe
    split at hframe
    · split at hframe
      · cases hframe; rfl
      · cases hframe
    · cases hframe; rfl
    · cases hframe
  refine ⟨?_, ?_, ho, ?_⟩
  · simp only [eval, hcall, hframe]
  · simp [Heap.alloc]
  · intro sym
    exact Env.get_alloc st1 frame cenv sym hl hc ho

theorem global_env_linked : global_env.linked := by
  intro a e ha o ho
  match a, ha with
  | 0, ha =>
    simp [global_env] at ha
    subst ha
    cases ho
  | a + 1, ha => simp [global_env] at ha

/-- C9, witness: `((lambda (x) x) 5)` called from the global frame. -/
theorem apply_closure_witness :
    eval stdHost 2 global_env (.lst [.lambda (.lst [.sym "x"]) (.sym "x"), .num 5]) 0
        = eval stdHost 1 (global_env.alloc ⟨[("x", .num 5)], some 0⟩) (.sym "x")
            global_env.envs.length
      ∧ (global_env.alloc ⟨[("x", .num 5)], some 0⟩).envs[global_env.envs.length]?
        = some ⟨[("x", .num 5)], some 0⟩
      ∧ (⟨[("x", .num 5)], some 0⟩ : Env).outer = some 0
      ∧ ∀ sym, Env.get (global_env.alloc ⟨[("x", .num 5)], some 0⟩) global_env.envs.length sym
          = (match (⟨[("x", .num 5)], some 0⟩ : Env).self.find sym with
            | some v => .ok v
            | none => Env.get global_env 0 sym) :=
  apply_closure stdHost 1 global_env [.lambda (.lst [.sym "x"]) (.sym "x"), .num 5] 0
    (.lst [.sym "x"]) (.sym "x") 0 [.num 5] global_env ⟨[("x", .num 5)], some 0⟩
    (by decide!) (by decide!) global_env_linked (by decide)

/-! ### C10: capture by reference and recursion -/

theorem Env.get_local (st : Heap) (a : Nat) (e : Env) (sym : String) (v : Any)
    (ha : st.envs[a]? = some e) (hv : e.self.find sym = some v) :
    Env.get st a sym = .ok v := by
  have hlen : a < st.envs.length := by
    by_contra hcon
    rw [List.getElem?_eq_none (by omega)] at ha
    cases ha
  obtain ⟨n, hn⟩ : ∃ n, st.envs.length = n + 1 := ⟨st.envs.length - 1, by omega⟩
  simp only [Env.get, hn, Env.getFrom, ha, hv]

theorem Env.get_outer (st : Heap) (a o : Nat) (e g : Env) (sym : String) (v : Any)
    (ha : st.envs[a]? = some e) (hn : e.self.find sym = none) (ho : e.outer = some o)
    (hoa : o < a) (hg : st.envs[o]? = some g) (hv : g.self.find sym = some v) :
    Env.get st a sym = .ok v := by
  have hlen : a < st.envs.length := by
    by_contra hcon
    rw [List.getElem?_eq_none (by omega)] at ha
    cases ha
  obtain ⟨n, hn1⟩ : ∃ n, st.envs.length = n + 2 := ⟨st.envs.length - 2, by omega⟩
  simp only [Env.get, hn1, Env.getFrom, ha, hn, ho, hg, hv]

theorem eval_sym (h : Host) (n : Nat) (st : Heap) (sym : String) (env : Nat) (v : Any)
    (hv : Env.get st env sym = .ok v) : eval h (n + 1) st (.sym sym) env = .ok (v, st) := by
  simp only [eval, hv]

theorem eval_lst_function (h : Host) (n : Nat) (st : Heap) (list : List Any) (env : Nat)
    (parms body : Any) (cenv : Nat) (args : List Any) (st1 : Heap) (frame : Env)
    (hcall : transform (fun s a => eval h n s a env) st list
      = .ok (.function parms body cenv :: args, st1))
    (hframe : Env.ctor parms args cenv = .ok frame) :
    eval h (n + 1) st (.lst list) env = eval h n (st1.alloc frame) body st1.envs.length := by
  simp only [eval, hcall, hframe]

theorem eval_lst_fn (h : Host) (n : Nat) (st : Heap) (list : List Any) (env : Nat)
    (f : Prim) (args : List Any) (st1 : Heap) (v : Any)
    (hcall : transform (fun s a => eval h n s a env) st list = .ok (.fn f :: args, st1))
    (hv : f.call args = .ok v) :
    eval h (n + 1) st (.lst list) env = .ok (v, st1) := by
  simp only [eval, hcall, hv]

theorem eval_if (h : Host) (n : Nat) (st : Heap) (test conseq alt : Any) (env : Nat)
    (b : Bool) (st1 : Heap) (ht : eval h n st test env = .ok (.bool b, st1)) :
    eval h (n + 1) st (.if_ test conseq alt) env
      = eval h n st1 (if b then conseq else alt) env := by
  simp only [eval, ht]

theorem fact_body_eval (h : Host) :
    ∀ (k m : Nat) (st : Heap) (a : Nat), st.has_fact → 0 < a →
      st.envs[a]? = some ⟨[("n", .num ((k + 1 : Nat) : ℚ))], some 0⟩ →
      ∃ st1, eval h (3 * k + 5 + m) st fact_body a
        = .ok (.num (((k + 1).factorial : Nat) : ℚ), st1) := by
  intro k
  induction k with
  | zero =>
    intro m st a hf ha hframe
    obtain ⟨g, hg, _, hle, _, _⟩ := hf
    have hn : Env.get st a "n" = .ok (.num ((0 + 1 : Nat) : ℚ)) :=
      Env.get_local st a _ "n" _ hframe (by simp [Table.find])
    have hle1 : Env.get st a "<=" = .ok (.fn .le) :=
      Env.get_outer st a 0 _ g "<=" _ hframe (by simp [Table.find]) rfl ha hg hle
    refine ⟨st, ?_⟩
    have hfuel : 3 * 0 + 5 + m = (m + 2) + 3 := by omega
    rw [hfuel]
    simp [fact_body, eval, transform, hn, hle1, Prim.call, compare]
  | succ k ih =>
    intro m st a hf ha hframe
    have hf1 := hf
    obtain ⟨g, hg, hfact, hle, hmul, hsub⟩ := hf1
    have hn : Env.get st a "n" = .ok (.num ((k + 1 + 1 : Nat) : ℚ)) :=
      Env.get_local st a _ "n" _ hframe (by simp [Table.find])
    have hle1 : Env.get st a "<=" = .ok (.fn .le) :=
      Env.get_outer st a 0 _ g "<=" _ hframe (by simp [Table.find]) rfl ha hg hle
    have hmul1 : Env.get st a "*" = .ok (.fn .multiplies) :=
      Env.get_outer st a 0 _ g "*" _ hframe (by simp [Table.find]) rfl ha hg hmul
    have hsub1 : Env.get st a "-" = .ok (.fn .minus) :=
      Env.get_outer st a 0 _ g "-" _ hframe (by simp [Table.find]) rfl ha hg hsub
    have hfact1 : Env.get st a "fact" = .ok fact_function :=
      Env.get_outer st a 0 _ g "fact" _ hframe (by simp [Table.find]) rfl ha hg hfact
    have hlen : a < st.envs.length := by
      by_contra hcon
      rw [List.getElem?_eq_none (by omega)] at hframe
      cases hframe
    have hf2 : (st.alloc ⟨[("n", .num ((k + 1 : Nat) : ℚ))], some 0⟩).has_fact := by
      refine ⟨g, ?_, hfact, hle, hmul, hsub⟩
      simp only [Heap.alloc]
      rw [List.getElem?_append_left (by omega)]
      exact hg
    have hnew : (st.alloc ⟨[("n", .num ((k + 1 : Nat) : ℚ))], some 0⟩).envs[st.envs.length]?
        = some ⟨[("n", .num ((k + 1 : Nat) : ℚ))], some 0⟩ := by
      simp [Heap.alloc]
    obtain ⟨st1, hrec⟩ := ih m _ st.envs.length hf2 (by omega) hnew
    refine ⟨st1, ?_⟩
    obtain ⟨F, hF⟩ : ∃ F, 3 * k + 5 + m = F + 2 := ⟨3 * k + 3 + m, by omega⟩
    have hfuel : 3 * (k + 1) + 5 + m = (F + 2) + 3 := by omega
    rw [hF] at hrec
    rw [hfuel]
    have hgt : ¬ ((k : ℚ) + 1 + 1 ≤ 1) := by
      have : (0 : ℚ) ≤ k := Nat.cast_nonneg k
      linarith
    have hpred : ((k : ℚ) + 1 + 1 - 1) = (k : ℚ) + 1 := by ring
    -- the test `(<= n 1)` is false
    have htest : eval h (F + 2 + 2) st (.lst [.sym "<=", .sym "n", .num 1]) a
        = .ok (.bool false, st) := by
      simp [eval, transform, hn, hle1, Prim.call, compare, hgt]
    -- the elements of `(fact (- n 1))`
    have hargs : transform (fun s x => eval h (F + 2) s x a) st
          [.sym "fact", .lst [.sym "-", .sym "n", .num 1]]
        = .ok ([fact_function, .num ((k + 1 : Nat) : ℚ)], st) := by
      simp [eval, transform, hn, hsub1, hfact1, Prim.call, accumulate, numbers, hpred]
    have hstep : eval h (F + 2 + 1) st (.lst [.sym "fact", .lst [.sym "-", .sym "n", .num 1]]) a
        = .ok (.num (((k + 1).factorial : Nat) : ℚ), st1) := by
      rw [← hrec]
      exact eval_lst_function h (F + 2) st _ a (.lst [.sym "n"]) fact_body 0 _ st _ hargs
        (by simp [Env.ctor, Env.bindAt, Table.set])
    -- the elements of `(* n (fact (- n 1)))`
    have hprod : transform (fun s x => eval h (F + 2 + 1) s x a) st
          [.sym "*", .sym "n", .lst [.sym "fact", .lst [.sym "-", .sym "n", .num 1]]]
        = .ok ([.fn .multiplies, .num ((k + 1 + 1 : Nat) : ℚ),
            .num (((k + 1).factorial : Nat) : ℚ)], st1) := by
      simp only [transform, eval_sym h (F + 2) st "*" a _ hmul1,
        eval_sym h (F + 2) st "n" a _ hn, hstep]
    have hmulv : eval h (F + 2 + 2) st
          (.lst [.sym "*", .sym "n", .lst [.sym "fact", .lst [.sym "-", .sym "n", .num 1]]]) a
        = .ok (.num (((k + 1 + 1).factorial : Nat) : ℚ), st1) := by
      refine eval_lst_fn h (F + 2 + 1) st _ a .multiplies _ st1 _ hprod ?_
      simp [Prim.call, accumulate, numbers, Nat.factorial_succ (k + 1)]
    rw [← hmulv]
    exact eval_if h (F + 2 + 2) st _ _ _ a false st htest

theorem fact_heap_has_fact : (global_env.define 0 "fact" fact_function).has_fact := by
  refine ⟨⟨global_table.set "fact" fact_function, none⟩, ?_, ?_, ?_, ?_, ?_⟩
  · simp [Heap.define, global_env]
  · exact Table.find_set_self _ _ _
  · rw [Table.find_set_other _ _ _ _ (by decide)]; rfl
  · rw [Table.find_set_other _ _ _ _ (by decide)]; rfl
  · rw [Table.find_set_other _ _ _ _ (by decide)]; rfl

/-- C10: a `Lambda` evaluated in the frame `E` gives a `Function` that holds the address
of `E`, not a copy of its table; so after a later `Define` of `s` in `E`, a call frame
of that closure (built by the `Env` constructor over `E`, not binding `s` itself)
resolves `s` to the later value.  In particular `fact` of `Repl.cpp`, once defined in the
global frame, is found by its own body: for every integer `n ≥ 1` the call `(fact n)`
returns `n!` with enough fuel. -/
theorem closure_sees_later_define (h : Host) (st : Heap) (E : Nat) (parms body : Any)
    (s : String) (v : Any) (args : List Any) (frame : Env) (n : Nat)
    (hE : E < st.envs.length) (hframe : Env.ctor parms args E = .ok frame)
    (hfree : frame.self.find s = none) (hn : 1 ≤ n) :
    (∀ k st0, eval h (k + 1) st0 (.lambda parms body) E = .ok (.function parms body E, st0))
      ∧ (∀ k, eval h (k + 1) ((st.define E s v).alloc frame) (.sym s)
              (st.define E s v).envs.length
            = .ok (v, (st.define E s v).alloc frame))
      ∧ eval h 2 global_env (.define "fact" (.lambda (.lst [.sym "n"]) fact_body)) 0
          = .ok (fact_function, global_env.define 0 "fact" fact_function)
      ∧ ∃ fuel st1, eval h fuel (global_env.define 0 "fact" fact_function)
            (.lst [.sym "fact", .num (n : ℚ)]) 0
          = .ok (.num ((n.factorial : Nat) : ℚ), st1) := by
  have ho : frame.outer = some E := by
    unfold Env.ctor at hframe
    split at hframe
    · split at hframe
      · cases hframe; rfl
      · cases hframe
    · cases hframe; rfl
    · cases hframe
  refine ⟨?_, ?_, ?_, ?_⟩
  · intro k st0
    simp only [eval]
  · intro k
    have hlen : (st.define E s v).envs.length = st.envs.length := Heap.define_envs_length _ _ _ _
    have h1 : ((st.define E s v).alloc frame).envs[(st.define E s v).envs.length]? = some frame := by
      simp [Heap.alloc]
    have h2 : ((st.define E s v).alloc frame).envs[E]?
        = some { self := (st.envs[E]).self.set s v, outer := (st.envs[E]).outer } := by
      simp only [Heap.alloc]
      rw [List.getElem?_append_left (by omega)]
      simp [Heap.define, List.getElem?_modify, hE]
    exact eval_sym h k _ s _ v
      (Env.get_outer _ _ E frame _ s v h1 hfree ho (by omega) h2 (Table.find_set_self _ _ _))
  · simp [eval, fact_function]
  · obtain ⟨k, hk⟩ : ∃ k, n = k + 1 := ⟨n - 1, by omega⟩
    subst hk
    have hf := fact_heap_has_fact
    have hf1 := hf
    obtain ⟨g, hg, hfact, _, _, _⟩ := hf1
    have hget : Env.get (global_env.define 0 "fact" fact_function) 0 "fact" = .ok fact_function :=
      Env.get_local _ 0 g "fact" _ hg hfact
    have hlen : (global_env.define 0 "fact" fact_function).envs.length = 1 := by
      simp [Heap.define, global_env]
    have hf2 : ((global_env.define 0 "fact" fact_function).alloc
        ⟨[("n", .num ((k + 1 : Nat) : ℚ))], some 0⟩).has_fact := by
      refine ⟨g, ?_, hfact, ‹_›, ‹_›, ‹_›⟩
      simp only [Heap.alloc]
      rw [List.getElem?_append_left (by omega)]
      exact hg
    have hnew : ((global_env.define 0 "fact" fact_function).alloc
        ⟨[("n", .num ((k + 1 : Nat) : ℚ))], some 0⟩).envs[
          (global_env.define 0 "fact" fact_function).envs.length]?
        = some ⟨[("n", .num ((k + 1 : Nat) : ℚ))], some 0⟩ := by
      simp [Heap.alloc]
    obtain ⟨st1, hbody⟩ := fact_body_eval h k 0 _ _ hf2 (by omega) hnew
    refine ⟨3 * k + 5 + 0 + 1, st1, ?_⟩
    rw [← hbody]
    refine eval_lst_function h (3 * k + 5 + 0) _ _ 0 (.lst [.sym "n"]) fact_body 0
      [.num ((k + 1 : Nat) : ℚ)] _ _ ?_ (by simp [Env.ctor, Env.bindAt, Table.set])
    have hfuel : 3 * k + 5 + 0 = (3 * k + 4) + 1 := by omega
    rw [hfuel]
    simp only [transform, eval_sym h (3 * k + 4) _ "fact" 0 _ hget]
    simp [eval, fact_function]

/-- C10, witness: a closure with parameter `x` made in the global frame, `y` defined
there afterwards, and `n = 3`. -/
theorem closure_sees_later_define_witness :
    (∀ k st0, eval stdHost (k + 1) st0 (.lambda (.lst [.sym "x"]) (.sym "y")) 0
        = .ok (.function (.lst [.sym "x"]) (.sym "y") 0, st0))
      ∧ (∀ k, eval stdHost (k + 1)
              ((global_env.define 0 "y" (.num 7)).alloc ⟨[("x", .num 1)], some 0⟩) (.sym "y")
              (global_env.define 0 "y" (.num 7)).envs.length
            = .ok (.num 7, (global_env.define 0 "y" (.num 7)).alloc ⟨[("x", .num 1)], some 0⟩))
      ∧ eval stdHost 2 global_env (.define "fact" (.lambda (.lst [.sym "n"]) fact_body)) 0
          = .ok (fact_function, global_env.define 0 "fact" fact_function)
      ∧ ∃ fuel st1, eval stdHost fuel (global_env.define 0 "fact" fact_function)
            (.lst [.sym "fact", .num ((3 : Nat) : ℚ)]) 0
          = .ok (.num (((3 : Nat).factorial : Nat) : ℚ), st1) :=
  closure_sees_later_define stdHost global_env 0 (.lst [.sym "x"]) (.sym "y") "y" (.num 7)
    [.num 1] ⟨[("x", .num 1)], some 0⟩ 3 (by decide) (by decide!) (by decide) (by decide)

/-! ### C6: `read` and trailing input -/

/-- C6, counterexample: `read` returns the first value of `(+ 1 2) garbage` and of
`1 2`; the parser stops after that value and the input left over is not looked at.  For
`(if 1) garbage` the grammar matches `(if 1)` as well, and it is the expander that fails. -/
theorem read_ignores_trailing_input :
    read stdHost "(+ 1 2) garbage" [] = .ok (.lst [.sym "+", .num 1, .num 2], [])
      ∧ read stdHost "1 2" [] = .ok (.num 1, [])
      ∧ (match value_ stdHost 10 "1 2".data with
          | .ok _ rest => some rest
          | _ => none) = some " 2".data
      ∧ read stdHost "(if 1) garbage" []
          = .error (.invalid_argument "wrong number of arguments to if")
      ∧ read stdHost "(if 1)" []
          = .error (.invalid_argument "wrong number of arguments to if") := by
  decide!

/-! ### C7: failures of `expand` -/

theorem visitor_error_iff (h : Host) (token : String) (rest : List Any) (m : List (List Any)) :
    (∃ e, visitor h (.sym token :: rest) m = .error e)
      ↔ malformed_form token (rest.length + 1) (Any.head_is_sym rest) (Any.head_is_str rest)
          = true := by
  by_cases h1 : token = "quote"
  · subst h1
    rcases rest with _ | ⟨a1, _ | ⟨a2, _ | ⟨a3, _ | ⟨a4, rest⟩⟩⟩⟩ <;>
      simp [visitor, malformed_form, Any.head_is_sym, Any.head_is_str]
  by_cases h2 : token = "if"
  · subst h2
    rcases rest with _ | ⟨a1, _ | ⟨a2, _ | ⟨a3, _ | ⟨a4, rest⟩⟩⟩⟩ <;>
      simp [visitor, malformed_form, Any.head_is_sym, Any.head_is_str]
  by_cases h3 : token = "lambda"
  · subst h3
    rcases rest with _ | ⟨a1, _ | ⟨a2, _ | ⟨a3, _ | ⟨a4, rest⟩⟩⟩⟩ <;>
      simp [visitor, malformed_form, Any.head_is_sym, Any.head_is_str]
  by_cases h4 : token = "begin"
  · subst h4
    rcases rest with _ | ⟨a1, rest⟩
    · simp [visitor, malformed_form, Any.head_is_sym, Any.head_is_str]
    · have h5 : ¬ (rest.length + 1 + 1 < 2) := by omega
      simp [visitor, malformed_form, Any.head_is_sym, Any.head_is_str, h5]
  by_cases h5 : token = "define"
  · subst h5
    rcases rest with _ | ⟨a1, _ | ⟨a2, _ | ⟨a3, _ | ⟨a4, rest⟩⟩⟩⟩ <;>
      first
        | (simp [visitor, malformed_form, Any.head_is_sym, Any.head_is_str]; done)
        | (cases a1 <;> simp [visitor, malformed_form, Any.head_is_sym, Any.head_is_str])
  by_cases h6 : token = "import"
  · subst h6
    rcases rest with _ | ⟨a1, _ | ⟨a2, rest⟩⟩ <;>
      first
        | (simp [visitor, malformed_form, Any.head_is_sym, Any.head_is_str]; done)
        | (cases a1 <;> simp [visitor, malformed_form, Any.head_is_sym, Any.head_is_str])
  by_cases h7 : token = "<" ∨ token = ">" ∨ token = "<=" ∨ token = ">=" ∨ token = "=="
  · have h8 : (token = "<" || token = ">" || token = "<=" || token = ">=" || token = "==")
        = true := by
      rcases h7 with h | h | h | h | h <;> simp [h]
    rcases rest with _ | ⟨a1, _ | ⟨a2, _ | ⟨a3, rest⟩⟩⟩ <;>
      simp [visitor, malformed_form, Any.head_is_sym, Any.head_is_str, h1, h2, h3, h4, h5, h6, h7, h8]
  · have h8 : (token = "<" || token = ">" || token = "<=" || token = ">=" || token = "==")
        = false := by
      simp only [not_or] at h7
      obtain ⟨k1, k2, k3, k4, k5⟩ := h7
      simp [k1, k2, k3, k4, k5]
    simp [visitor, malformed_form, Any.head_is_sym, Any.head_is_str, h1, h2, h3, h4, h5, h6, h7, h8]

theorem visitor_not_atom (h : Host) (list : List Any) (m : List (List Any)) (a : Any)
    (m1 : List (List Any)) (hv : visitor h list m = .ok (a, m1)) :
    (∀ s, a ≠ .sym s) ∧ (∀ s, a ≠ .str s) := by
  unfold visitor at hv
  constructor <;> intro s hs <;> subst hs <;>
    (repeat' split at hv) <;> simp at hv

theorem expand_keeps_atoms (h : Host) (x : value) (m : List (List Any)) (a : Any)
    (m1 : List (List Any)) (hx : expand h x m = .ok (a, m1)) :
    (∀ s, a = .sym s ↔ x = .sym s) ∧ (∀ s, a = .str s ↔ x = .str s) := by
  cases x with
  | num q =>
    simp only [expand, Except.ok.injEq, Prod.mk.injEq] at hx
    rw [← hx.1]; simp
  | str q =>
    simp only [expand, Except.ok.injEq, Prod.mk.injEq] at hx
    rw [← hx.1]; simp
  | sym q =>
    simp only [expand, Except.ok.injEq, Prod.mk.injEq] at hx
    rw [← hx.1]; simp
  | bool q =>
    simp only [expand, Except.ok.injEq, Prod.mk.injEq] at hx
    rw [← hx.1]; simp
  | list v =>
    cases v with
    | nil =>
      simp only [expand, Except.ok.injEq, Prod.mk.injEq] at hx
      rw [← hx.1]; simp
    | cons y ys =>
      simp only [expand] at hx
      split at hx
      next list m2 hl =>
        obtain ⟨h1, h2⟩ := visitor_not_atom h list m2 a m1 hx
        constructor
        · intro s
          constructor
          · intro hs; exact absurd hs (h1 s)
          · intro hs; cases hs
        · intro s
          constructor
          · intro hs; exact absurd hs (h2 s)
          · intro hs; cases hs
      next => cases hx

theorem expand_all_cons (h : Host) (x : value) (xs : List value) (m : List (List Any))
    (list : List Any) (m2 : List (List Any))
    (hx : expand_all h (x :: xs) m = .ok (list, m2)) :
    ∃ a m1 rest, expand h x m = .ok (a, m1) ∧ expand_all h xs m1 = .ok (rest, m2)
      ∧ list = a :: rest := by
  simp only [expand_all] at hx
  split at hx
  next a m1 ha =>
    split at hx
    next rest m3 hr =>
      simp only [Except.ok.injEq, Prod.mk.injEq] at hx
      exact ⟨a, m1, rest, ha, by rw [hr, hx.2], hx.1.symm⟩
    next => cases hx
  next => cases hx

theorem expand_all_length (h : Host) :
    ∀ (v : List value) (m : List (List Any)) (list : List Any) (m1 : List (List Any)),
      expand_all h v m = .ok (list, m1) → list.length = v.length := by
  intro v
  induction v with
  | nil =>
    intro m list m1 hv
    simp only [expand_all, Except.ok.injEq, Prod.mk.injEq] at hv
    rw [← hv.1]
    rfl
  | cons x xs ih =>
    intro m list m1 hv
    obtain ⟨a, m2, rest, _, hr, hl⟩ := expand_all_cons h x xs m list m1 hv
    rw [hl, List.length_cons, List.length_cons, ih m2 rest m1 hr]

theorem expand_all_second (h : Host) (xs : List value) (m : List (List Any))
    (rest : List Any) (m1 : List (List Any)) (hr : expand_all h xs m = .ok (rest, m1)) :
    Any.head_is_sym rest = value.head_is_sym xs
      ∧ Any.head_is_str rest = value.head_is_str xs := by
  cases xs with
  | nil =>
    simp only [expand_all, Except.ok.injEq, Prod.mk.injEq] at hr
    rw [← hr.1]
    exact ⟨rfl, rfl⟩
  | cons y ys =>
    obtain ⟨b, m2, rs, hb, _, hl⟩ := expand_all_cons h y ys m rest m1 hr
    obtain ⟨hsym, hstr⟩ := expand_keeps_atoms h y m b m2 hb
    subst hl
    constructor
    · cases y <;> cases b <;>
        simp_all [value.is_sym, Any.head_is_sym, value.head_is_sym]
    · cases y <;> cases b <;>
        simp_all [value.is_str, Any.head_is_str, value.head_is_str]

mutual
theorem expand_error_iff (h : Host) :
    ∀ (t : value) (m : List (List Any)),
      (∃ e, expand h t m = .error e) ↔ t.malformed = true
  | .num x, m => by simp [expand, value.malformed]
  | .str x, m => by simp [expand, value.malformed]
  | .sym x, m => by simp [expand, value.malformed]
  | .bool x, m => by simp [expand, value.malformed]
  | .list [], m => by simp [expand, value.malformed, malformed_head, any_malformed]
  | .list (x :: xs), m => by
    have ih := expand_all_error_iff h (x :: xs) m
    simp only [expand, value.malformed]
    cases hall : expand_all h (x :: xs) m with
    | error e =>
      have h1 : any_malformed (x :: xs) = true := ih.mp ⟨e, hall⟩
      simp [h1]
    | ok r =>
      obtain ⟨list, m1⟩ := r
      have h1 : any_malformed (x :: xs) = false := by
        cases hb : any_malformed (x :: xs) with
        | false => rfl
        | true =>
          obtain ⟨e, he⟩ := ih.mpr hb
          rw [hall] at he
          cases he
      obtain ⟨a, m2, rest, ha, hr, hl⟩ := expand_all_cons h x xs m list m1 hall
      have hlen := expand_all_length h xs m2 rest m1 hr
      obtain ⟨hsym, hstr⟩ := expand_keeps_atoms h x m a m2 ha
      subst hl
      obtain ⟨hsec1, hsec2⟩ := expand_all_second h xs m2 rest m1 hr
      simp only [h1, Bool.or_false]
      cases x with
      | sym token =>
        have ha1 : a = .sym token := (hsym token).mpr rfl
        subst ha1
        rw [visitor_error_iff, hsec1, hsec2, hlen]
        simp [malformed_head]
      | num q =>
        have ha1 : ∀ s, a ≠ .sym s := fun s hs => by simpa using (hsym s).mp hs
        cases a <;> simp_all [visitor, malformed_head]
      | str q =>
        have ha1 : ∀ s, a ≠ .sym s := fun s hs => by simpa using (hsym s).mp hs
        cases a <;> simp_all [visitor, malformed_head]
      | bool q =>
        have ha1 : ∀ s, a ≠ .sym s := fun s hs => by simpa using (hsym s).mp hs
        cases a <;> simp_all [visitor, malformed_head]
      | list q =>
        have ha1 : ∀ s, a ≠ .sym s := fun s hs => by simpa using (hsym s).mp hs
        cases a <;> simp_all [visitor, malformed_head]
theorem expand_all_error_iff (h : Host) :
    ∀ (v : List value) (m : List (List Any)),
      (∃ e, expand_all h v m = .error e) ↔ any_malformed v = true
  | [], m => by simp [expand_all, any_malformed]
  | x :: xs, m => by
    have ih := expand_error_iff h x m
    simp only [expand_all, any_malformed, Bool.or_eq_true]
    cases hx : expand h x m with
    | error e =>
      have h1 : x.malformed = true := ih.mp ⟨e, hx⟩
      simp [h1]
    | ok r =>
      obtain ⟨a, m1⟩ := r
      have h1 : ¬ x.malformed = true := by
        intro hb
        obtain ⟨e, he⟩ := ih.mpr hb
        rw [hx] at he
        cases he
      have ih2 := expand_all_error_iff h xs m1
      simp only [h1, false_or]
      rw [← ih2]
      cases expand_all h xs m1 with
      | error e => simp
      | ok r => simp
end

theorem visitor_error_kind (h : Host) (list : List Any) (m : List (List Any)) (e : Err)
    (hv : visitor h list m = .error e) : ∃ what, e = .invalid_argument what := by
  unfold visitor at hv
  (repeat' split at hv) <;> first
    | (cases hv; exact ⟨_, rfl⟩)
    | (simp at hv)

mutual
theorem expand_error_kind (h : Host) :
    ∀ (t : value) (m : List (List Any)) (e : Err),
      expand h t m = .error e → ∃ what, e = .invalid_argument what
  | .num x, m, e, he => by simp [expand] at he
  | .str x, m, e, he => by simp [expand] at he
  | .sym x, m, e, he => by simp [expand] at he
  | .bool x, m, e, he => by simp [expand] at he
  | .list [], m, e, he => by simp [expand] at he
  | .list (x :: xs), m, e, he => by
    simp only [expand] at he
    cases hall : expand_all h (x :: xs) m with
    | error e1 =>
      rw [hall] at he
      cases he
      exact expand_all_error_kind h (x :: xs) m e hall
    | ok r =>
      obtain ⟨list, m1⟩ := r
      rw [hall] at he
      exact visitor_error_kind h list m1 e he
theorem expand_all_error_kind (h : Host) :
    ∀ (v : List value) (m : List (List Any)) (e : Err),
      expand_all h v m = .error e → ∃ what, e = .invalid_argument what
  | [], m, e, he => by simp [expand_all] at he
  | x :: xs, m, e, he => by
    simp only [expand_all] at he
    cases hx : expand h x m with
    | error e1 =>
      rw [hx] at he
      cases he
      exact expand_error_kind h x m e hx
    | ok r =>
      obtain ⟨a, m1⟩ := r
      cases hxs : expand_all h xs m1 with
      | error e1 =>
        simp only [hx, hxs, Except.error.injEq] at he
        subst he
        exact expand_all_error_kind h xs m1 _ hxs
      | ok r1 =>
        simp [hx, hxs] at he
end

theorem expand_ok_iff (h : Host) (t : value) (m : List (List Any)) :
    (∃ r, expand h t m = .ok r) ↔ t.malformed = false := by
  have h1 := expand_error_iff h t m
  cases hx : expand h t m with
  | error e =>
    have h2 : t.malformed = true := h1.mp ⟨e, hx⟩
    simp [h2]
  | ok r =>
    have h2 : t.malformed = false := by
      cases hb : t.malformed with
      | false => rfl
      | true =>
        obtain ⟨e, he⟩ := h1.mpr hb
        rw [hx] at he
        cases he
    simp [h2]

theorem expand_invalid_iff (h : Host) (t : value) (m : List (List Any)) :
    (∃ what, expand h t m = .error (.invalid_argument what)) ↔ t.malformed = true := by
  rw [← expand_error_iff h t m]
  constructor
  · rintro ⟨what, hw⟩
    exact ⟨_, hw⟩
  · rintro ⟨e, he⟩
    obtain ⟨what, hw⟩ := expand_error_kind h t m e he
    subst hw
    exact ⟨what, he⟩

/-- C7: for every host (which supplies the file contents for `import`) and every raw
tree `t`, `expand` fails if and only if `t` contains, at some depth, a list whose head
symbol is `quote` with length other than 2, `if` with length other than 4, `lambda` with
length other than 3, `begin` with length below 2, `define` with a length other than 3
or 4 or a second element that is not a `Symbol`, `import` with length other than 2 or a
second element that is not a `String`, or one of `<`, `>`, `<=`, `>=`, `==` with length
other than 3; on every other tree it succeeds. -/
theorem expand_fails_iff_malformed (h : Host) (t : value) (m : List (List Any)) :
    ((∃ e, expand h t m = .error e) ↔ t.malformed = true)
      ∧ ((∃ r, expand h t m = .ok r) ↔ t.malformed = false) := by
  have h1 := expand_error_iff h t m
  refine ⟨h1, ?_⟩
  cases hx : expand h t m with
  | error e =>
    have h2 : t.malformed = true := h1.mp ⟨e, hx⟩
    simp [h2]
  | ok r =>
    have h2 : t.malformed = false := by
      cases hb : t.malformed with
      | false => rfl
      | true =>
        obtain ⟨e, he⟩ := h1.mpr hb
        rw [hx] at he
        cases he
    simp [h2]

/-! ### C8: reading and rendering canonical texts -/

theorem skip_of_not_space (c : Char) (cs : List Char) (hc : space c = false) :
    skip (c :: cs) = c :: cs := by
  simp [skip, hc]

theorem symbol_char_not_space (c : Char) (hc : symbol_char c = true) : space c = false := by
  cases hs : space c with
  | false => rfl
  | true =>
    simp only [space, Bool.or_eq_true, decide_eq_true_eq] at hs
    rcases hs with ((((hs | hs) | hs) | hs) | hs) | hs <;> subst hs <;> revert hc <;> decide

theorem symbol_char_not_delim (c : Char) (hc : symbol_char c = true) :
    c ≠ '"' ∧ c ≠ '(' ∧ c ≠ ')' ∧ c ≠ '[' ∧ c ≠ ' ' := by
  refine ⟨?_, ?_, ?_, ?_, ?_⟩ <;> intro hs <;> subst hs <;> revert hc <;> decide

theorem string_none (c : Char) (cs : List Char) (hc : c ≠ '"') : string_ (c :: cs) = none := by
  simp [string_, hc]

theorem multi_string_none (c : Char) (cs : List Char) (hc : c ≠ '[') :
    multi_string_ (c :: cs) = none := by
  cases cs with
  | nil => simp [multi_string_]
  | cons d ds => simp [multi_string_, hc]

theorem symbol_none (c : Char) (cs : List Char) (hc : symbol_char c = false) :
    symbol_ (c :: cs) = none := by
  simp [symbol_, symbol_run, hc]

theorem boolean_none (c : Char) (cs : List Char) (h1 : c ≠ 't') (h2 : c ≠ 'f') :
    boolean_ (c :: cs) = none := by
  simp [boolean_, List.isPrefixOf, Ne.symm h1, Ne.symm h2]

theorem symbol_run_token (rest : List Char) (hr : delimited rest = true) :
    ∀ (s : List Char), (∀ c ∈ s, symbol_char c = true) → symbol_run (s ++ rest) = (s, rest) := by
  intro s
  induction s with
  | nil =>
    intro _
    cases rest with
    | nil => rfl
    | cons c r =>
      have hc : symbol_char c = false := by
        simp only [delimited, Bool.or_eq_true, decide_eq_true_eq] at hr
        rcases hr with hr | hr <;> subst hr <;> decide
      simp [symbol_run, hc]
  | cons c s ih =>
    intro hs
    have hc : symbol_char c = true := hs c (List.mem_cons_self c s)
    have ih1 := ih (fun d hd => hs d (List.mem_cons_of_mem c hd))
    simp [symbol_run, hc, ih1]

theorem string_body_text (rest : List Char) :
    ∀ (s : List Char), '"' ∉ s → string_body (s ++ '"' :: rest) = some (s, rest) := by
  intro s
  induction s with
  | nil => intro _; simp [string_body]
  | cons c s ih =>
    intro hs
    simp only [List.mem_cons, not_or] at hs
    have hc : c ≠ '"' := fun hcq => hs.1 hcq.symm
    simp [string_body, hc, ih hs.2]

theorem canonical_first (h : Host) (t : value) (ht : t.canonical h) :
    ∃ c cs, t.chars h = c :: cs ∧ space c = false := by
  cases t with
  | num x => exact ht.1
  | str s => exact ⟨'"', s.data ++ ['"'], rfl, by decide⟩
  | sym s =>
    obtain ⟨hne, hall, _⟩ := ht
    cases hd : s.data with
    | nil => exact absurd hd hne
    | cons c cs =>
      refine ⟨c, cs, by simp [value.chars, hd], symbol_char_not_space c (hall c ?_)⟩
      rw [hd]; exact List.mem_cons_self c cs
  | bool b =>
    cases b
    · exact ⟨'f', "alse".data, rfl, by decide⟩
    · exact ⟨'t', "rue".data, rfl, by decide⟩
  | list v => exact ⟨'(', elems h v ++ [')'], rfl, by decide⟩

theorem skip_elems (h : Host) (v : List value) (hv : all_canonical h v) (rest : List Char) :
    skip (elems h v ++ ')' :: rest) = elems h v ++ ')' :: rest := by
  cases v with
  | nil => exact skip_of_not_space _ _ (by decide)
  | cons x xs =>
    obtain ⟨c, cs, hc, hsp⟩ := canonical_first h x hv.1
    cases xs with
    | nil =>
      simp only [elems, hc, List.cons_append]
      exact skip_of_not_space _ _ hsp
    | cons y ys =>
      simp only [elems, hc, List.cons_append]
      exact skip_of_not_space _ _ hsp

theorem value_fails_at_close (h : Host) (hh : h.number_starts) (n : Nat) (cs rest : List Char)
    (hs : skip cs = ')' :: rest) : value_ h (n + 1) cs = .fail := by
  have h1 : h.double_ (')' :: rest) = none := hh _ _ (by simp)
  simp [value_, hs, h1, string_none, boolean_none, multi_string_none, symbol_none,
    show symbol_char ')' = false by decide]

mutual
theorem value_reads (h : Host) (hh : h.number_starts) :
    ∀ (t : value) (n : Nat) (cs rest : List Char), t.need ≤ n → t.canonical h →
      skip cs = t.chars h ++ rest → delimited rest = true → value_ h n cs = .ok t rest
  | .num x, n, cs, rest, hn, ht, hs, hr => by
    obtain ⟨k, hk⟩ : ∃ k, n = k + 1 := ⟨n - 1, by simp [value.need] at hn; omega⟩
    subst hk
    simp only [value.chars] at hs
    simp [value_, hs, ht.2 rest hr]
  | .str s, n, cs, rest, hn, ht, hs, hr => by
    obtain ⟨k, hk⟩ : ∃ k, n = k + 1 := ⟨n - 1, by simp [value.need] at hn; omega⟩
    subst hk
    simp only [value.chars, List.cons_append, List.append_assoc, List.singleton_append] at hs
    have h1 : h.double_ ('"' :: (s.data ++ '"' :: rest)) = none := hh _ _ (by simp)
    have h2 : string_body (s.data ++ '"' :: rest) = some (s.data, rest) :=
      string_body_text rest s.data ht
    simp [value_, hs, h1, string_, h2]
  | .sym s, n, cs, rest, hn, ht, hs, hr => by
    obtain ⟨k, hk⟩ : ∃ k, n = k + 1 := ⟨n - 1, by simp [value.need] at hn; omega⟩
    subst hk
    simp only [value.chars] at hs
    obtain ⟨hne, hall, htok⟩ := ht
    obtain ⟨h1, h2⟩ := htok rest hr
    have h5 : symbol_run (s.data ++ rest) = (s.data, rest) := symbol_run_token rest hr s.data hall
    cases s with
    | mk data =>
      cases data with
      | nil => exact absurd rfl hne
      | cons c cs1 =>
        have hc : symbol_char c = true := hall c (List.mem_cons_self c cs1)
        obtain ⟨hq, _, _, hb, _⟩ := symbol_char_not_delim c hc
        have h3 : string_ (c :: cs1 ++ rest) = none := string_none c _ hq
        have h4 : multi_string_ (c :: cs1 ++ rest) = none := multi_string_none c _ hb
        have h6 : symbol_ (c :: cs1 ++ rest) = some (String.mk (c :: cs1), rest) := by
          simp only [symbol_, h5]
        simp only [value_, hs, h1, h2, h3, h4, h6]
  | .bool b, n, cs, rest, hn, ht, hs, hr => by
    obtain ⟨k, hk⟩ : ∃ k, n = k + 1 := ⟨n - 1, by simp [value.need] at hn; omega⟩
    subst hk
    cases b with
    | true =>
      have hs1 : skip cs = 't' :: 'r' :: 'u' :: 'e' :: rest := hs
      have h1 : h.double_ ('t' :: 'r' :: 'u' :: 'e' :: rest) = none := hh 't' _ (by simp)
      have h2 : string_ ('t' :: 'r' :: 'u' :: 'e' :: rest) = none := string_none 't' _ (by decide)
      simp [value_, hs1, h1, h2, boolean_]
    | false =>
      have hs1 : skip cs = 'f' :: 'a' :: 'l' :: 's' :: 'e' :: rest := hs
      have h1 : h.double_ ('f' :: 'a' :: 'l' :: 's' :: 'e' :: rest) = none := hh 'f' _ (by simp)
      have h2 : string_ ('f' :: 'a' :: 'l' :: 's' :: 'e' :: rest) = none :=
        string_none 'f' _ (by decide)
      simp [value_, hs1, h1, h2, boolean_]
  | .list v, n, cs, rest, hn, ht, hs, hr => by
    obtain ⟨k, hk⟩ : ∃ k, n = k + 1 := ⟨n - 1, by simp [value.need] at hn; omega⟩
    subst hk
    simp only [value.chars, List.cons_append, List.append_assoc, List.singleton_append] at hs
    have hn1 : needs v ≤ k := by simp only [value.need] at hn; omega
    obtain ⟨cs1, hstar, hcs1⟩ := star_value_reads h hh v k (elems h v ++ ')' :: rest) rest hn1
      ht.2 (skip_elems h v ht.2 rest)
    have h1 : h.double_ ('(' :: (elems h v ++ ')' :: rest)) = none := hh _ _ (by simp)
    simp [value_, hs, h1, string_none, boolean_none, multi_string_none, symbol_none,
      show symbol_char '(' = false by decide, hstar, hcs1]
theorem star_value_reads (h : Host) (hh : h.number_starts) :
    ∀ (v : List value) (n : Nat) (cs rest : List Char), needs v ≤ n → all_canonical h v →
      skip cs = elems h v ++ ')' :: rest →
      ∃ cs1, star_value_ h n cs = .ok v cs1 ∧ skip cs1 = ')' :: rest
  | [], n, cs, rest, hn, hv, hs => by
    obtain ⟨k, hk⟩ : ∃ k, n = k + 2 := ⟨n - 2, by simp [needs] at hn; omega⟩
    subst hk
    refine ⟨cs, ?_, hs⟩
    simp only [elems, List.nil_append] at hs
    simp only [star_value_, value_fails_at_close h hh k cs rest hs]
  | x :: xs, n, cs, rest, hn, hv, hs => by
    obtain ⟨k, hk⟩ : ∃ k, n = k + 1 := ⟨n - 1, by simp [needs] at hn; omega⟩
    subst hk
    have hn1 : x.need ≤ k := by simp only [needs] at hn; omega
    have hn2 : needs xs ≤ k := by simp only [needs] at hn; omega
    cases xs with
    | nil =>
      simp only [elems] at hs
      have hx := value_reads h hh x k cs (')' :: rest) hn1 hv.1 hs rfl
      obtain ⟨cs1, hstar, hcs1⟩ := star_value_reads h hh [] k (')' :: rest) rest hn2 hv.2
        (skip_of_not_space _ _ (by decide))
      exact ⟨cs1, by simp only [star_value_, hx, hstar], hcs1⟩
    | cons y ys =>
      simp only [elems, List.append_assoc, List.cons_append] at hs
      have hx := value_reads h hh x k cs (' ' :: (elems h (y :: ys) ++ ')' :: rest)) hn1 hv.1
        (by simpa [elems] using hs) rfl
      obtain ⟨cs1, hstar, hcs1⟩ := star_value_reads h hh (y :: ys) k
        (' ' :: (elems h (y :: ys) ++ ')' :: rest)) rest hn2 hv.2
        (by
          have h1 : skip (' ' :: (elems h (y :: ys) ++ ')' :: rest))
              = skip (elems h (y :: ys) ++ ')' :: rest) := by
            simp [skip, space]
          rw [h1]
          exact skip_elems h (y :: ys) hv.2 rest)
      exact ⟨cs1, by simp only [star_value_, hx, hstar], hcs1⟩
end

theorem print_lst_data (h : Host) (l : List Any) :
    (print h (.lst l)).data = '(' :: (printElems h l).data ++ [')'] := by
  simp [print]

theorem printElems_cons_cons (h : Host) (a b : Any) (l : List Any) :
    (printElems h (a :: b :: l)).data = (print h a).data ++ ' ' :: (printElems h (b :: l)).data := by
  simp [printElems]

theorem visitor_generic (h : Host) (a : Any) (rest : List Any) (m : List (List Any))
    (ha : ∀ s, a ≠ .sym s) : visitor h (a :: rest) m = .ok (.lst (a :: rest), m) := by
  cases a <;> simp_all [visitor]

theorem visitor_renders (h : Host) (token : String) (rest : List Any) (m : List (List Any))
    (hc : renders_form token rest.length (Any.head_is_sym rest) = true) :
    ∃ e, visitor h (.sym token :: rest) m = .ok (e, m)
      ∧ (print h e).data = '(' :: (printElems h (.sym token :: rest)).data ++ [')'] := by
  by_cases h1 : token = "quote"
  · subst h1
    rcases rest with _ | ⟨a1, _ | ⟨a2, rest⟩⟩
    · simp [renders_form] at hc
    · exact ⟨.quote a1, by simp [visitor], by simp [print, printElems]⟩
    · simp [renders_form] at hc
  by_cases h5 : token = "define"
  · subst h5
    rcases rest with _ | ⟨a1, _ | ⟨a2, _ | ⟨a3, rest⟩⟩⟩
    · simp [renders_form] at hc
    · simp [renders_form] at hc
    · cases a1 <;> simp [renders_form, Any.head_is_sym] at hc
      next s => exact ⟨.define s a2, by simp [visitor], by simp [print, printElems]⟩
    · simp [renders_form] at hc
  by_cases h2 : token = "if"
  · simp [renders_form, h2] at hc
  by_cases h3 : token = "lambda"
  · simp [renders_form, h3] at hc
  by_cases h4 : token = "begin"
  · simp [renders_form, h4] at hc
  by_cases h6 : token = "import"
  · simp [renders_form, h6] at hc
  refine ⟨.lst (.sym token :: rest), ?_, print_lst_data h _⟩
  by_cases h7 : token = "<" ∨ token = ">" ∨ token = "<=" ∨ token = ">=" ∨ token = "=="
  · have h8 : (token = "<" || token = ">" || token = "<=" || token = ">=" || token = "==")
        = true := by
      rcases h7 with k | k | k | k | k <;> simp [k]
    have h9 : rest.length = 2 := by
      simpa [renders_form, h1, h2, h3, h4, h5, h6, h8] using hc
    simp [visitor, h1, h2, h3, h4, h5, h6, h7, h9]
  · simp [visitor, h1, h2, h3, h4, h5, h6, h7]

mutual
theorem expand_renders (h : Host) :
    ∀ (t : value) (m : List (List Any)), t.canonical h →
      ∃ e, expand h t m = .ok (e, m) ∧ (print h e).data = t.chars h
  | .num x, m, _ => ⟨.num x, rfl, by simp [print, value.chars]⟩
  | .str s, m, _ => ⟨.str s, rfl, by simp [print, value.chars]⟩
  | .sym s, m, _ => ⟨.sym s, rfl, by simp [print, value.chars]⟩
  | .bool b, m, _ => ⟨.bool b, rfl, by cases b <;> simp [print, value.chars]⟩
  | .list [], m, _ => ⟨.lst [], rfl, by simp [print, value.chars, printElems, elems]⟩
  | .list (x :: xs), m, ht => by
    obtain ⟨list, hall, hp⟩ := expand_all_renders h (x :: xs) m ht.2
    obtain ⟨a, m2, rest, ha, hr, hl⟩ := expand_all_cons h x xs m list m hall
    have hlen := expand_all_length h xs m2 rest m hr
    obtain ⟨hsec, _⟩ := expand_all_second h xs m2 rest m hr
    obtain ⟨hsym, _⟩ := expand_keeps_atoms h x m a m2 ha
    subst hl
    simp only [expand, hall, value.chars]
    rw [← hp]
    cases x with
    | sym token =>
      have ha1 : a = .sym token := (hsym token).mpr rfl
      subst ha1
      have hc : renders_form token rest.length (Any.head_is_sym rest) = true := by
        rw [hlen, hsec]
        exact ht.1
      exact visitor_renders h token rest m hc
    | num q =>
      have ha1 : ∀ s, a ≠ .sym s := fun s hs => by simpa using (hsym s).mp hs
      exact ⟨_, visitor_generic h a rest m ha1, print_lst_data h _⟩
    | str q =>
      have ha1 : ∀ s, a ≠ .sym s := fun s hs => by simpa using (hsym s).mp hs
      exact ⟨_, visitor_generic h a rest m ha1, print_lst_data h _⟩
    | bool q =>
      have ha1 : ∀ s, a ≠ .sym s := fun s hs => by simpa using (hsym s).mp hs
      exact ⟨_, visitor_generic h a rest m ha1, print_lst_data h _⟩
    | list q =>
      have ha1 : ∀ s, a ≠ .sym s := fun s hs => by simpa using (hsym s).mp hs
      exact ⟨_, visitor_generic h a rest m ha1, print_lst_data h _⟩
theorem expand_all_renders (h : Host) :
    ∀ (v : List value) (m : List (List Any)), all_canonical h v →
      ∃ list, expand_all h v m = .ok (list, m) ∧ (printElems h list).data = elems h v
  | [], m, _ => ⟨[], rfl, by simp [printElems, elems]⟩
  | x :: xs, m, hv => by
    obtain ⟨e, he, hpe⟩ := expand_renders h x m hv.1
    obtain ⟨list, hall, hp⟩ := expand_all_renders h xs m hv.2
    have hlen := expand_all_length h xs m list m hall
    refine ⟨e :: list, by simp only [expand_all, he, hall], ?_⟩
    cases xs with
    | nil =>
      cases list with
      | nil => simp [printElems, elems, hpe]
      | cons b l => simp at hlen
    | cons y ys =>
      cases list with
      | nil => simp at hlen
      | cons b l =>
        rw [printElems_cons_cons, hpe, hp]
        simp [elems]
end

mutual
theorem need_le (h : Host) :
    ∀ (t : value), t.canonical h → t.need ≤ 2 * (t.chars h).length + 1
  | .num x, _ => by simp [value.need]
  | .str s, _ => by simp [value.need]
  | .sym s, _ => by simp [value.need]
  | .bool b, _ => by simp [value.need]
  | .list v, ht => by
    have h1 := needs_le h v ht.2
    simp only [value.need, value.chars, List.length_cons, List.length_append,
      List.length_singleton]
    omega
theorem needs_le (h : Host) :
    ∀ (v : List value), all_canonical h v → needs v ≤ 2 * (elems h v).length + 2
  | [], _ => by simp [needs]
  | x :: xs, hv => by
    have h1 := need_le h x hv.1
    have h2 := needs_le h xs hv.2
    obtain ⟨c, cs, hc, _⟩ := canonical_first h x hv.1
    have h3 : 1 ≤ (x.chars h).length := by rw [hc]; simp
    cases xs with
    | nil =>
      simp only [needs, elems] at h2 ⊢
      omega
    | cons y ys =>
      simp only [needs, elems, List.length_append, List.length_cons] at h2 ⊢
      omega
end

theorem read_canonical (h : Host) (hh : h.number_starts) (t : value) (ht : t.canonical h)
    (m : List (List Any)) :
    ∃ e, read h (t.text h) m = .ok (e, m) ∧ print h e = t.text h := by
  obtain ⟨e, he, hp⟩ := expand_renders h t m ht
  obtain ⟨c, cs, hc, hsp⟩ := canonical_first h t ht
  have hskip : skip (t.chars h) = t.chars h ++ [] := by
    rw [List.append_nil, hc]
    exact skip_of_not_space c cs hsp
  have hfuel : t.need ≤ 2 * (t.text h).length + 2 := by
    have h1 := need_le h t ht
    simp only [value.text, String.length]
    omega
  have hv := value_reads h hh t _ (t.chars h) [] hfuel ht hskip rfl
  refine ⟨e, ?_, String.ext hp⟩
  simp only [read, value.text] at hv ⊢
  rw [hv]
  exact he

theorem delimited_cases (rest : List Char) (hr : delimited rest = true) :
    rest = [] ∨ (∃ r, rest = ' ' :: r) ∨ (∃ r, rest = ')' :: r) := by
  cases rest with
  | nil => exact Or.inl rfl
  | cons c r =>
    simp only [delimited, Bool.or_eq_true, decide_eq_true_eq] at hr
    rcases hr with hr | hr
    · exact Or.inr (Or.inl ⟨r, by rw [hr]⟩)
    · exact Or.inr (Or.inr ⟨r, by rw [hr]⟩)

theorem stdHost_number_starts : stdHost.number_starts := by
  intro c rest hc
  rcases hc with hc | hc | hc | hc | hc <;> subst hc <;>
    simp [stdHost, decimal_, sign_of, mantissa_of, digit_run]

theorem stdHost_symbol_quote : symbol_token stdHost "quote" := by
  refine ⟨by decide, by decide, ?_⟩
  intro rest hr
  constructor
  · simp [stdHost, decimal_, sign_of, mantissa_of, digit_run]
  · simp [boolean_]

theorem stdHost_symbol_testing : symbol_token stdHost "testing" := by
  refine ⟨by decide, by decide, ?_⟩
  intro rest hr
  constructor
  · simp [stdHost, decimal_, sign_of, mantissa_of, digit_run]
  · simp [boolean_]

theorem stdHost_number_one : number_token stdHost 1 := by
  have h1 : show_g 1 = "1" := by decide!
  refine ⟨⟨'1', [], by simp [stdHost, h1], by decide⟩, ?_⟩
  intro rest hr
  simp only [stdHost, h1]
  rcases delimited_cases rest hr with hr | ⟨r, hr⟩ | ⟨r, hr⟩ <;> subst hr
  · decide!
  · simp [decimal_, sign_of, mantissa_of, digit_run, exponent_of, digits_value]
  · simp [decimal_, sign_of, mantissa_of, digit_run, exponent_of, digits_value]

theorem stdHost_number_two : number_token stdHost 2 := by
  have h1 : show_g 2 = "2" := by decide!
  refine ⟨⟨'2', [], by simp [stdHost, h1], by decide⟩, ?_⟩
  intro rest hr
  simp only [stdHost, h1]
  rcases delimited_cases rest hr with hr | ⟨r, hr⟩ | ⟨r, hr⟩ <;> subst hr
  · decide!
  · simp [decimal_, sign_of, mantissa_of, digit_run, exponent_of, digits_value]
  · simp [decimal_, sign_of, mantissa_of, digit_run, exponent_of, digits_value]

theorem stdHost_number_big : number_token stdHost (-314 * 10 ^ 157) := by
  have h1 : show_g (-314 * 10 ^ 157) = "-3.14e+159" := by decide!
  refine ⟨⟨'-', "3.14e+159".data, by show (show_g _).data = _; rw [h1], by decide⟩, ?_⟩
  intro rest hr
  simp only [stdHost, h1]
  rcases delimited_cases rest hr with hr | ⟨r, hr⟩ | ⟨r, hr⟩ <;> subst hr
  · decide!
  · simp [decimal_, sign_of, mantissa_of, digit_run, exponent_of, digits_value]
    norm_num
  · simp [decimal_, sign_of, mantissa_of, digit_run, exponent_of, digits_value]
    norm_num

/-- C8, counterexample: `(quote (if a))` is the canonical text of a list of symbols, yet
reading it fails in the expander; `(quote (if a b c))`, `(begin a)` and `(lambda a b)`
are read, but rendered with the type name of the node.  The texts `(truex)` and `(1x)`
are read as lists of two elements, because the boolean rule and the number rule match
at the start of `truex` and `1x`. -/
theorem special_forms_do_not_render_back :
    (value.list [.sym "quote", .list [.sym "if", .sym "a"]]).text stdHost = "(quote (if a))"
      ∧ read stdHost "(quote (if a))" []
        = .error (.invalid_argument "wrong number of arguments to if")
      ∧ (read stdHost "(quote (if a b c))" []).map (fun r => print stdHost r.1)
        = .ok "(quote struct scm::If)"
      ∧ (read stdHost "(begin a)" []).map (fun r => print stdHost r.1)
        = .ok "struct scm::Begin"
      ∧ (read stdHost "(lambda a b)" []).map (fun r => print stdHost r.1)
        = .ok "struct scm::Lambda"
      ∧ (value.list [.sym "truex"]).text stdHost = "(truex)"
      ∧ (read stdHost "(truex)" []).map (fun r => print stdHost r.1) = .ok "(true x)"
      ∧ (value.list [.sym "1x"]).text stdHost = "(1x)"
      ∧ (read stdHost "(1x)" []).map (fun r => print stdHost r.1) = .ok "(1 x)" := by
  decide!

/-- C8, amended: let the number rule of the host not match at a parenthesis, a double
quote or the letters `t`, `f`, and let `quote` be a symbol token.  For every tree `t`
that is `canonical` (every symbol a non-empty run of symbol characters at which neither
the number rule nor the boolean rule matches, every text without a double quote,
booleans, every number one that the number rule reads back from its rendering; at every
depth no list headed by `if`, `lambda`, `begin` or `import`, `quote` only with one
argument, `define` only with a symbol and one expression, a comparison only with two
arguments), reading the canonical text of `t` succeeds and rendering the result gives
the text back; the same holds for the text `(quote t)`. -/
theorem print_read_canonical (h : Host) (hh : h.number_starts) (t : value)
    (ht : t.canonical h) (hq : symbol_token h "quote") (m : List (List Any)) :
    (∃ e, read h (t.text h) m = .ok (e, m) ∧ print h e = t.text h)
      ∧ (∃ e, read h ("(quote " ++ t.text h ++ ")") m = .ok (e, m)
          ∧ print h e = "(quote " ++ t.text h ++ ")") := by
  refine ⟨read_canonical h hh t ht m, ?_⟩
  have hc : (value.list [.sym "quote", t]).canonical h := ⟨rfl, hq, ht, trivial⟩
  have htext : (value.list [.sym "quote", t]).text h = "(quote " ++ t.text h ++ ")" := by
    apply String.ext
    simp [value.text, value.chars, elems]
  rw [← htext]
  exact read_canonical h hh _ hc m

/-- C8, witness: the literal list of `Repl.cpp`, `(testing 1 (2) -3.14e+159)`. -/
theorem print_read_canonical_witness :
    (value.list [.sym "testing", .num 1, .list [.num 2], .num (-314 * 10 ^ 157)]).text stdHost
        = "(testing 1 (2) -3.14e+159)"
      ∧ (∃ e, read stdHost
            ((value.list [.sym "testing", .num 1, .list [.num 2],
              .num (-314 * 10 ^ 157)]).text stdHost) []
            = .ok (e, [])
          ∧ print stdHost e
            = (value.list [.sym "testing", .num 1, .list [.num 2],
                .num (-314 * 10 ^ 157)]).text stdHost)
      ∧ (∃ e, read stdHost
            ("(quote " ++ (value.list [.sym "testing", .num 1, .list [.num 2],
              .num (-314 * 10 ^ 157)]).text stdHost ++ ")") []
            = .ok (e, [])
          ∧ print stdHost e
            = "(quote " ++ (value.list [.sym "testing", .num 1, .list [.num 2],
                .num (-314 * 10 ^ 157)]).text stdHost ++ ")") :=
  ⟨by decide!,
    print_read_canonical stdHost stdHost_number_starts
      (.list [.sym "testing", .num 1, .list [.num 2], .num (-314 * 10 ^ 157)])
      ⟨rfl, stdHost_symbol_testing, stdHost_number_one, ⟨rfl, stdHost_number_two, trivial⟩,
        stdHost_number_big, trivial⟩
      stdHost_symbol_quote []⟩

/-! ### C6, amended: what `read` does with the input after the first value -/

theorem skip_length (cs : List Char) : (skip cs).length ≤ cs.length := by
  induction cs with
  | nil => simp [skip]
  | cons c cs ih =>
    simp only [skip]
    split
    · simp only [List.length_cons]; omega
    · exact Nat.le_refl _

theorem string_body_length :
    ∀ (cs body rest : List Char), string_body cs = some (body, rest) → rest.length < cs.length := by
  intro cs
  induction cs with
  | nil => intro body rest hb; simp [string_body] at hb
  | cons c cs ih =>
    intro body rest hb
    simp only [string_body] at hb
    split at hb
    · simp only [Option.some.injEq, Prod.mk.injEq] at hb
      rw [← hb.2]; simp
    · split at hb
      next b r hr =>
        simp only [Option.some.injEq, Prod.mk.injEq] at hb
        have := ih b r hr
        rw [← hb.2]
        simp only [List.length_cons]; omega
      next => cases hb

theorem string_length (cs : List Char) (s : String) (rest : List Char)
    (hs : string_ cs = some (s, rest)) : rest.length < cs.length := by
  cases cs with
  | nil => simp [string_] at hs
  | cons c cs =>
    simp only [string_] at hs
    split at hs
    · split at hs
      next b r hr =>
        simp only [Option.some.injEq, Prod.mk.injEq] at hs
        have := string_body_length cs b r hr
        rw [← hs.2]
        simp only [List.length_cons]; omega
      next => cases hs
    · cases hs

theorem multi_string_body_length :
    ∀ (n : Nat) (cs body rest : List Char), cs.length ≤ n →
      multi_string_body cs = some (body, rest) → rest.length < cs.length := by
  intro n
  induction n with
  | zero =>
    intro cs body rest hn hb
    cases cs with
    | nil => simp [multi_string_body] at hb
    | cons c cs => simp at hn
  | succ n ih =>
    intro cs body rest hn hb
    match cs, hn, hb with
    | [], _, hb => simp [multi_string_body] at hb
    | [_], _, hb => simp [multi_string_body] at hb
    | c :: d :: cs, hn, hb =>
      simp only [multi_string_body] at hb
      split at hb
      · simp only [Option.some.injEq, Prod.mk.injEq] at hb
        rw [← hb.2]; simp only [List.length_cons]; omega
      · split at hb
        next b r hr =>
          simp only [Option.some.injEq, Prod.mk.injEq] at hb
          have := ih (d :: cs) b r (by simp only [List.length_cons] at hn ⊢; omega) hr
          rw [← hb.2]
          simp only [List.length_cons] at this ⊢; omega
        next => cases hb

theorem multi_string_length (cs : List Char) (s : String) (rest : List Char)
    (hs : multi_string_ cs = some (s, rest)) : rest.length < cs.length := by
  match cs, hs with
  | [], hs => simp [multi_string_] at hs
  | [_], hs => simp [multi_string_] at hs
  | c :: d :: cs, hs =>
    simp only [multi_string_] at hs
    split at hs
    · split at hs
      next b r hr =>
        simp only [Option.some.injEq, Prod.mk.injEq] at hs
        by_cases hcs : cs = []
        · subst hcs; simp [multi_string_body] at hr
        · have := multi_string_body_length cs.length cs b r (Nat.le_refl _) hr
          rw [← hs.2]
          simp only [List.length_cons]; omega
      next => cases hs
    · cases hs

theorem boolean_length (cs : List Char) (b : Bool) (rest : List Char)
    (hs : boolean_ cs = some (b, rest)) : rest.length < cs.length := by
  simp only [boolean_] at hs
  split at hs
  next hp =>
    simp only [Option.some.injEq, Prod.mk.injEq] at hs
    have hl := (List.isPrefixOf_iff_prefix.mp hp).length_le
    rw [← hs.2, List.length_drop]
    simp at hl; omega
  next =>
    split at hs
    next hp =>
      simp only [Option.some.injEq, Prod.mk.injEq] at hs
      have hl := (List.isPrefixOf_iff_prefix.mp hp).length_le
      rw [← hs.2, List.length_drop]
      simp at hl; omega
    next => cases hs

theorem symbol_run_length (cs : List Char) :
    (symbol_run cs).1.length + (symbol_run cs).2.length = cs.length := by
  induction cs with
  | nil => simp [symbol_run]
  | cons c cs ih =>
    simp only [symbol_run]
    split
    · simp only [List.length_cons]; omega
    · simp

theorem symbol_length (cs : List Char) (s : String) (rest : List Char)
    (hs : symbol_ cs = some (s, rest)) : rest.length < cs.length := by
  have hl := symbol_run_length cs
  simp only [symbol_] at hs
  split at hs
  · cases hs
  next c run r hr =>
    simp only [Option.some.injEq, Prod.mk.injEq] at hs
    rw [hr] at hl
    rw [← hs.2]
    simp only [List.length_cons] at hl; omega

theorem parsers_have_fuel (h : Host) (hc : h.consumes) :
    ∀ (n : Nat),
      (∀ cs : List Char, 2 * cs.length + 1 ≤ n →
        value_ h n cs ≠ .fuel
          ∧ ∀ v rest, value_ h n cs = .ok v rest → rest.length < cs.length)
      ∧ (∀ cs : List Char, 2 * cs.length + 2 ≤ n →
        star_value_ h n cs ≠ .fuel
          ∧ ∀ v rest, star_value_ h n cs = .ok v rest → rest.length ≤ cs.length) := by
  intro n
  induction n with
  | zero =>
    constructor
    · intro cs hn; omega
    · intro cs hn; omega
  | succ n ih =>
    obtain ⟨ihv, ihs⟩ := ih
    have hsk := skip_length
    constructor
    · intro cs hn
      have hk := hsk cs
      simp only [value_]
      split
      next x rest hd =>
        have := hc _ _ _ hd
        refine ⟨by simp, ?_⟩
        intro v r hv
        simp only [Parsed.ok.injEq] at hv
        rw [← hv.2]; omega
      next =>
        split
        next s rest hd =>
          have := string_length _ _ _ hd
          refine ⟨by simp, ?_⟩
          intro v r hv
          simp only [Parsed.ok.injEq] at hv
          rw [← hv.2]; omega
        next =>
          split
          next b rest hd =>
            have := boolean_length _ _ _ hd
            refine ⟨by simp, ?_⟩
            intro v r hv
            simp only [Parsed.ok.injEq] at hv
            rw [← hv.2]; omega
          next =>
            split
            next s rest hd =>
              have := multi_string_length _ _ _ hd
              refine ⟨by simp, ?_⟩
              intro v r hv
              simp only [Parsed.ok.injEq] at hv
              rw [← hv.2]; omega
            next =>
              split
              next s rest hd =>
                have := symbol_length _ _ _ hd
                refine ⟨by simp, ?_⟩
                intro v r hv
                simp only [Parsed.ok.injEq] at hv
                rw [← hv.2]; omega
              next =>
                split
                next => exact ⟨by simp, by intro v r hv; cases hv⟩
                next c cs1 hcs =>
                  have hlen : cs1.length + 1 ≤ cs.length := by
                    have : (skip cs).length = cs1.length + 1 := by rw [hcs]; simp
                    omega
                  split
                  · obtain ⟨hnf, hle⟩ := ihs cs1 (by omega)
                    split
                    next v rest hst =>
                      have h1 := hle v rest hst
                      have h2 := hsk rest
                      split
                      next => exact ⟨by simp, by intro v r hv; cases hv⟩
                      next d rest1 hr =>
                        have h3 : rest1.length + 1 = (skip rest).length := by rw [hr]; simp
                        split
                        · refine ⟨by simp, ?_⟩
                          intro w r hv
                          simp only [Parsed.ok.injEq] at hv
                          rw [← hv.2]; omega
                        · exact ⟨by simp, by intro v r hv; cases hv⟩
                    next => exact ⟨by simp, by intro v r hv; cases hv⟩
                    next hst => exact absurd hst hnf
                  · exact ⟨by simp, by intro v r hv; cases hv⟩
    · intro cs hn
      obtain ⟨hnf, hlt⟩ := ihv cs (by omega)
      simp only [star_value_]
      split
      next x rest hx =>
        have h1 := hlt x rest hx
        obtain ⟨hnf2, hle2⟩ := ihs rest (by omega)
        split
        next v rest1 hst =>
          have h2 := hle2 v rest1 hst
          refine ⟨by simp, ?_⟩
          intro w r hv
          simp only [Parsed.ok.injEq] at hv
          rw [← hv.2]; omega
        next => exact ⟨by simp, by intro v r hv; cases hv⟩
        next hst => exact absurd hst hnf2
      next =>
        refine ⟨by simp, ?_⟩
        intro w r hv
        simp only [Parsed.ok.injEq] at hv
        rw [← hv.2]
      next hx => exact absurd hx hnf

theorem read_has_fuel (h : Host) (hc : h.consumes) (input : String) :
    value_ h (2 * input.length + 2) input.data ≠ .fuel :=
  ((parsers_have_fuel h hc (2 * input.length + 2)).1 input.data
    (by simp only [String.length]; omega)).1

theorem digit_run_length (cs : List Char) :
    (digit_run cs).1.length + (digit_run cs).2.length = cs.length := by
  induction cs with
  | nil => simp [digit_run]
  | cons c cs ih =>
    simp only [digit_run]
    split
    · simp only [List.length_cons]; omega
    · simp

theorem sign_of_length (cs : List Char) : (sign_of cs).2.length ≤ cs.length := by
  cases cs with
  | nil => simp [sign_of]
  | cons c cs =>
    simp only [sign_of]
    split
    · simp
    · split <;> simp

theorem exponent_of_length (cs : List Char) : (exponent_of cs).2.length ≤ cs.length := by
  cases cs with
  | nil => simp [exponent_of]
  | cons c r =>
    simp only [exponent_of]
    split
    · have h1 := digit_run_length (sign_of r).2
      have h2 := sign_of_length r
      split
      · simp
      next d ds rest hd =>
        rw [hd] at h1
        simp only [List.length_cons] at h1 ⊢
        omega
    · simp

theorem mantissa_of_length (cs ds : List Char) (k : Nat) (r : List Char)
    (hm : mantissa_of cs = some (ds, k, r)) : r.length < cs.length := by
  have h1 := digit_run_length cs
  simp only [mantissa_of] at hm
  split at hm
  next hr0 =>
    rw [hr0] at h1
    split at hm
    · cases hm
    next hne =>
      simp only [Option.some.injEq, Prod.mk.injEq] at hm
      rw [← hm.2.2]
      have : 0 < (digit_run cs).1.length := List.length_pos.mpr hne
      simp only [List.length_nil] at h1 ⊢
      omega
  next c r1 hr0 =>
    rw [hr0] at h1
    simp only [List.length_cons] at h1
    split at hm
    · have h2 := digit_run_length r1
      split at hm
      · cases hm
      · simp only [Option.some.injEq, Prod.mk.injEq] at hm
        rw [← hm.2.2]
        omega
    · split at hm
      · cases hm
      next hne =>
        simp only [Option.some.injEq, Prod.mk.injEq] at hm
        rw [← hm.2.2]
        have : 0 < (digit_run cs).1.length := List.length_pos.mpr hne
        simp only [List.length_cons]
        omega

theorem stdHost_consumes : stdHost.consumes := by
  intro cs x rest hd
  simp only [stdHost, decimal_] at hd
  split at hd
  · cases hd
  next ds k r hm =>
    simp only [Option.some.injEq, Prod.mk.injEq] at hd
    have h1 := mantissa_of_length _ _ _ _ hm
    have h2 := sign_of_length cs
    have h3 := exponent_of_length r
    rw [← hd.2]
    omega

/-- C6, amended: `read` does not look at what the grammar leaves unconsumed.  With the
fuel `read` gives it the grammar never runs out of fuel (the number rule consuming at
least one character when it matches).  When the grammar matches a value `val` at the
start of the input, `read` gives what expanding `val` gives: a node exactly when `val`
holds no malformed special form, the `invalid_argument` of the expander exactly when
it holds one, and never the parse error.  `read` fails with the parse error exactly
when the grammar matches no value at the start of the input.  In particular, for a
`canonical` tree `t` and any text `junk` that starts with a space or a closing
parenthesis, reading the text of `t` followed by `junk` gives what reading the text
of `t` gives, and that is a success. -/
theorem read_returns_first_value (h : Host) (hc : h.consumes) (hh : h.number_starts)
    (input : String) (t : value) (ht : t.canonical h) (junk : List Char)
    (hj : delimited junk = true) (m : List (List Any)) :
    value_ h (2 * input.length + 2) input.data ≠ .fuel
      ∧ (∀ val rest, value_ h (2 * input.length + 2) input.data = .ok val rest →
          read h input m = expand h val m
            ∧ ((∃ r, read h input m = .ok r) ↔ val.malformed = false)
            ∧ ((∃ what, read h input m = .error (.invalid_argument what))
                ↔ val.malformed = true))
      ∧ (read h input m = .error (.runtime_error ("Parse failed, remaining input: " ++ input))
          ↔ value_ h (2 * input.length + 2) input.data = .fail)
      ∧ read h (String.mk (t.chars h ++ junk)) m = read h (t.text h) m
      ∧ ∃ e, read h (t.text h) m = .ok (e, m) := by
  have hfuel := read_has_fuel h hc input
  refine ⟨hfuel, ?_, ?_, ?_, ?_⟩
  · intro val rest hv
    have hr : read h input m = expand h val m := by simp only [read, hv]
    rw [hr]
    exact ⟨rfl, expand_ok_iff h val m, expand_invalid_iff h val m⟩
  · cases hv : value_ h (2 * input.length + 2) input.data with
    | fuel => exact absurd hv hfuel
    | fail => simp only [read, hv]
    | ok val rest =>
      have hr : read h input m = expand h val m := by simp only [read, hv]
      rw [hr]
      constructor
      · intro he
        obtain ⟨what, hw⟩ := expand_error_kind h val m _ he
        cases hw
      · intro he
        cases he
  · obtain ⟨c, cs, hc, hsp⟩ := canonical_first h t ht
    have hn := need_le h t ht
    have h1 : skip (t.chars h ++ junk) = t.chars h ++ junk := by
      rw [hc, List.cons_append]
      exact skip_of_not_space c _ hsp
    have h2 : skip (t.chars h) = t.chars h ++ [] := by
      rw [List.append_nil, hc]
      exact skip_of_not_space c cs hsp
    have hv1 := value_reads h hh t (2 * (String.mk (t.chars h ++ junk)).length + 2)
      (t.chars h ++ junk) junk (by simp only [String.length, List.length_append]; omega) ht h1 hj
    have hv2 := value_reads h hh t (2 * (t.text h).length + 2) (t.chars h) []
      (by simp only [value.text, String.length]; omega) ht h2 rfl
    simp only [read, value.text] at hv1 hv2 ⊢
    rw [hv1, hv2]
  · obtain ⟨e, he, _⟩ := read_canonical h hh t ht m
    exact ⟨e, he⟩

/-- C6, amended, witness: the text `(a)` followed by ` garbage`. -/
theorem read_returns_first_value_witness :
    value_ stdHost (2 * "(a) garbage".length + 2) "(a) garbage".data ≠ .fuel
      ∧ (∀ val rest,
          value_ stdHost (2 * "(a) garbage".length + 2) "(a) garbage".data = .ok val rest →
          read stdHost "(a) garbage" [] = expand stdHost val []
            ∧ ((∃ r, read stdHost "(a) garbage" [] = .ok r) ↔ val.malformed = false)
            ∧ ((∃ what, read stdHost "(a) garbage" [] = .error (.invalid_argument what))
                ↔ val.malformed = true))
      ∧ (read stdHost "(a) garbage" []
            = .error (.runtime_error ("Parse failed, remaining input: " ++ "(a) garbage"))
          ↔ value_ stdHost (2 * "(a) garbage".length + 2) "(a) garbage".data = .fail)
      ∧ read stdHost (String.mk ((value.list [.sym "a"]).chars stdHost ++ " garbage".data)) []
          = read stdHost ((value.list [.sym "a"]).text stdHost) []
      ∧ ∃ e, read stdHost ((value.list [.sym "a"]).text stdHost) [] = .ok (e, []) :=
  read_returns_first_value stdHost stdHost_consumes stdHost_number_starts "(a) garbage"
    (.list [.sym "a"])
    ⟨rfl, ⟨by decide, by decide, fun rest _ =>
      ⟨by simp [stdHost, decimal_, sign_of, mantissa_of, digit_run], by simp [boolean_]⟩⟩, trivial⟩
    " garbage".data rfl []

/-! ### The tests of `Repl.cpp` -/

/-- The tests of `main` in `Repl.cpp`, in order, with the expected results written there. -/
theorem repl_tests :
    session stdHost 200 global_env
      [ "(quote ())",
        "(quote (define a 1))",
        "(begin (define a 1) (+ 1 2 3))",
        "a",
        "(quote (testing 1 (2) -3.14e+159))",
        "(+ 2 2)",
        "(+ (* 2 100) (* 1 10))",
        "(if (> 6 5) (+ 1 1) (+ 2 2))",
        "(if (< 6 5) (+ 1 1) (+ 2 2))",
        "(define x 3)",
        "x",
        "(+ x x)",
        "((lambda (x) (+ x x)) 5)",
        "(define twice (lambda (x) (* 2 x)))",
        "(twice 5)",
        "(define compose (lambda (f g) (lambda (x) (f (g x)))))",
        "((compose list twice) 5)",
        "(define repeat (lambda (f) (compose f f)))",
        "((repeat twice) 5)",
        "((repeat (repeat twice)) 5)",
        "(define fact (lambda (n) (if (<= n 1) 1 (* n (fact (- n 1))))))",
        "(fact 3)",
        "(fact 50)",
        "(define abs (lambda (n) ((if (> n 0) + -) 0 n)))",
        "(list (abs -3) (abs 0) (abs 3))" ]
      = .ok
      [ "()",
        "(define a 1)",
        "6",
        "1",
        "(testing 1 (2) -3.14e+159)",
        "4",
        "210",
        "2",
        "4",
        "3",
        "3",
        "6",
        "10",
        "struct scm::Function",
        "10",
        "struct scm::Function",
        "(10)",
        "struct scm::Function",
        "20",
        "80",
        "struct scm::Function",
        "6",
        "3.04141e+64",
        "struct scm::Function",
        "(3 0 3)" ] := by
  decide!

/-! ### C11: `define` with parameters and body -/

/-- C11: for every symbol `f` and raw trees `P`, `B`, expanding `(define f P B)` gives
exactly what expanding `(define f (lambda P B))` gives, in the same store: `Define` of
`f` around `Lambda` of the expansions of `P` and `B`, or the error of the first of `P`,
`B` whose expansion fails. -/
theorem define_sugar (h : Host) (f : String) (P B : value) (m : List (List Any)) :
    expand h (.list [.sym "define", .sym f, P, B]) m
        = expand h (.list [.sym "define", .sym f, .list [.sym "lambda", P, B]]) m
      ∧ expand h (.list [.sym "define", .sym f, P, B]) m
        = (match expand h P m with
          | .ok (p, m1) =>
            match expand h B m1 with
            | .ok (b, m2) => .ok (.define f (.lambda p b), m2)
            | .error e => .error e
          | .error e => .error e) := by
  simp only [expand, expand_all]
  cases hP : expand h P m with
  | error e => simp
  | ok r =>
    obtain ⟨p, m1⟩ := r
    cases hB : expand h B m1 with
    | error e => simp [hB]
    | ok r2 =>
      obtain ⟨b, m2⟩ := r2
      simp [hB, visitor]

/-! ### C12: `If` -/

/-- C12: when the test of an `If` evaluates to `v`, leaving the heap `st1`: if `v` is the
Boolean true, the `If` evaluates to what `conseq` evaluates to in `env` and `st1`,
whatever `alt` is; if `v` is the Boolean false, to what `alt` evaluates to, whatever
`conseq` is; and if `v` is not a Boolean, evaluation fails with `bad_any_cast`. -/
theorem if_selects_branch (h : Host) (n : Nat) (st : Heap) (test conseq alt : Any) (env : Nat)
    (v : Any) (st1 : Heap) (ht : eval h n st test env = .ok (v, st1)) :
    (v = .bool true →
        eval h (n + 1) st (.if_ test conseq alt) env = eval h n st1 conseq env
          ∧ ∀ alt1, eval h (n + 1) st (.if_ test conseq alt1) env
              = eval h (n + 1) st (.if_ test conseq alt) env)
      ∧ (v = .bool false →
        eval h (n + 1) st (.if_ test conseq alt) env = eval h n st1 alt env
          ∧ ∀ conseq1, eval h (n + 1) st (.if_ test conseq1 alt) env
              = eval h (n + 1) st (.if_ test conseq alt) env)
      ∧ ((∀ b, v ≠ .bool b) →
        eval h (n + 1) st (.if_ test conseq alt) env = .error .bad_any_cast) := by
  refine ⟨?_, ?_, ?_⟩
  · intro hv
    subst hv
    simp [eval, ht]
  · intro hv
    subst hv
    simp [eval, ht]
  · intro hv
    simp only [eval, ht]

/-- C12, witness: the test `(> 6 5)` of `Repl.cpp` in the global frame. -/
theorem if_selects_branch_witness :
    (Any.bool true = .bool true →
        eval stdHost (2 + 1) global_env
            (.if_ (.lst [.sym ">", .num 6, .num 5]) (.num 2) (.num 4)) 0
          = eval stdHost 2 global_env (.num 2) 0
          ∧ ∀ alt1, eval stdHost (2 + 1) global_env
                (.if_ (.lst [.sym ">", .num 6, .num 5]) (.num 2) alt1) 0
              = eval stdHost (2 + 1) global_env
                (.if_ (.lst [.sym ">", .num 6, .num 5]) (.num 2) (.num 4)) 0)
      ∧ (Any.bool true = .bool false →
        eval stdHost (2 + 1) global_env
            (.if_ (.lst [.sym ">", .num 6, .num 5]) (.num 2) (.num 4)) 0
          = eval stdHost 2 global_env (.num 4) 0
          ∧ ∀ conseq1, eval stdHost (2 + 1) global_env
                (.if_ (.lst [.sym ">", .num 6, .num 5]) conseq1 (.num 4)) 0
              = eval stdHost (2 + 1) global_env
                (.if_ (.lst [.sym ">", .num 6, .num 5]) (.num 2) (.num 4)) 0)
      ∧ ((∀ b, Any.bool true ≠ .bool b) →
        eval stdHost (2 + 1) global_env
            (.if_ (.lst [.sym ">", .num 6, .num 5]) (.num 2) (.num 4)) 0
          = .error .bad_any_cast) :=
  if_selects_branch stdHost 2 global_env (.lst [.sym ">", .num 6, .num 5]) (.num 2) (.num 4) 0
    (.bool true) global_env (by decide!)

/-! ### C14: arithmetic primitives -/

theorem numbers_map_num (l : List Number) : numbers (l.map Any.num) = .ok l := by
  induction l with
  | nil => rfl
  | cons x l ih => simp [numbers, ih]

theorem accumulate_numbers (op : Number → Number → Number) (a : Number) (as : List Number) :
    accumulate op ((a :: as).map Any.num) = .ok (.num (as.foldl op a)) := by
  unfold accumulate
  rw [numbers_map_num]

theorem zero_divisor_numbers (a : Number) (as : List Number) (hz : ∀ x ∈ as, x ≠ 0) :
    zero_divisor ((a :: as).map Any.num) = false := by
  unfold zero_divisor
  rw [numbers_map_num]
  simpa using hz

/-- A quotient by zero has no value in the model: `(/ 1 0)` and `(/ 0 0)` end in
`Err.non_finite`, while `(/ 0 2)` is `0`. -/
theorem quotient_by_zero_has_no_value :
    Prim.divides.call [.num 1, .num 0] = .error .non_finite
      ∧ Prim.divides.call [.num 0, .num 0] = .error .non_finite
      ∧ Prim.divides.call [.num 0, .num 2] = .ok (.num 0)
      ∧ Err.non_finite.thrown = false := by
  decide!

/-- C14, counterexample: `(+)` is read as an application of `+` to no argument, and
each arithmetic primitive applied to the empty argument list reaches `front()` of an
empty vector: undefined behaviour, which is not an exception that the program throws. -/
theorem arithmetic_on_no_arguments_is_undefined :
    read stdHost "(+)" [] = .ok (.lst [.sym "+"], [])
      ∧ eval stdHost 10 global_env (.lst [.sym "+"]) 0 = .error .undefined
      ∧ Prim.plus.call [] = .error .undefined
      ∧ Prim.minus.call [] = .error .undefined
      ∧ Prim.multiplies.call [] = .error .undefined
      ∧ Prim.divides.call [] = .error .undefined
      ∧ Err.undefined.thrown = false := by
  decide!

/-- C14, amended: each of `+ - * /`, applied to the Numbers `a1, ..., an` (`n ≥ 1`; for
`/`, none of `a2, ..., an` zero), returns the left fold of its operation seeded with
`a1`; applied to one Number it returns that Number.  Nothing is said of the empty
argument list. -/
theorem arithmetic_is_left_fold (p : Prim) (op : Number → Number → Number)
    (hp : p.op = some op) (a : Number) (as : List Number)
    (hz : p = .divides → ∀ x ∈ as, x ≠ 0) :
    p.call ((a :: as).map Any.num) = .ok (.num (as.foldl op a))
      ∧ p.call [.num a] = .ok (.num a) := by
  cases p <;> simp [Prim.op] at hp <;> subst hp
  case divides =>
    have h1 := zero_divisor_numbers a as (hz rfl)
    have h2 := zero_divisor_numbers a [] (by simp)
    have h3 := accumulate_numbers (· / ·) a as
    have h4 := accumulate_numbers (· / ·) a []
    simp only [List.map_cons, List.map_nil] at h2 h4
    constructor
    · simp only [Prim.call, h1]
      exact h3
    · simp only [Prim.call, h2]
      exact h4
  all_goals exact ⟨accumulate_numbers _ a as, accumulate_numbers _ a []⟩

/-- C14, amended, witness: `(/ 12 2 3)` and `(/ 12)`. -/
theorem arithmetic_is_left_fold_witness :
    (∀ x ∈ ([2, 3] : List Number), x ≠ 0)
      ∧ Prim.divides.call ((12 :: [2, 3]).map Any.num) = .ok (.num ([2, 3].foldl (· / ·) 12))
      ∧ Prim.divides.call [.num 12] = .ok (.num 12) :=
  ⟨by decide!,
    arithmetic_is_left_fold .divides (· / ·) rfl 12 [2, 3] (fun _ => by decide!)⟩

/-! ### C16: application of a value that cannot be called -/

/-- C16: when the elements of an application evaluate to `func` followed by `args` and
`func` is neither a `Function` nor a `fun_ptr`, evaluation fails with the
`runtime_error` whose text is `undefined function: ` followed by the rendering of
`func`. -/
theorem uncallable_head (h : Host) (n : Nat) (st : Heap) (list : List Any) (env : Nat)
    (func : Any) (args : List Any) (st1 : Heap)
    (hcall : transform (fun s a => eval h n s a env) st list = .ok (func :: args, st1))
    (hf : func.type ≠ .Function) (hp : func.type ≠ .fun_ptr) :
    eval h (n + 1) st (.lst list) env
      = .error (.runtime_error ("undefined function: " ++ print h func)) := by
  simp only [eval, hcall]
  cases func <;> simp_all [Any.type]

/-- C16, witness: `(1 2)` in the global frame. -/
theorem uncallable_head_witness :
    eval stdHost (1 + 1) global_env (.lst [.num 1, .num 2]) 0
      = .error (.runtime_error ("undefined function: " ++ print stdHost (.num 1))) :=
  uncallable_head stdHost 1 global_env [.num 1, .num 2] 0 (.num 1) [.num 2] global_env
    (by decide!) (by decide) (by decide)

/-! ### C15: comparison primitives -/

/-- C15, counterexample: `=` applied to three Numbers returns the comparison of the first
two; the expression `(= 1 2 3)` passes the expander, whose arity check names `==`, and
evaluates to false; so does a comparison reached through a computed head. -/
theorem comparison_ignores_surplus_arguments :
    Prim.eq.call [.num 1, .num 2, .num 3] = .ok (.bool false)
      ∧ (test stdHost 10 global_env "(= 1 2 3)").map (·.1) = .ok "false"
      ∧ (test stdHost 10 global_env "((if true < >) 1 2 3)").map (·.1) = .ok "true" := by
  decide!

/-- C15, amended: each comparison primitive, applied to an argument list that starts
with the Numbers `a`, `b`, returns the Boolean `a op b`, whatever follows them; and
expanding a list whose head is one of the symbols `<`, `>`, `<=`, `>=`, `==` and that
does not have exactly two further elements fails. -/
theorem comparison_tests_first_two (h : Host) (p : Prim) (rel : Number → Number → Bool)
    (hp : p.rel = some rel) (a b : Number) (more : List Any) (token : String)
    (v : List value) (m : List (List Any))
    (htok : token = "<" ∨ token = ">" ∨ token = "<=" ∨ token = ">=" ∨ token = "==")
    (hv : v.length ≠ 2) :
    p.call (.num a :: .num b :: more) = .ok (.bool (rel a b))
      ∧ p.call [.num a, .num b] = .ok (.bool (rel a b))
      ∧ ∃ e, expand h (.list (.sym token :: v)) m = .error e := by
  refine ⟨?_, ?_, ?_⟩
  · cases p <;> simp [Prim.rel] at hp <;> subst hp <;> simp [Prim.call, compare]
  · cases p <;> simp [Prim.rel] at hp <;> subst hp <;> simp [Prim.call, compare]
  · apply (expand_error_iff h _ m).mpr
    have h8 : (token = "<" || token = ">" || token = "<=" || token = ">=" || token = "==")
        = true := by
      rcases htok with k | k | k | k | k <;> simp [k]
    have h9 : (v.length + 1 != 3) = true := by
      simp only [bne_iff_ne, ne_eq]
      omega
    simp only [value.malformed, malformed_head, malformed_form, List.length_cons, h8, h9,
      Bool.and_self, Bool.or_true, Bool.true_or]

/-- C15, amended, witness: `<` on `1 2 3` and the list `(< 1 2 3)`. -/
theorem comparison_tests_first_two_witness :
    Prim.lt.call (.num 1 :: .num 2 :: [.num 3]) = .ok (.bool (decide ((1 : ℚ) < 2)))
      ∧ Prim.lt.call [.num 1, .num 2] = .ok (.bool (decide ((1 : ℚ) < 2)))
      ∧ ∃ e, expand stdHost (.list (.sym "<" :: [.num 1, .num 2, .num 3])) [] = .error e :=
  comparison_tests_first_two stdHost .lt (fun x y => decide (x < y)) rfl 1 2 [.num 3] "<"
    [.num 1, .num 2, .num 3] [] (by decide) (by decide)

/-! ### C19: order of evaluation in an application -/

theorem transform_append (ev : Heap → Any → Except Err (Any × Heap)) :
    ∀ (pre post : List Any) (st : Heap),
      transform ev st (pre ++ post)
        = (match transform ev st pre with
          | .ok (vs1, st1) =>
            match transform ev st1 post with
            | .ok (vs2, st2) => .ok (vs1 ++ vs2, st2)
            | .error e => .error e
          | .error e => .error e) := by
  intro pre
  induction pre with
  | nil =>
    intro post st
    simp only [List.nil_append, transform]
    cases transform ev st post with
    | error e => rfl
    | ok r => rfl
  | cons x pre ih =>
    intro post st
    have hstep : transform ev st (x :: pre ++ post)
        = (match ev st x with
          | .ok (v, st1) =>
            match transform ev st1 (pre ++ post) with
            | .ok (vs, st2) => .ok (v :: vs, st2)
            | .error e => .error e
          | .error e => .error e) := rfl
    rw [hstep]
    simp only [transform]
    cases ev st x with
    | error e => rfl
    | ok r =>
      obtain ⟨v, st1⟩ := r
      simp only [ih post st1]
      cases transform ev st1 pre with
      | error e => rfl
      | ok r1 =>
        obtain ⟨vs1, st2⟩ := r1
        simp only
        cases transform ev st2 post with
        | error e => rfl
        | ok r2 => simp

/-- C19: in an application the elements before `x` are evaluated first, then `x` once,
in the heap they leave, then the elements after `x` in the heap `x` leaves; only then,
in the heap left by the last element, is the evaluated head called on the evaluated
arguments, and an element that fails ends the evaluation before any call.  So
`(+ (define a 1) a)` is `2` in the global frame, where `a` alone is unbound. -/
theorem application_evaluates_left_to_right (h : Host) (n : Nat) (st : Heap)
    (pre : List Any) (x : Any) (post : List Any) (env : Nat) :
    transform (fun s a => eval h n s a env) st (pre ++ x :: post)
        = (match transform (fun s a => eval h n s a env) st pre with
          | .ok (vs1, st1) =>
            match eval h n st1 x env with
            | .ok (v, st2) =>
              match transform (fun s a => eval h n s a env) st2 post with
              | .ok (vs2, st3) => .ok (vs1 ++ v :: vs2, st3)
              | .error e => .error e
            | .error e => .error e
          | .error e => .error e)
      ∧ eval h (n + 1) st (.lst (pre ++ x :: post)) env
        = (match transform (fun s a => eval h n s a env) st (pre ++ x :: post) with
          | .ok (call, st3) => apply_front h n call st3
          | .error e => .error e)
      ∧ (test stdHost 10 global_env "(+ (define a 1) a)").map (·.1) = .ok "2"
      ∧ (test stdHost 10 global_env "a").map (·.1)
        = .error (.runtime_error "undefined symbol: a") := by
  refine ⟨?_, ?_, by decide!, by decide!⟩
  · rw [transform_append]
    cases transform (fun s a => eval h n s a env) st pre with
    | error e => rfl
    | ok r =>
      obtain ⟨vs1, st1⟩ := r
      simp only [transform]
      cases eval h n st1 x env with
      | error e => rfl
      | ok r1 =>
        obtain ⟨v, st2⟩ := r1
        simp only
        cases transform (fun s a => eval h n s a env) st2 post with
        | error e => rfl
        | ok r2 => rfl
  · simp only [eval]
    cases transform (fun s a => eval h n s a env) st (pre ++ x :: post) with
    | error e => rfl
    | ok r =>
      obtain ⟨call, st3⟩ := r
      cases call with
      | nil => rfl
      | cons func args => cases func <;> rfl

/-! ### C13 and C17: `Begin` -/

/-- C13, the code at the failing input: `(begin (define a 1) (+ 1 2 3))` returns `6` and
leaves `a` bound to `1`, and `(f 0)` returns `0`; but in `(f 1)` the first expression of
the body calls `f` again, that call overwrites the second expression `(define y n)` of
the shared `Begin` vector with its value, and the outer evaluation, which has yet to
reach it, never defines `y`. -/
theorem begin_skips_overwritten_expression :
    session stdHost 50 global_env ["(begin (define a 1) (+ 1 2 3))", "a"] = .ok ["6", "1"]
      ∧ session stdHost 50 global_env
          ["(define f (lambda (n) (begin (if (> n 0) (f 0) 0) (define y n) y)))", "(f 0)"]
        = .ok ["struct scm::Function", "0"]
      ∧ session stdHost 50 global_env
          ["(define f (lambda (n) (begin (if (> n 0) (f 0) 0) (define y n) y)))", "(f 1)"]
        = .error (.runtime_error "undefined symbol: y") := by
  decide!

/-- C17, the code at the failing input: defining `f` leaves the vector
`[(define y x), y]` behind its `Begin` node; the call `(f 1)` returns `1` and leaves the
vector `[1, y]`; the call `(f 2)` then fails, `y` being unbound. -/
theorem begin_overwrites_its_expressions :
    (session_heap stdHost 50 global_env
        ["(define f (lambda (x) (begin (define y x) y)))"]).map (·.lists)
        = .ok [[.define "y" (.sym "x"), .sym "y"]]
      ∧ session stdHost 50 global_env
          ["(define f (lambda (x) (begin (define y x) y)))", "(f 1)"]
        = .ok ["struct scm::Function", "1"]
      ∧ (session_heap stdHost 50 global_env
          ["(define f (lambda (x) (begin (define y x) y)))", "(f 1)"]).map (·.lists)
        = .ok [[.num 1, .sym "y"]]
      ∧ session stdHost 50 global_env
          ["(define f (lambda (x) (begin (define y x) y)))", "(f 1)", "(f 2)"]
        = .error (.runtime_error "undefined symbol: y") := by
  decide!

/-! ### C18: the frames a `Define` touches -/

theorem Heap.keeps_refl (env : Nat) (st : Heap) : Heap.keeps env st st :=
  ⟨Nat.le_refl _, fun _ _ _ => rfl⟩

theorem Heap.keeps_trans (env : Nat) (st st1 st2 : Heap) (h1 : Heap.keeps env st st1)
    (h2 : Heap.keeps env st1 st2) : Heap.keeps env st st2 :=
  ⟨Nat.le_trans h1.1 h2.1, fun a ha hne => by
    rw [h2.2 a (Nat.lt_of_lt_of_le ha h1.1) hne, h1.2 a ha hne]⟩

theorem Heap.keeps_define (env : Nat) (st : Heap) (sym : String) (v : Any) :
    Heap.keeps env st (st.define env sym v) :=
  ⟨by simp [Heap.define], fun a _ hne => by
    simp [Heap.define, List.getElem?_modify, Ne.symm hne]⟩

theorem Heap.keeps_write (env : Nat) (st : Heap) (p i : Nat) (v : Any) :
    Heap.keeps env st (st.write p i v) :=
  ⟨by simp [Heap.write], fun _ _ _ => rfl⟩

theorem Heap.keeps_lists (env : Nat) (st : Heap) (m : List (List Any)) :
    Heap.keeps env st { st with lists := m } :=
  ⟨Nat.le_refl _, fun _ _ _ => rfl⟩

theorem Heap.alloc_getElem (st : Heap) (e : Env) (a : Nat) (ha : a < st.envs.length) :
    (st.alloc e).envs[a]? = st.envs[a]? := by
  simp only [Heap.alloc]
  exact List.getElem?_append_left ha

theorem Heap.keeps_call (env : Nat) (st st2 st3 : Heap) (frame : Env)
    (h1 : Heap.keeps env st st2)
    (h2 : Heap.keeps st2.envs.length (st2.alloc frame) st3) : Heap.keeps env st st3 := by
  have hlen : (st2.alloc frame).envs.length = st2.envs.length + 1 := by simp [Heap.alloc]
  refine ⟨by have := h1.1; have := h2.1; omega, fun a ha hne => ?_⟩
  have ha2 : a < st2.envs.length := Nat.lt_of_lt_of_le ha h1.1
  rw [h2.2 a (by omega) (by omega), Heap.alloc_getElem st2 frame a ha2, h1.2 a ha hne]

theorem transform_frames (env : Nat) (ev : Heap → Any → Except Err (Any × Heap))
    (hev : ∀ st x v st1, ev st x = .ok (v, st1) →
      Heap.keeps env st st1
        ∧ (x.no_define = true → env < st.envs.length → st1.envs[env]? = st.envs[env]?)) :
    ∀ (xs : List Any) (st : Heap) (vs : List Any) (st1 : Heap),
      transform ev st xs = .ok (vs, st1) →
      Heap.keeps env st st1
        ∧ (Any.all_no_define xs = true → env < st.envs.length →
            st1.envs[env]? = st.envs[env]?) := by
  intro xs
  induction xs with
  | nil =>
    intro st vs st1 ht
    simp only [transform, Except.ok.injEq, Prod.mk.injEq] at ht
    rw [← ht.2]
    exact ⟨Heap.keeps_refl env st, fun _ _ => rfl⟩
  | cons x xs ih =>
    intro st vs st1 ht
    simp only [transform] at ht
    split at ht
    next v st2 hx =>
      split at ht
      next vs2 st3 hxs =>
        simp only [Except.ok.injEq, Prod.mk.injEq] at ht
        rw [← ht.2]
        obtain ⟨k1, s1⟩ := hev _ _ _ _ hx
        obtain ⟨k2, s2⟩ := ih _ _ _ hxs
        refine ⟨Heap.keeps_trans env _ _ _ k1 k2, fun hnd henv => ?_⟩
        simp only [Any.all_no_define, Bool.and_eq_true] at hnd
        rw [s2 hnd.2 (Nat.lt_of_lt_of_le henv k1.1), s1 hnd.1 henv]
      next => cases ht
    next => cases ht

theorem transform_in_place_keeps (env : Nat) (ev : Heap → Any → Except Err (Any × Heap))
    (hev : ∀ st x v st1, ev st x = .ok (v, st1) → Heap.keeps env st st1) (p : Nat) :
    ∀ (k i : Nat) (st st1 : Heap),
      transform_in_place ev p k i st = .ok st1 → Heap.keeps env st st1 := by
  intro k
  induction k with
  | zero =>
    intro i st st1 ht
    simp only [transform_in_place, Except.ok.injEq] at ht
    rw [← ht]
    exact Heap.keeps_refl env st
  | succ k ih =>
    intro i st st1 ht
    simp only [transform_in_place] at ht
    split at ht
    next => cases ht
    next l hl =>
      split at ht
      next => cases ht
      next x hx =>
        split at ht
        next v st2 hv =>
          exact Heap.keeps_trans env _ _ _ (hev _ _ _ _ hv)
            (Heap.keeps_trans env _ _ _ (Heap.keeps_write env _ _ _ _) (ih _ _ _ ht))
        next => cases ht

theorem eval_frames (h : Host) :
    ∀ (n : Nat) (st : Heap) (exp : Any) (env : Nat) (v : Any) (st1 : Heap),
      eval h n st exp env = .ok (v, st1) →
      Heap.keeps env st st1
        ∧ (exp.no_define = true → env < st.envs.length → st1.envs[env]? = st.envs[env]?) := by
  intro n
  induction n with
  | zero =>
    intro st exp env v st1 he
    simp [eval] at he
  | succ n ih =>
    intro st exp env v st1 he
    cases exp with
    | num x =>
      simp only [eval, Except.ok.injEq, Prod.mk.injEq] at he
      rw [← he.2]; exact ⟨Heap.keeps_refl env st, fun _ _ => rfl⟩
    | str s =>
      simp only [eval, Except.ok.injEq, Prod.mk.injEq] at he
      rw [← he.2]; exact ⟨Heap.keeps_refl env st, fun _ _ => rfl⟩
    | bool b =>
      simp only [eval, Except.ok.injEq, Prod.mk.injEq] at he
      rw [← he.2]; exact ⟨Heap.keeps_refl env st, fun _ _ => rfl⟩
    | sym s =>
      simp only [eval] at he
      split at he
      next =>
        simp only [Except.ok.injEq, Prod.mk.injEq] at he
        rw [← he.2]; exact ⟨Heap.keeps_refl env st, fun _ _ => rfl⟩
      next => cases he
    | define s e =>
      simp only [eval] at he
      split at he
      next v1 st2 h1 =>
        simp only [Except.ok.injEq, Prod.mk.injEq] at he
        rw [← he.2]
        exact ⟨Heap.keeps_trans env _ _ _ (ih _ _ _ _ _ h1).1 (Heap.keeps_define _ _ _ _),
          fun hnd => by simp [Any.no_define] at hnd⟩
      next => cases he
    | lambda p b =>
      simp only [eval, Except.ok.injEq, Prod.mk.injEq] at he
      rw [← he.2]; exact ⟨Heap.keeps_refl env st, fun _ _ => rfl⟩
    | quote e =>
      simp only [eval, Except.ok.injEq, Prod.mk.injEq] at he
      rw [← he.2]; exact ⟨Heap.keeps_refl env st, fun _ _ => rfl⟩
    | import_ code =>
      simp only [eval] at he
      split at he
      next e1 m h1 =>
        exact ⟨Heap.keeps_trans env _ _ _ (Heap.keeps_lists env st m) (ih _ _ _ _ _ he).1,
          fun hnd => by simp [Any.no_define] at hnd⟩
      next => cases he
    | if_ t c a =>
      simp only [eval] at he
      split at he
      next b st2 h1 =>
        obtain ⟨k1, s1⟩ := ih _ _ _ _ _ h1
        obtain ⟨k2, s2⟩ := ih _ _ _ _ _ he
        refine ⟨Heap.keeps_trans env _ _ _ k1 k2, fun hnd henv => ?_⟩
        simp only [Any.no_define, Bool.and_eq_true] at hnd
        have hb : (if b = true then c else a).no_define = true := by
          cases b
          · simpa using hnd.2
          · simpa using hnd.1.2
        rw [s2 hb (Nat.lt_of_lt_of_le henv k1.1), s1 hnd.1.1 henv]
      next => cases he
      next => cases he
    | begin_ p =>
      simp only [eval] at he
      split at he
      next => cases he
      next => cases he
      next x xs hl =>
        split at he
        next st2 h1 =>
          split at he
          next last hlast =>
            exact ⟨Heap.keeps_trans env _ _ _
              (transform_in_place_keeps env _ (fun s a w s1 hs => (ih s a env w s1 hs).1)
                p _ _ _ _ h1)
              (ih _ _ _ _ _ he).1, fun hnd => by simp [Any.no_define] at hnd⟩
          next => cases he
        next => cases he
    | lst l =>
      simp only [eval] at he
      split at he
      next => cases he
      next func args st2 h1 =>
        obtain ⟨k1, s1⟩ := transform_frames env _ (fun s a w s1 hs => ih s a env w s1 hs)
          _ _ _ _ h1
        split at he
        next parms body fenv =>
          split at he
          next frame hf =>
            obtain ⟨k2, _⟩ := ih _ _ _ _ _ he
            refine ⟨Heap.keeps_call env st st2 st1 frame k1 k2, fun hnd henv => ?_⟩
            have henv2 : env < st2.envs.length := Nat.lt_of_lt_of_le henv k1.1
            have hlen : (st2.alloc frame).envs.length = st2.envs.length + 1 := by
              simp [Heap.alloc]
            rw [k2.2 env (by omega) (by omega), Heap.alloc_getElem st2 frame env henv2,
              s1 (by simpa [Any.no_define] using hnd) henv]
          next => cases he
        next f =>
          split at he
          next w hw =>
            simp only [Except.ok.injEq, Prod.mk.injEq] at he
            rw [← he.2]
            exact ⟨k1, fun hnd henv => s1 (by simpa [Any.no_define] using hnd) henv⟩
          next => cases he
        next => cases he
      next => cases he
    | vec l => simp [eval] at he
    | function p b e => simp [eval] at he
    | fn f => simp [eval] at he

/-- C18: when `e` evaluates in the frame `F` to `v`, the `Define` of `s` as `e`
evaluates to `v`; every frame that existed before, other than `F`, is afterwards what
it was, the ancestors of `F` included, whether or not they bind `s`; an `e` that
performs no define of its own leaves `F` as it was; and when `e` leaves `F` as it was,
the frame `F` after the `Define` is the frame it was with `s` set to `v`: the same
`outer`, `s` bound to `v`, every other symbol bound as before. -/
theorem define_touches_only_its_frame (h : Host) (n : Nat) (st : Heap) (F : Nat) (s : String)
    (e v : Any) (st1 : Heap) (hF : F < st.envs.length)
    (he : eval h n st e F = .ok (v, st1)) :
    eval h (n + 1) st (.define s e) F = .ok (v, st1.define F s v)
      ∧ (∀ a, a < st.envs.length → a ≠ F → (st1.define F s v).envs[a]? = st.envs[a]?)
      ∧ (e.no_define = true → st1.envs[F]? = st.envs[F]?)
      ∧ (st1.envs[F]? = st.envs[F]? →
          ∃ f : Env, st.envs[F]? = some f
            ∧ (st1.define F s v).envs[F]? = some { self := f.self.set s v, outer := f.outer }
            ∧ (f.self.set s v).find s = some v
            ∧ ∀ t, t ≠ s → (f.self.set s v).find t = f.self.find t) := by
  obtain ⟨k1, s1⟩ := eval_frames h n st e F v st1 he
  refine ⟨by simp only [eval, he], ?_, fun hnd => s1 hnd hF, ?_⟩
  · intro a ha hne
    exact (Heap.keeps_trans F _ _ _ k1 (Heap.keeps_define F st1 s v)).2 a ha hne
  · intro hsame
    refine ⟨st.envs[F], List.getElem?_eq_getElem hF, ?_, Table.find_set_self _ _ _, ?_⟩
    · have h1 : st1.envs[F]? = some st.envs[F] := by
        rw [hsame]; exact List.getElem?_eq_getElem hF
      simp [Heap.define, List.getElem?_modify, h1]
    · intro t ht
      exact Table.find_set_other _ _ _ _ (Ne.symm ht)

/-- C18, witness: `(define car (+ x 1))` in a call frame binding `x` over the global
frame, which binds `car`. -/
theorem define_touches_only_its_frame_witness :
    eval stdHost (3 + 1) (global_env.alloc ⟨[("x", .num 1)], some 0⟩)
        (.define "car" (.lst [.sym "+", .sym "x", .num 1])) 1
        = .ok (.num 2, (global_env.alloc ⟨[("x", .num 1)], some 0⟩).define 1 "car" (.num 2))
      ∧ (∀ a, a < (global_env.alloc ⟨[("x", .num 1)], some 0⟩).envs.length → a ≠ 1 →
          ((global_env.alloc ⟨[("x", .num 1)], some 0⟩).define 1 "car" (.num 2)).envs[a]?
            = (global_env.alloc ⟨[("x", .num 1)], some 0⟩).envs[a]?)
      ∧ ((Any.lst [.sym "+", .sym "x", .num 1]).no_define = true →
          (global_env.alloc ⟨[("x", .num 1)], some 0⟩).envs[1]?
            = (global_env.alloc ⟨[("x", .num 1)], some 0⟩).envs[1]?)
      ∧ ((global_env.alloc ⟨[("x", .num 1)], some 0⟩).envs[1]?
            = (global_env.alloc ⟨[("x", .num 1)], some 0⟩).envs[1]? →
          ∃ f : Env, (global_env.alloc ⟨[("x", .num 1)], some 0⟩).envs[1]? = some f
            ∧ ((global_env.alloc ⟨[("x", .num 1)], some 0⟩).define 1 "car" (.num 2)).envs[1]?
              = some { self := f.self.set "car" (.num 2), outer := f.outer }
            ∧ (f.self.set "car" (.num 2)).find "car" = some (.num 2)
            ∧ ∀ t, t ≠ "car" → (f.self.set "car" (.num 2)).find t = f.self.find t) :=
  define_touches_only_its_frame stdHost 3 (global_env.alloc ⟨[("x", .num 1)], some 0⟩) 1 "car"
    (.lst [.sym "+", .sym "x", .num 1]) (.num 2) (global_env.alloc ⟨[("x", .num 1)], some 0⟩)
    (by decide) (by decide!)

/-! ### C20: what `eval` returns -/

mutual
theorem Any.runtime_value_plain :
    ∀ (a : Any), a.runtime_value = true → a.plain = true
  | .num _, _ => rfl
  | .str _, _ => rfl
  | .bool _, _ => rfl
  | .fn _, _ => rfl
  | .lst l, hv => by
    simp only [Any.runtime_value] at hv
    simp only [Any.plain]
    exact Any.all_runtime_values_plain l hv
  | .vec _, hv => by simp [Any.runtime_value] at hv
  | .function _ _ _, hv => by
    simp only [Any.runtime_value] at hv
    simp only [Any.plain]
    exact hv
  | .sym _, hv => by simp [Any.runtime_value] at hv
  | .if_ _ _ _, hv => by simp [Any.runtime_value] at hv
  | .quote _, hv => by simp [Any.runtime_value] at hv
  | .define _ _, hv => by simp [Any.runtime_value] at hv
  | .lambda _ _, hv => by simp [Any.runtime_value] at hv
  | .begin_ _, hv => by simp [Any.runtime_value] at hv
  | .import_ _, hv => by simp [Any.runtime_value] at hv
theorem Any.all_runtime_values_plain :
    ∀ (l : List Any), Any.all_runtime_values l = true → Any.all_plain l = true
  | [], _ => rfl
  | a :: l, hv => by
    simp only [Any.all_runtime_values, Bool.and_eq_true] at hv
    simp only [Any.all_plain, Bool.and_eq_true]
    exact ⟨Any.runtime_value_plain a hv.1, Any.all_runtime_values_plain l hv.2⟩
end

theorem Any.all_runtime_values_iff (l : List Any) :
    Any.all_runtime_values l = true ↔ ∀ x ∈ l, x.runtime_value = true := by
  induction l with
  | nil => simp [Any.all_runtime_values]
  | cons a l ih => simp [Any.all_runtime_values, ih]

theorem Any.all_plain_iff (l : List Any) :
    Any.all_plain l = true ↔ ∀ x ∈ l, x.plain = true := by
  induction l with
  | nil => simp [Any.all_plain]
  | cons a l ih => simp [Any.all_plain, ih]

/-- The values bound in a table are runtime values. -/
theorem Table.find_runtime (m : Table) (sym : String) (v : Any)
    (hm : ∀ kv ∈ m, kv.2.runtime_value = true) (hf : m.find sym = some v) :
    v.runtime_value = true := by
  induction m with
  | nil => simp [Table.find] at hf
  | cons kv m ih =>
    obtain ⟨k, w⟩ := kv
    simp only [Table.find] at hf
    split at hf
    · simp only [Option.some.injEq] at hf
      rw [← hf]
      exact hm (k, w) (List.mem_cons_self _ _)
    · exact ih (fun kv hkv => hm kv (List.mem_cons_of_mem _ hkv)) hf

theorem Table.set_runtime (m : Table) (sym : String) (v : Any)
    (hm : ∀ kv ∈ m, kv.2.runtime_value = true) (hv : v.runtime_value = true) :
    ∀ kv ∈ m.set sym v, kv.2.runtime_value = true := by
  induction m with
  | nil =>
    intro kv hkv
    simp only [Table.set, List.mem_singleton] at hkv
    rw [hkv]; exact hv
  | cons kw m ih =>
    obtain ⟨k, w⟩ := kw
    intro kv hkv
    simp only [Table.set] at hkv
    split at hkv
    · simp only [List.mem_cons] at hkv
      rcases hkv with hkv | hkv
      · rw [hkv]; exact hv
      · exact hm kv (List.mem_cons_of_mem _ hkv)
    · simp only [List.mem_cons] at hkv
      rcases hkv with hkv | hkv
      · rw [hkv]; exact hm (k, w) (List.mem_cons_self _ _)
      · exact ih (fun kv hkv => hm kv (List.mem_cons_of_mem _ hkv)) kv hkv

theorem mem_modify_cases {α : Type} (f : α → α) :
    ∀ (l : List α) (n : Nat) (x : α), x ∈ l.modify f n → x ∈ l ∨ ∃ y ∈ l, x = f y := by
  intro l
  induction l with
  | nil => intro n x hx; simp at hx
  | cons a l ih =>
    intro n x hx
    cases n with
    | zero =>
      simp only [List.modify_zero_cons, List.mem_cons] at hx
      rcases hx with hx | hx
      · exact Or.inr ⟨a, List.mem_cons_self _ _, hx⟩
      · exact Or.inl (List.mem_cons_of_mem _ hx)
    | succ n =>
      simp only [List.modify_succ_cons, List.mem_cons] at hx
      rcases hx with hx | hx
      · exact Or.inl (by rw [hx]; exact List.mem_cons_self _ _)
      · rcases ih n x hx with h1 | ⟨y, hy, hxy⟩
        · exact Or.inl (List.mem_cons_of_mem _ h1)
        · exact Or.inr ⟨y, List.mem_cons_of_mem _ hy, hxy⟩

/-- The two halves of `Heap.runtime`. -/
theorem Heap.runtime_iff (st : Heap) :
    st.runtime = true
      ↔ (∀ e ∈ st.envs, ∀ kv ∈ e.self, kv.2.runtime_value = true)
        ∧ (∀ l ∈ st.lists, ∀ x ∈ l, x.plain = true) := by
  simp [Heap.runtime, List.all_eq_true]

theorem Heap.define_runtime (st : Heap) (env : Nat) (sym : String) (v : Any)
    (hst : st.runtime = true) (hv : v.runtime_value = true) :
    (st.define env sym v).runtime = true := by
  rw [Heap.runtime_iff] at hst ⊢
  refine ⟨?_, hst.2⟩
  intro e he
  simp only [Heap.define] at he
  rcases mem_modify_cases _ _ _ _ he with h1 | ⟨y, hy, hxy⟩
  · exact hst.1 e h1
  · rw [hxy]
    exact Table.set_runtime y.self sym v (hst.1 y hy) hv

theorem Heap.alloc_runtime (st : Heap) (frame : Env) (hst : st.runtime = true)
    (hf : ∀ kv ∈ frame.self, kv.2.runtime_value = true) : (st.alloc frame).runtime = true := by
  rw [Heap.runtime_iff] at hst ⊢
  refine ⟨?_, hst.2⟩
  intro e he
  simp only [Heap.alloc, List.mem_append, List.mem_singleton] at he
  rcases he with he | he
  · exact hst.1 e he
  · rw [he]; exact hf

theorem Heap.write_runtime (st : Heap) (p i : Nat) (v : Any) (hst : st.runtime = true)
    (hv : v.runtime_value = true) : (st.write p i v).runtime = true := by
  rw [Heap.runtime_iff] at hst ⊢
  refine ⟨hst.1, ?_⟩
  intro l hl
  simp only [Heap.write] at hl
  rcases mem_modify_cases _ _ _ _ hl with h1 | ⟨y, hy, hxy⟩
  · exact hst.2 l h1
  · rw [hxy]
    intro x hx
    rcases List.mem_or_eq_of_mem_set hx with h2 | h2
    · exact hst.2 y hy x h2
    · rw [h2]; exact Any.runtime_value_plain v hv

theorem Env.getFrom_runtime (envs : List Env) (sym : String)
    (henvs : ∀ e ∈ envs, ∀ kv ∈ e.self, kv.2.runtime_value = true) :
    ∀ (n a : Nat) (v : Any), Env.getFrom envs sym n a = .ok v → v.runtime_value = true := by
  intro n
  induction n with
  | zero => intro a v hg; simp [Env.getFrom] at hg
  | succ n ih =>
    intro a v hg
    simp only [Env.getFrom] at hg
    split at hg
    · cases hg
    next e he =>
      split at hg
      next w hw =>
        simp only [Except.ok.injEq] at hg
        rw [← hg]
        exact Table.find_runtime e.self sym w (henvs e (List.getElem?_mem he)) hw
      next =>
        split at hg
        · exact ih _ _ hg
        · cases hg

theorem Env.bindAt_runtime (args : List Any) (hargs : ∀ x ∈ args, x.runtime_value = true) :
    ∀ (parms : List Any) (i : Nat) (self0 self : Table),
      (∀ kv ∈ self0, kv.2.runtime_value = true) →
      Env.bindAt args parms i self0 = .ok self → ∀ kv ∈ self, kv.2.runtime_value = true := by
  intro parms
  induction parms with
  | nil =>
    intro i self0 self h0 hb
    simp only [Env.bindAt, Except.ok.injEq] at hb
    rw [← hb]; exact h0
  | cons p parms ih =>
    intro i self0 self h0 hb
    simp only [Env.bindAt] at hb
    split at hb
    next s =>
      split at hb
      · cases hb
      next a ha =>
        exact ih (i + 1) _ self
          (Table.set_runtime self0 s a h0 (hargs a (List.getElem?_mem ha))) hb
    · cases hb

theorem Env.ctor_runtime (parms : Any) (args : List Any) (fenv : Nat) (frame : Env)
    (hp : parms.variadic = false) (hargs : ∀ x ∈ args, x.runtime_value = true)
    (hc : Env.ctor parms args fenv = .ok frame) :
    ∀ kv ∈ frame.self, kv.2.runtime_value = true := by
  unfold Env.ctor at hc
  split at hc
  next l =>
    split at hc
    next self hs =>
      simp only [Except.ok.injEq] at hc
      rw [← hc]
      exact Env.bindAt_runtime args hargs l 0 [] self (by simp) hs
    next => cases hc
  next s => simp [Any.variadic] at hp
  next => cases hc

theorem Prim.call_runtime (f : Prim) (args : List Any) (v : Any)
    (hargs : ∀ x ∈ args, x.runtime_value = true) (hc : f.call args = .ok v) :
    v.runtime_value = true := by
  cases f
  case plus | minus | multiplies =>
    simp only [Prim.call, accumulate] at hc
    split at hc
    · cases hc
    · cases hc
    · simp only [Except.ok.injEq] at hc
      rw [← hc]; rfl
  case divides =>
    simp only [Prim.call, accumulate] at hc
    split at hc
    · cases hc
    · split at hc
      · cases hc
      · cases hc
      · simp only [Except.ok.injEq] at hc
        rw [← hc]; rfl
  case gt | lt | le | ge | eq =>
    simp only [Prim.call, compare] at hc
    split at hc
    · split at hc
      · simp only [Except.ok.injEq] at hc
        rw [← hc]; rfl
      · cases hc
    · cases hc
  case car =>
    simp only [Prim.call] at hc
    split at hc
    · cases hc
    next l rest =>
      split at hc
      · cases hc
      next x t =>
        simp only [Except.ok.injEq] at hc
        rw [← hc]
        have h1 := hargs (.lst (x :: t)) (List.mem_cons_self _ _)
        simp only [Any.runtime_value, Any.all_runtime_values, Bool.and_eq_true] at h1
        exact h1.1
    · cases hc
  case cdr =>
    simp only [Prim.call] at hc
    split at hc
    · cases hc
    next l rest =>
      split at hc
      · cases hc
      next x t =>
        simp only [Except.ok.injEq] at hc
        rw [← hc]
        have h1 := hargs (.lst (x :: t)) (List.mem_cons_self _ _)
        simp only [Any.runtime_value, Any.all_runtime_values, Bool.and_eq_true] at h1
        simp only [Any.runtime_value]
        exact h1.2
    · cases hc
  case list =>
    simp only [Prim.call, Except.ok.injEq] at hc
    rw [← hc]
    simp only [Any.runtime_value]
    exact (Any.all_runtime_values_iff args).mpr hargs
  case length =>
    simp only [Prim.call] at hc
    split at hc
    · cases hc
    · simp only [Except.ok.injEq] at hc
      rw [← hc]; rfl
    · cases hc

theorem transform_runtime (ev : Heap → Any → Except Err (Any × Heap))
    (hev : ∀ st x v st1, st.runtime = true → x.plain = true → ev st x = .ok (v, st1) →
      v.runtime_value = true ∧ st1.runtime = true) :
    ∀ (xs : List Any) (st : Heap) (vs : List Any) (st1 : Heap),
      st.runtime = true → Any.all_plain xs = true → transform ev st xs = .ok (vs, st1) →
      (∀ x ∈ vs, x.runtime_value = true) ∧ st1.runtime = true := by
  intro xs
  induction xs with
  | nil =>
    intro st vs st1 hst _ ht
    simp only [transform, Except.ok.injEq, Prod.mk.injEq] at ht
    rw [← ht.1, ← ht.2]
    exact ⟨by simp, hst⟩
  | cons x xs ih =>
    intro st vs st1 hst hxs ht
    simp only [Any.all_plain, Bool.and_eq_true] at hxs
    simp only [transform] at ht
    split at ht
    next v st2 hx =>
      obtain ⟨hv, hst2⟩ := hev _ _ _ _ hst hxs.1 hx
      split at ht
      next vs2 st3 hrest =>
        obtain ⟨hvs, hst3⟩ := ih _ _ _ hst2 hxs.2 hrest
        simp only [Except.ok.injEq, Prod.mk.injEq] at ht
        rw [← ht.1, ← ht.2]
        refine ⟨?_, hst3⟩
        intro y hy
        simp only [List.mem_cons] at hy
        rcases hy with hy | hy
        · rw [hy]; exact hv
        · exact hvs y hy
      next => cases ht
    next => cases ht

theorem transform_in_place_runtime (ev : Heap → Any → Except Err (Any × Heap))
    (hev : ∀ st x v st1, st.runtime = true → x.plain = true → ev st x = .ok (v, st1) →
      v.runtime_value = true ∧ st1.runtime = true) (p : Nat) :
    ∀ (k i : Nat) (st st1 : Heap), st.runtime = true →
      transform_in_place ev p k i st = .ok st1 → st1.runtime = true := by
  intro k
  induction k with
  | zero =>
    intro i st st1 hst ht
    simp only [transform_in_place, Except.ok.injEq] at ht
    rw [← ht]; exact hst
  | succ k ih =>
    intro i st st1 hst ht
    simp only [transform_in_place] at ht
    split at ht
    next => cases ht
    next l hl =>
      split at ht
      next => cases ht
      next x hx =>
        have hxq : x.plain = true :=
          ((Heap.runtime_iff st).mp hst).2 l (List.getElem?_mem hl) x (List.getElem?_mem hx)
        split at ht
        next v st2 hv =>
          obtain ⟨hvr, hst2⟩ := hev _ _ _ _ hst hxq hv
          exact ih _ _ _ (Heap.write_runtime st2 p i v hst2 hvr) ht
        next => cases ht

/-- The invariant of `eval` on runtime values: in a heap where every value bound in a
frame is a runtime value and every vector of a `Begin` node holds `plain` nodes only,
whenever a `plain` expression evaluates to a value, that value is a runtime value and
the heap left behind satisfies the same condition.  Calls that capture their arguments
under a single symbol lie outside: there the frame receives the bare argument vector. -/
theorem eval_runtime (h : Host) :
    ∀ (n : Nat) (st : Heap) (exp : Any) (env : Nat) (v : Any) (st1 : Heap),
      st.runtime = true → exp.plain = true → eval h n st exp env = .ok (v, st1) →
      v.runtime_value = true ∧ st1.runtime = true := by
  intro n
  induction n with
  | zero =>
    intro st exp env v st1 _ _ he
    simp [eval] at he
  | succ n ih =>
    intro st exp env v st1 hst hq he
    cases exp with
    | num x =>
      simp only [eval, Except.ok.injEq, Prod.mk.injEq] at he
      rw [← he.1, ← he.2]; exact ⟨rfl, hst⟩
    | str s =>
      simp only [eval, Except.ok.injEq, Prod.mk.injEq] at he
      rw [← he.1, ← he.2]; exact ⟨rfl, hst⟩
    | bool b =>
      simp only [eval, Except.ok.injEq, Prod.mk.injEq] at he
      rw [← he.1, ← he.2]; exact ⟨rfl, hst⟩
    | sym s =>
      simp only [eval] at he
      split at he
      next w hw =>
        simp only [Except.ok.injEq, Prod.mk.injEq] at he
        rw [← he.1, ← he.2]
        exact ⟨Env.getFrom_runtime st.envs s ((Heap.runtime_iff st).mp hst).1 _ _ _ hw, hst⟩
      next => cases he
    | define s e =>
      simp only [Any.plain] at hq
      simp only [eval] at he
      split at he
      next v1 st2 h1 =>
        obtain ⟨hv, hst2⟩ := ih _ _ _ _ _ hst hq h1
        simp only [Except.ok.injEq, Prod.mk.injEq] at he
        rw [← he.1, ← he.2]
        exact ⟨hv, Heap.define_runtime st2 env s v1 hst2 hv⟩
      next => cases he
    | lambda p b =>
      simp only [Any.plain] at hq
      simp only [eval, Except.ok.injEq, Prod.mk.injEq] at he
      rw [← he.1, ← he.2]
      exact ⟨by simpa [Any.runtime_value] using hq, hst⟩
    | quote e => simp [Any.plain] at hq
    | import_ code => simp [Any.plain] at hq
    | if_ t c a =>
      simp only [Any.plain, Bool.and_eq_true] at hq
      simp only [eval] at he
      split at he
      next b st2 h1 =>
        obtain ⟨_, hst2⟩ := ih _ _ _ _ _ hst hq.1.1 h1
        have hb : (if b = true then c else a).plain = true := by
          cases b
          · simpa using hq.2
          · simpa using hq.1.2
        exact ih _ _ _ _ _ hst2 hb he
      next => cases he
      next => cases he
    | begin_ p =>
      simp only [eval] at he
      split at he
      next => cases he
      next => cases he
      next x xs hl =>
        split at he
        next st2 h1 =>
          have hst2 := transform_in_place_runtime _
            (fun s a w s1 hs ha hw => ih s a env w s1 hs ha hw) p _ _ _ _ hst h1
          split at he
          next last hlast =>
            have hlq : last.plain = true := by
              cases hp : st2.lists[p]? with
              | none => simp [hp] at hlast
              | some l =>
                simp only [hp, Option.bind_some] at hlast
                exact ((Heap.runtime_iff st2).mp hst2).2 l (List.getElem?_mem hp) last
                  (List.mem_of_getLast?_eq_some hlast)
            exact ih _ _ _ _ _ hst2 hlq he
          next => cases he
        next => cases he
    | lst l =>
      simp only [Any.plain] at hq
      simp only [eval] at he
      split at he
      next => cases he
      next func args st2 h1 =>
        obtain ⟨hvs, hst2⟩ := transform_runtime _
          (fun s a w s1 hs ha hw => ih s a env w s1 hs ha hw) _ _ _ _ hst hq h1
        have hfunc := hvs func (List.mem_cons_self _ _)
        have hargs : ∀ x ∈ args, x.runtime_value = true :=
          fun x hx => hvs x (List.mem_cons_of_mem _ hx)
        split at he
        next parms body fenv =>
          simp only [Any.runtime_value, Bool.and_eq_true, Bool.not_eq_true'] at hfunc
          split at he
          next frame hf =>
            exact ih _ _ _ _ _
              (Heap.alloc_runtime st2 frame hst2
                (Env.ctor_runtime parms args fenv frame hfunc.1 hargs hf))
              hfunc.2 he
          next => cases he
        next f =>
          split at he
          next w hw =>
            simp only [Except.ok.injEq, Prod.mk.injEq] at he
            rw [← he.1, ← he.2]
            exact ⟨Prim.call_runtime f args w hargs hw, hst2⟩
          next => cases he
        next => cases he
      next => cases he
    | vec l => simp [eval] at he
    | function p b e => simp [eval] at he
    | fn f => simp [eval] at he

/-- The invariant at work: `((lambda (x) (list x +)) 1)` in the global frame. -/
theorem eval_runtime_example :
    (Any.lst [.num 1, .fn .plus]).runtime_value = true
      ∧ (global_env.alloc ⟨[("x", .num 1)], some 0⟩).runtime = true :=
  eval_runtime stdHost 5 global_env
    (.lst [.lambda (.lst [.sym "x"]) (.lst [.sym "list", .sym "x", .sym "+"]), .num 1]) 0
    (.lst [.num 1, .fn .plus]) (global_env.alloc ⟨[("x", .num 1)], some 0⟩)
    (by decide!) (by decide) (by decide!)

mutual
/-- A `plain` node holds no `Quote` and no `Import` node. -/
theorem Any.plain_quote_free : ∀ (a : Any), a.plain = true → a.quote_free = true
  | .num _, _ => rfl
  | .str _, _ => rfl
  | .sym _, _ => rfl
  | .bool _, _ => rfl
  | .fn _, _ => rfl
  | .begin_ _, _ => rfl
  | .quote _, hp => by simp [Any.plain] at hp
  | .import_ _, hp => by simp [Any.plain] at hp
  | .vec _, hp => by simp [Any.plain] at hp
  | .lst l, hp => by
    simp only [Any.plain] at hp
    simp only [Any.quote_free]
    exact Any.all_plain_quote_free l hp
  | .if_ t c a, hp => by
    simp only [Any.plain, Bool.and_eq_true] at hp
    simp only [Any.quote_free, Bool.and_eq_true]
    exact ⟨⟨Any.plain_quote_free t hp.1.1, Any.plain_quote_free c hp.1.2⟩,
      Any.plain_quote_free a hp.2⟩
  | .define _ e, hp => by
    simp only [Any.plain] at hp
    simp only [Any.quote_free]
    exact Any.plain_quote_free e hp
  | .lambda _ b, hp => by
    simp only [Any.plain, Bool.and_eq_true] at hp
    simp only [Any.quote_free]
    exact Any.plain_quote_free b hp.2
  | .function _ b _, hp => by
    simp only [Any.plain, Bool.and_eq_true] at hp
    simp only [Any.quote_free]
    exact Any.plain_quote_free b hp.2
theorem Any.all_plain_quote_free :
    ∀ (l : List Any), Any.all_plain l = true → Any.all_quote_free l = true
  | [], _ => rfl
  | a :: l, hp => by
    simp only [Any.all_plain, Bool.and_eq_true] at hp
    simp only [Any.all_quote_free, Bool.and_eq_true]
    exact ⟨Any.plain_quote_free a hp.1, Any.all_plain_quote_free l hp.2⟩
end

/-- An `Import` node carries the text of a file, which `eval` reads and evaluates in
place: with a file `quoted.scm` holding `(quote (define a 1))`, the expression
`(import "quoted.scm")` evaluates to the `Define` node that the text quotes.  This is
why a `plain` expression holds no `Import` node. -/
theorem import_returns_quoted_node :
    read quoteFileHost "(import \"quoted.scm\")" [] = .ok (.import_ "(quote (define a 1))", [])
      ∧ (eval quoteFileHost 10 global_env (.import_ "(quote (define a 1))") 0).map (·.1)
        = .ok (.define "a" (.num 1))
      ∧ (test quoteFileHost 10 global_env "(import \"quoted.scm\")").map (·.1)
        = .ok "(define a 1)" := by
  decide!

/-- The type of a runtime value is one of `Number`, `String`, `Boolean`, `lst_ptr`,
`fun_ptr` and `Function`: never `Symbol`, `If`, `Define`, `Lambda`, `Begin`, `Import`
or `Quote`, nor the bare vector `List`. -/
theorem Any.runtime_value_type (v : Any) (hv : v.runtime_value = true) :
    v.type = .Number ∨ v.type = .String ∨ v.type = .Boolean ∨ v.type = .lst_ptr
      ∨ v.type = .fun_ptr ∨ v.type = .Function := by
  cases v <;> simp [Any.runtime_value, Any.type] at hv ⊢

/-- C20, the code at the failing input: `((lambda p p) 1 2)` holds no quote form (and no
import), and every value bound in the global frame is a runtime value; yet `eval`
returns the bare argument vector, whose type is none of `Number`, `String`, `Boolean`,
`lst_ptr`, `fun_ptr`, `Function`, and leaves that vector bound to `p` in the frame of
the call, so the frames no longer hold runtime values only.  The same call with the
pattern `(a b)` and the `list` primitive returns a list of runtime values and leaves a
heap of runtime values. -/
theorem variadic_call_breaks_runtime_invariant :
    read stdHost "((lambda p p) 1 2)" []
        = .ok (.lst [.lambda (.sym "p") (.sym "p"), .num 1, .num 2], [])
      ∧ (Any.lst [.lambda (.sym "p") (.sym "p"), .num 1, .num 2]).quote_free = true
      ∧ global_env.runtime = true
      ∧ eval stdHost 10 global_env (.lst [.lambda (.sym "p") (.sym "p"), .num 1, .num 2]) 0
        = .ok (.vec [.num 1, .num 2],
            global_env.alloc ⟨[("p", .vec [.num 1, .num 2])], some 0⟩)
      ∧ (Any.vec [.num 1, .num 2]).type = .List
      ∧ (Any.vec [.num 1, .num 2]).runtime_value = false
      ∧ (global_env.alloc ⟨[("p", .vec [.num 1, .num 2])], some 0⟩).runtime = false
      ∧ (match test stdHost 10 global_env "((lambda (a b) (list a b)) 1 2)" with
          | .ok (out, st) => some (out, st.runtime)
          | .error _ => none) = some ("(1 2)", true) := by
  decide!

end scm
